import Mathlib

/-!
# Tartarus: rooms, areas, breadth-first search and game objects

A shallow embedding of `area.c` and `game_object.c`.

C arrays are lists, a C `int` that holds a room id, a distance or a field of an
object is an `Int`, a C string is the list of its bytes, and a call that
reaches an access the C program does not define (an index outside a table, a
null string given to `%s`) ends in a `fault` that names the access.
-/

namespace Tartarus

/-! ## Faults -/

/-- The tables and buffers that a function of `area.c` or `game_object.c`
indexes. -/
inductive table where
  | colors
  | distances
  | predecessors
  | rooms
  | room_ids
  | exits
  | keywords
  | buf
  deriving DecidableEq, Repr

/-- The ways a modelled call ends without a result: an access outside a table
(the table and the index used), a null pointer that is dereferenced, or a loop
that was cut off by its step budget. -/
inductive fault where
  | out_of_bounds (t : table) (i : Int)
  | null_pointer
  | out_of_fuel
  deriving DecidableEq, Repr

/-- The read `xs[i]` of a C array whose cells are the list `xs`. -/
def read {α : Type} (t : table) (xs : List α) (i : Int) : Except fault α :=
  if i < 0 then Except.error (fault.out_of_bounds t i)
  else
    match xs[i.toNat]? with
    | some a => Except.ok a
    | none => Except.error (fault.out_of_bounds t i)

/-- The write `xs[i] = a` of a C array whose cells are the list `xs`. -/
def write {α : Type} (t : table) (xs : List α) (i : Int) (a : α) :
    Except fault (List α) :=
  if i < 0 then Except.error (fault.out_of_bounds t i)
  else if i.toNat < xs.length then Except.ok (xs.set i.toNat a)
  else Except.error (fault.out_of_bounds t i)

/-! ## Strings and integers -/

/-- A C string: its bytes, each a number below 256 and none of them zero,
without the closing zero byte. -/
abbrev c_string := List Nat

/-- The UTF-8 bytes of a character. -/
def utf8_char (c : Char) : List Nat :=
  let v := c.toNat
  if v < 128 then [v]
  else if v < 2048 then [192 + v / 64, 128 + v % 64]
  else if v < 65536 then [224 + v / 4096, 128 + v / 64 % 64, 128 + v % 64]
  else [240 + v / 262144, 128 + v / 4096 % 64, 128 + v / 64 % 64, 128 + v % 64]

/-- The UTF-8 bytes of a text: the C string that a string literal stands
for. -/
def utf8 (s : String) : c_string :=
  s.data.flatMap utf8_char

/-- The C string at a pointer to the bytes `bs`: the bytes before the first
zero byte. -/
def c_str (bs : List Nat) : c_string :=
  bs.takeWhile (fun b => b != 0)

/-- The bytes of the C string that starts with the first byte of `bs`, `none`
when no zero byte closes it before the bytes end. -/
def c_string_of : List Nat → Option c_string
  | [] => none
  | b :: bs => if b = 0 then some [] else (c_string_of bs).map (fun s => b :: s)

/-- The conversion of a `json_int_t`, which has 64 bits, to an `int`, which has
32 bits: the value is reduced modulo 2^32 into the range of `int`, as gcc and
clang define the conversion. -/
def to_int (v : Int) : Int :=
  (v + 2147483648) % 4294967296 - 2147483648

/-- The value is in the range of a C `int`. -/
def is_int (v : Int) : Prop :=
  -2147483648 ≤ v ∧ v < 2147483648

instance (v : Int) : Decidable (is_int v) := instDecidableAnd

/-- The function `tolower` of the C library in the C locale, on a byte. -/
def tolower (b : Nat) : Nat :=
  if 65 ≤ b ∧ b ≤ 90 then b + 32 else b
/-! ## Data model -/

/-- Modelled from the spec: `area.h` is not among the sources; the number of
exits of a room, one per direction north, east, south, west (the table
`exit_names` of `area.c` has these four entries). -/
def MAX_ROOM_EXITS : Nat := 4

/-- Modelled from the spec: `area.h` is not among the sources; the three vertex
colours of the search, `VERTEX_WHITE` (unvisited), `VERTEX_GRAY` (discovered)
and `VERTEX_BLACK` (finished). -/
inductive vertex_color where
  | VERTEX_WHITE
  | VERTEX_GRAY
  | VERTEX_BLACK
  deriving DecidableEq, Repr

open vertex_color

/-- An item (`game_object_t`). `name` is the C string in the name buffer and
`keywords` are the bytes of the keyword table, row after row; the first
`num_keywords` rows are declared. The chain through `next` is the list that
holds the object. -/
structure game_object_t where
  name : c_string
  keywords : List Nat
  num_keywords : Int
  is_static : Int
  rarity : Int
  type : Int
  armor : Int
  damage : Int
  wear_location : Int
  opens_area_id : Int
  opens_room_id : Int
  deriving DecidableEq, Repr

/-- A player, as far as `area.c` looks at one: the address of the record (its
identity) and the user name. -/
structure player_t where
  addr : Nat
  username : c_string
  deriving DecidableEq, Repr

/-- A non-player character, as far as `area.c` looks at one. -/
structure npc_t where
  addr : Nat
  name : c_string
  color : c_string
  ch_state : Int
  deriving DecidableEq, Repr

/-- A room (`room_t`). The three exit arrays have `MAX_ROOM_EXITS` cells; the
chains `objects`, `players` and `npcs` are lists, head first. -/
structure room_t where
  id : Int
  area_id : Int := 0
  name : c_string := []
  description : c_string := []
  exits : List Int
  exit_areas : List Int := [0, 0, 0, 0]
  locked_exits : List Int := [0, 0, 0, 0]
  objects : List game_object_t := []
  players : List player_t := []
  npcs : List npc_t := []
  deriving DecidableEq, Repr

/-- An area (`area_t`). The cell `i` of `rooms` is the pointer `area->rooms[i]`,
`none` while nothing has been stored in it. -/
structure area_t where
  id : Int := 0
  name : c_string := []
  num_rooms : Nat
  rooms : List (Option room_t)
  deriving DecidableEq, Repr

/-- The three result tables of a search (`area_graph_data_t`). -/
structure area_graph_data_t where
  predecessors : List Int
  colors : List vertex_color
  distances : List Int
  deriving DecidableEq, Repr

/-- The queue of room ids (`room_queue_t`). -/
structure room_queue_t where
  room_ids : List Int
  head : Nat
  tail : Nat
  size : Nat
  deriving DecidableEq, Repr

/-! ## The queue -/

/-- The function `create_queue`: `n` cells, head and tail at 0. The cells come
from `malloc`; they are written before they are read, and start as 0 here. -/
def create_queue (n : Nat) : room_queue_t :=
  { room_ids := List.replicate n 0, head := 0, tail := 0, size := n }

/-- The function `enqueue`: store at `tail`, then advance `tail`, back to 0
when it equals `size`. -/
def enqueue (q : room_queue_t) (room_id : Int) : Except fault room_queue_t := do
  let ids ← write table.room_ids q.room_ids (q.tail : Int) room_id
  if q.tail = q.size then
    pure { q with room_ids := ids, tail := 0 }
  else
    pure { q with room_ids := ids, tail := q.tail + 1 }

/-- The function `dequeue`: read at `head`, then advance `head`, back to 0 when
it equals `size`. -/
def dequeue (q : room_queue_t) : Except fault (Int × room_queue_t) := do
  let room_id ← read table.room_ids q.room_ids (q.head : Int)
  if q.head = q.size then
    pure (room_id, { q with head := 0 })
  else
    pure (room_id, { q with head := q.head + 1 })

/-- The function `is_empty_queue`. -/
def is_empty_queue (q : room_queue_t) : Bool :=
  q.tail == q.head

/-! ## Breadth-first search -/

/-- The state of the `while` loop of `area_bfs`: the result tables, the queue
and, as a record of the run, the ids that `dequeue` has returned so far. -/
structure bfs_state where
  d : area_graph_data_t
  q : room_queue_t
  dequeued : List Int
  deriving DecidableEq, Repr

/-- The pointer read `area->rooms[ui]` followed by a use of the room. -/
def room_at (area : area_t) (ui : Int) : Except fault room_t := do
  let p ← read table.rooms area.rooms ui
  match p with
  | some u => pure u
  | none => Except.error fault.null_pointer

/-- The body of the `for` loop of `area_bfs` for the exit value `vi` of the
room `ui`: a destination that exists and is white turns gray, gets its
distance and predecessor and is enqueued. -/
def visit (ui vi : Int) (st : bfs_state) : Except fault bfs_state :=
  if 0 ≤ vi then do
    let c ← read table.colors st.d.colors vi
    if c = VERTEX_WHITE then do
      let colors ← write table.colors st.d.colors vi VERTEX_GRAY
      let du ← read table.distances st.d.distances ui
      let distances ← write table.distances st.d.distances vi (du + 1)
      let predecessors ← write table.predecessors st.d.predecessors vi ui
      let q ← enqueue st.q vi
      pure { st with
        d := { predecessors := predecessors, colors := colors, distances := distances },
        q := q }
    else
      pure st
  else
    pure st

/-- The `for` loop of `area_bfs` over the exit indexes `js` of the room `u`
that was dequeued as `ui`. -/
def scan_exits (u : room_t) (ui : Int) : List Nat → bfs_state → Except fault bfs_state
  | [], st => pure st
  | j :: js, st => do
    let vi ← read table.exits u.exits (j : Int)
    let st1 ← visit ui vi st
    scan_exits u ui js st1

/-- One turn of the `while` loop of `area_bfs` on a non-empty queue: dequeue
`ui`, scan the exits of `area->rooms[ui]` in index order, colour `ui` black. -/
def bfs_step (area : area_t) (st : bfs_state) : Except fault bfs_state := do
  let (ui, q) ← dequeue st.q
  let u ← room_at area ui
  let st1 ← scan_exits u ui (List.range MAX_ROOM_EXITS)
    { st with q := q, dequeued := st.dequeued ++ [ui] }
  let colors ← write table.colors st1.d.colors ui VERTEX_BLACK
  pure { st1 with d := { st1.d with colors := colors } }

/-- The `while` loop of `area_bfs`, cut off after `fuel` turns. -/
def bfs_loop (area : area_t) : Nat → bfs_state → Except fault bfs_state
  | 0, st => if is_empty_queue st.q then pure st else Except.error fault.out_of_fuel
  | fuel + 1, st =>
    if is_empty_queue st.q then pure st
    else do
      let st1 ← bfs_step area st
      bfs_loop area fuel st1

/-- The state of `area_bfs` when its `while` loop is entered: every room
white, at distance 0 and without predecessor, then the source gray and
enqueued. -/
def bfs_init (area : area_t) (source : room_t) : Except fault bfs_state := do
  let n := area.num_rooms
  let colors ← write table.colors (List.replicate n VERTEX_WHITE) source.id VERTEX_GRAY
  let q ← enqueue (create_queue n) source.id
  pure {
    d := { predecessors := List.replicate n (-1), colors := colors,
           distances := List.replicate n 0 },
    q := q,
    dequeued := [] }

/-- The function `area_bfs` up to the point where the queue is freed: the
final state of the loop, run for at most `fuel` turns. -/
def area_bfs_run (fuel : Nat) (area : area_t) (source : room_t) : Except fault bfs_state := do
  let st ← bfs_init area source
  bfs_loop area fuel st

/-- The function `area_bfs`: the result tables of the search from `source`. -/
def area_bfs (fuel : Nat) (area : area_t) (source : room_t) :
    Except fault area_graph_data_t := do
  let st ← area_bfs_run fuel area source
  pure st.d

/-! ## Path printing -/

/-- What one `printf` of `print_path` writes: `"%d"` for the source,
`" -> %d"` for a later room, or the line `"no path from %d to %d\n"`. -/
inductive path_out where
  | first (u : Int)
  | arrow (v : Int)
  | no_path (u v : Int)
  deriving DecidableEq, Repr

/-- The function `print_path`: what it prints, in order, for the recursion cut
off at depth `fuel`. -/
def print_path (d : area_graph_data_t) (u : Int) :
    Nat → Int → Except fault (List path_out)
  | 0, _ => Except.error fault.out_of_fuel
  | fuel + 1, v =>
    if u = v then pure [path_out.first u]
    else do
      let p ← read table.predecessors d.predecessors v
      if p = -1 then pure [path_out.no_path u v]
      else do
        let out ← print_path d u fuel p
        pure (out ++ [path_out.arrow v])

/-! ## The example area of the spec -/

/-- The five-room area: the cycle 0, 1, 2, 3 with both directions of every
edge, and room 4 north of room 1. -/
def example_area : area_t :=
  { num_rooms := 5,
    rooms := [
      some { id := 0, exits := [-1, 1, 3, -1] },
      some { id := 1, exits := [4, -1, 2, 0] },
      some { id := 2, exits := [1, -1, -1, 3] },
      some { id := 3, exits := [0, 2, -1, -1] },
      some { id := 4, exits := [-1, -1, -1, -1] } ] }

/-- The source room of the example. -/
def example_source : room_t := { id := 0, exits := [-1, 1, 3, -1] }

/-! ## Well-formed areas and exit paths -/

/-- The cell `i` of a well-formed room table: a room whose id is `i`, with
`MAX_ROOM_EXITS` exits, each negative or the id of a room of the area. -/
def room_ok (n i : Nat) : Option room_t → Prop
  | some r => r.id = (i : Int) ∧ r.exits.length = MAX_ROOM_EXITS ∧
      ∀ v ∈ r.exits, v < 0 ∨ v < (n : Int)
  | none => False

instance (n i : Nat) (o : Option room_t) : Decidable (room_ok n i o) := by
  cases o with
  | none => exact instDecidableFalse
  | some r => exact instDecidableAnd

/-- A well-formed area: the table has `num_rooms` cells and every cell is
`room_ok`. -/
def well_formed (area : area_t) : Prop :=
  area.rooms.length = area.num_rooms ∧
  ∀ i, i < area.num_rooms → room_ok area.num_rooms i (area.rooms.getD i none)

instance (area : area_t) : Decidable (well_formed area) := instDecidableAnd

/-- A source room whose id is in range for the area. -/
def in_range (area : area_t) (source : room_t) : Prop :=
  0 ≤ source.id ∧ source.id < (area.num_rooms : Int)

instance (area : area_t) (source : room_t) : Decidable (in_range area source) :=
  instDecidableAnd

/-- Room `u` has an exit that leads to room `v`. -/
def has_exit (area : area_t) (u v : Nat) : Prop :=
  ∃ r, area.rooms[u]? = some (some r) ∧ (v : Int) ∈ r.exits

/-- The rooms `s` and `r` are joined by an exit path: `exit_path area s r k`
says that `k` exit traversals lead from `s` to `r`. -/
inductive exit_path (area : area_t) (s : Nat) : Nat → Nat → Prop where
  | start : exit_path area s s 0
  | step {u v k : Nat} : exit_path area s u k → has_exit area u v →
      exit_path area s v (k + 1)

/-- Room `r` is reachable from room `s` by exits. -/
def reachable (area : area_t) (s r : Nat) : Prop :=
  ∃ k, exit_path area s r k

/-- The colour of room `v` in a result. -/
def colorOf (d : area_graph_data_t) (v : Nat) : vertex_color :=
  d.colors.getD v VERTEX_WHITE

/-- The distance of room `v` in a result. -/
def distOf (d : area_graph_data_t) (v : Nat) : Int :=
  d.distances.getD v 0

/-- The predecessor of room `v` in a result. -/
def predOf (d : area_graph_data_t) (v : Nat) : Int :=
  d.predecessors.getD v (-1)

/-! ## The invariant of the search -/

/-- The invariant of the loops of `area_bfs`, for the rooms `ord` enqueued so
far, in order, of which the first `h` are finished. -/
structure bfs_inv (area : area_t) (s : Nat) (d : area_graph_data_t) (q : room_queue_t)
    (ord : List Nat) (h : Nat) : Prop where
  len_c : d.colors.length = area.num_rooms
  len_d : d.distances.length = area.num_rooms
  len_p : d.predecessors.length = area.num_rooms
  len_q : q.room_ids.length = area.num_rooms
  size : q.size = area.num_rooms
  tail : q.tail = ord.length
  ids : ∀ (i v : Nat), ord[i]? = some v → q.room_ids[i]? = some (v : Int)
  nodup : ord.Nodup
  range : ∀ v ∈ ord, v < area.num_rooms
  hle : h ≤ ord.length
  black : ∀ (i v : Nat), ord[i]? = some v → i < h → colorOf d v = VERTEX_BLACK
  gray : ∀ (i v : Nat), ord[i]? = some v → h ≤ i → colorOf d v = VERTEX_GRAY
  white : ∀ (v : Nat), v ∉ ord → colorOf d v = VERTEX_WHITE ∧ distOf d v = 0 ∧ predOf d v = -1
  first : ord[0]? = some s
  dist_s : distOf d s = 0
  pred_s : predOf d s = -1
  nonneg : ∀ (v : Nat), 0 ≤ distOf d v
  mono : ∀ (i j u v : Nat), ord[i]? = some u → ord[j]? = some v → i ≤ j →
    distOf d u ≤ distOf d v
  bound : ∀ (u v : Nat), ord[h]? = some u → v ∈ ord → distOf d v ≤ distOf d u + 1
  tree : ∀ (i v : Nat), ord[i]? = some v → 0 < i →
    ∃ k u, k < i ∧ ord[k]? = some u ∧ predOf d v = (u : Int) ∧ has_exit area u v ∧
      distOf d v = distOf d u + 1 ∧
      ∀ k1 u1, k1 < k → ord[k1]? = some u1 → ¬ has_exit area u1 v
  closed : ∀ (k u w : Nat), ord[k]? = some u → k < h → has_exit area u w →
    w ∈ ord ∧ distOf d w ≤ distOf d u + 1

/-- The tables after room `vi` has been discovered from room `u`. -/
def discover_d (d : area_graph_data_t) (u vi : Nat) : area_graph_data_t :=
  { predecessors := d.predecessors.set vi (u : Int),
    colors := d.colors.set vi VERTEX_GRAY,
    distances := d.distances.set vi (distOf d u + 1) }

/-- The queue after room `vi` has been enqueued. -/
def discover_q (q : room_queue_t) (vi : Nat) : room_queue_t :=
  { q with room_ids := q.room_ids.set q.tail (vi : Int), tail := q.tail + 1 }

/-- The tables after room `u` has been finished. -/
def finish_d (d : area_graph_data_t) (u : Nat) : area_graph_data_t :=
  { d with colors := d.colors.set u VERTEX_BLACK }

/-- The tables when the `while` loop is entered. -/
def init_d (n s : Nat) : area_graph_data_t :=
  { predecessors := List.replicate n (-1),
    colors := (List.replicate n VERTEX_WHITE).set s VERTEX_GRAY,
    distances := List.replicate n 0 }

/-- The queue when the `while` loop is entered. -/
def init_q (n s : Nat) : room_queue_t :=
  { room_ids := (List.replicate n (0 : Int)).set 0 (s : Int), head := 0, tail := 1, size := n }

/-- An area with a room that no exit leads to: rooms 0 and 1 joined both ways,
and room 2 with an exit to room 0. -/
def island_area : area_t :=
  { num_rooms := 3,
    rooms := [
      some { id := 0, exits := [-1, 1, -1, -1] },
      some { id := 1, exits := [-1, -1, -1, 0] },
      some { id := 2, exits := [0, -1, -1, -1] } ] }

/-- The source room of `island_area`. -/
def island_source : room_t := { id := 0, exits := [-1, 1, -1, -1] }

/-- A room with its locked flags erased. -/
def erase_locked (r : room_t) : room_t :=
  { r with locked_exits := [] }

/-- Two areas that differ in locked flags only: the same number of rooms, and
the same rooms once the locked flags are erased. -/
def differ_in_locked_only (a b : area_t) : Prop :=
  a.num_rooms = b.num_rooms ∧
  a.rooms.map (Option.map erase_locked) = b.rooms.map (Option.map erase_locked)

instance (a b : area_t) : Decidable (differ_in_locked_only a b) := instDecidableAnd

/-- A room with its destination areas and its own area erased. -/
def erase_exit_areas (r : room_t) : room_t :=
  { r with exit_areas := [], area_id := 0 }

/-- Two areas that differ in the area ids of rooms and exits only. -/
def differ_in_exit_areas_only (a b : area_t) : Prop :=
  a.num_rooms = b.num_rooms ∧
  a.rooms.map (Option.map erase_exit_areas) = b.rooms.map (Option.map erase_exit_areas)

instance (a b : area_t) : Decidable (differ_in_exit_areas_only a b) := instDecidableAnd

/-- The clearing of the exits of a room that lead to another area. -/
def drop_cross_area_exits (r : room_t) : room_t :=
  let keep : Int → Int → Int := fun e ea => if ea = r.area_id then e else -1
  { r with exits := List.zipWith keep r.exits r.exit_areas }

/-- An area with every cross-area exit replaced by the no-exit value -1. -/
def without_cross_area_exits (a : area_t) : area_t :=
  { a with rooms := a.rooms.map (Option.map drop_cross_area_exits) }

/-- Two rooms of area 0; the east exit of room 0 has the id 1 and leads to
area 7. -/
def border_area : area_t :=
  { num_rooms := 2,
    rooms := [
      some { id := 0, exits := [-1, 1, -1, -1], exit_areas := [0, 7, 0, 0] },
      some { id := 1, exits := [-1, -1, -1, -1] } ] }

/-- The source room of `border_area`. -/
def border_source : room_t :=
  { id := 0, exits := [-1, 1, -1, -1], exit_areas := [0, 7, 0, 0] }

/-- The area `border_area` with the east exit of room 0 said to lead to area 0. -/
def border_area_same : area_t :=
  { num_rooms := 2,
    rooms := [
      some { id := 0, exits := [-1, 1, -1, -1], exit_areas := [0, 0, 0, 0] },
      some { id := 1, exits := [-1, -1, -1, -1] } ] }

/-- The example area with the door from room 1 to room 4 and the door from
room 0 to room 3 locked. -/
def example_area_locked : area_t :=
  { num_rooms := 5,
    rooms := [
      some { id := 0, exits := [-1, 1, 3, -1], locked_exits := [0, 0, 1, 0] },
      some { id := 1, exits := [4, -1, 2, 0], locked_exits := [1, 0, 0, 0] },
      some { id := 2, exits := [1, -1, -1, 3] },
      some { id := 3, exits := [0, 2, -1, -1] },
      some { id := 4, exits := [-1, -1, -1, -1] } ] }

/-! ## Documents -/

/-- A parsed document, the `json_t` of the jansson library. A string value
holds the bytes of its text in UTF-8. A pointer to a document is an
`Option json_t`, `none` for `NULL`. -/
inductive json_t where
  | null
  | boolean (b : Bool)
  | integer (n : Int)
  | string (s : List Nat)
  | array (xs : List json_t)
  | object (kvs : List (String × json_t))

/-- The jansson function `json_object_get`: the value stored under `key`, `NULL`
when `json` is no object or has no such key. -/
def json_object_get (json : Option json_t) (key : String) : Option json_t :=
  match json with
  | some (json_t.object kvs) => kvs.lookup key
  | _ => none

/-- The jansson function `json_array_size`: the number of elements, 0 when
`json` is no array. -/
def json_array_size (json : Option json_t) : Nat :=
  match json with
  | some (json_t.array xs) => xs.length
  | _ => 0

/-- The jansson function `json_array_get`: the element at `index`, `NULL` when
`json` is no array or the index is out of range. -/
def json_array_get (json : Option json_t) (index : Nat) : Option json_t :=
  match json with
  | some (json_t.array xs) => xs[index]?
  | _ => none

/-- The jansson function `json_integer_value`: the number of an integer, a
`json_int_t`, and 0 for anything else. -/
def json_integer_value (json : Option json_t) : Int :=
  match json with
  | some (json_t.integer n) => n
  | _ => 0

/-- The jansson function `json_string_value`: the C string at the bytes of a
string value, `NULL` for anything else. -/
def json_string_value (json : Option json_t) : Option c_string :=
  match json with
  | some (json_t.string s) => some (c_str s)
  | _ => none

/-- The jansson function `json_string`: a new string value with the bytes of
`value`, and `NULL` when they are not valid UTF-8. The test is the function
`utf8_check_string` of the library. -/
def json_string (utf8_check_string : c_string → Bool) (value : c_string) : Option json_t :=
  if utf8_check_string value then some (json_t.string value) else none

/-- The jansson function `json_object_set_new` (and `json_object_set`) on an
object: the value under `key` is replaced, or the pair is added after the
others; nothing is done when the value is `NULL`. -/
def json_object_set_new (json : json_t) (key : String) (value : Option json_t) : json_t :=
  match json, value with
  | json_t.object kvs, some v =>
    if kvs.any (fun p => p.1 == key) then
      json_t.object (kvs.map (fun p => if p.1 == key then (key, v) else p))
    else
      json_t.object (kvs ++ [(key, v)])
  | other, _ => other

/-- The jansson function `json_array_append` on an array; nothing is done when
the value is `NULL`. -/
def json_array_append (json : json_t) (value : Option json_t) : json_t :=
  match json, value with
  | json_t.array xs, some v => json_t.array (xs ++ [v])
  | other, _ => other

/-- Modelled from the spec: `shared.c` is not among the sources; the helper
`json_int_from_obj_key` reads the integer field `key` of an object document,
as an `int`. -/
def json_int_from_obj_key (json : Option json_t) (key : String) : Int :=
  to_int (json_integer_value (json_object_get json key))

/-- Modelled from the spec: `shared.c` is not among the sources; the helper
`json_str_from_obj_key` reads the string field `key` of an object document. -/
def json_str_from_obj_key (json : Option json_t) (key : String) : Option c_string :=
  json_string_value (json_object_get json key)

/-- The argument of a `%s` conversion: a null string is a fault. -/
def string_arg (s : Option c_string) : Except fault c_string :=
  match s with
  | some t => pure t
  | none => Except.error fault.null_pointer

/-! ## Game objects and documents -/

/-- Modelled from the spec: `game_object.h` is not among the sources; the
constants that `game_object.c` takes from it: the size of the name buffer, the
type tags of keys and of armor, and the two dimensions of the keyword table.
The field `keywords` is given to `keywords_from_json`, whose parameter is
declared `char out[MAX_KEYWORD_LEN][MAX_KEYWORDS]`, and is taken to have this
type: `MAX_KEYWORD_LEN` rows of `MAX_KEYWORDS` bytes each, so that
`keywords[i]` is at byte `i * MAX_KEYWORDS` of the table. -/
structure game_object_h where
  MAX_NAME_LEN : Nat
  KEY_TYPE : Int
  ARMOR_TYPE : Int
  MAX_KEYWORDS : Nat
  MAX_KEYWORD_LEN : Nat
  deriving DecidableEq, Repr

/-- The call `snprintf(buf, size, "%s", s)` on a buffer that holds `old`: at
most `size - 1` bytes of `s` are stored, and nothing is written when `size`
is 0. -/
def snprintf_s (size : Nat) (old s : c_string) : c_string :=
  if size = 0 then old else s.take (size - 1)

/-- The call `sprintf(p, "%s", s)` where `p` points to byte `pos` of the table
`mem`: the bytes of `s` and the closing zero are stored from there on, without
a bound. A byte that falls outside the table is a fault. -/
def sprintf_s (t : table) (mem : List Nat) (pos : Nat) (s : c_string) :
    Except fault (List Nat) :=
  if pos + s.length + 1 ≤ mem.length then
    pure (mem.take pos ++ (s ++ 0 :: mem.drop (pos + s.length + 1)))
  else Except.error (fault.out_of_bounds t (max pos mem.length))

/-- The read of the C string at byte `pos` of the table `mem` (by `%s` or
`json_string`): a string that no zero byte closes inside the table is read
beyond the end of the table, a fault. -/
def c_str_at (t : table) (mem : List Nat) (pos : Nat) : Except fault c_string :=
  match c_string_of (mem.drop pos) with
  | some s => pure s
  | none => Except.error (fault.out_of_bounds t (max pos mem.length))

/-- The loop of `keywords_from_json` from index `i` on, for `n` more entries:
the text of entry `i` is written by `sprintf` to `out[i]`, byte
`i * MAX_KEYWORDS` of the table. -/
def copy_keywords (MAX_KEYWORDS : Nat) (keywords : Option json_t) :
    Nat → Nat → List Nat → Except fault (List Nat)
  | 0, _, out => pure out
  | n + 1, i, out => do
    let s ← string_arg (json_string_value (json_array_get keywords i))
    let out1 ← sprintf_s table.keywords out (i * MAX_KEYWORDS) s
    copy_keywords MAX_KEYWORDS keywords n (i + 1) out1

/-- The function `keywords_from_json`: the number of entries of the field
`keywords`, and the table after every entry has been copied. -/
def keywords_from_json (MAX_KEYWORDS : Nat) (out : List Nat) (json : Option json_t) :
    Except fault (Int × List Nat) := do
  let keywords := json_object_get json "keywords"
  let numkeys := json_array_size keywords
  let out1 ← copy_keywords MAX_KEYWORDS keywords numkeys 0 out
  pure ((numkeys : Int), out1)

/-- The function `game_object_from_json`. The record comes from `malloc`;
`fresh` is what it holds before it is filled, which is what stays in the fields
and bytes the function does not write. -/
def game_object_from_json (c : game_object_h) (fresh : game_object_t)
    (json : Option json_t) : Except fault game_object_t := do
  let (num_keywords, keywords) ← keywords_from_json c.MAX_KEYWORDS fresh.keywords json
  let is_static := json_int_from_obj_key json "is_static"
  let rarity := json_int_from_obj_key json "rarity"
  let type := json_int_from_obj_key json "type"
  let armor := json_int_from_obj_key json "armor"
  let damage := json_int_from_obj_key json "damage"
  let opens_area_id :=
    if type = c.KEY_TYPE then json_int_from_obj_key json "opens_area_id"
    else fresh.opens_area_id
  let opens_room_id :=
    if type = c.KEY_TYPE then json_int_from_obj_key json "opens_room_id"
    else fresh.opens_room_id
  let wear_location :=
    if type = c.ARMOR_TYPE then json_int_from_obj_key json "wear_location" else 0
  let name ← string_arg (json_str_from_obj_key json "name")
  pure {
    name := snprintf_s c.MAX_NAME_LEN fresh.name name,
    keywords := keywords,
    num_keywords := num_keywords,
    is_static := is_static,
    rarity := rarity,
    type := type,
    armor := armor,
    damage := damage,
    wear_location := wear_location,
    opens_area_id := opens_area_id,
    opens_room_id := opens_room_id }

/-- The loop of `game_object_to_json` from index `i` on, for `n` more rows: the
C string at `keywords[i]` is appended to the array, until a row that starts
with a zero byte is met. -/
def append_keywords (MAX_KEYWORDS : Nat) (utf8_check_string : c_string → Bool)
    (mem : List Nat) : Nat → Nat → json_t → Except fault json_t
  | 0, _, keywords => pure keywords
  | n + 1, i, keywords => do
    let b ← read table.keywords mem ((i * MAX_KEYWORDS : Nat) : Int)
    if b = 0 then pure keywords
    else do
      let k ← c_str_at table.keywords mem (i * MAX_KEYWORDS)
      append_keywords MAX_KEYWORDS utf8_check_string mem n (i + 1)
        (json_array_append keywords (json_string utf8_check_string k))

/-- The function `game_object_to_json`; `utf8_check_string` is the test that
`json_string` makes. -/
def game_object_to_json (c : game_object_h) (utf8_check_string : c_string → Bool)
    (obj : game_object_t) : Except fault json_t := do
  let keywords ← append_keywords c.MAX_KEYWORDS utf8_check_string obj.keywords
    obj.num_keywords.toNat 0 (json_t.array [])
  let json := json_t.object []
  let json := json_object_set_new json "name" (json_string utf8_check_string obj.name)
  let json := json_object_set_new json "is_static" (some (json_t.integer obj.is_static))
  let json := json_object_set_new json "rarity" (some (json_t.integer obj.rarity))
  let json := json_object_set_new json "type" (some (json_t.integer obj.type))
  let json := json_object_set_new json "armor" (some (json_t.integer obj.armor))
  let json := json_object_set_new json "damage" (some (json_t.integer obj.damage))
  let json := json_object_set_new json "wear_location"
    (some (json_t.integer obj.wear_location))
  let json :=
    if obj.type = c.KEY_TYPE then
      json_object_set_new
        (json_object_set_new json "opens_area_id" (some (json_t.integer obj.opens_area_id)))
        "opens_room_id" (some (json_t.integer obj.opens_room_id))
    else json
  pure (json_object_set_new json "keywords" (some keywords))

/-! ## Loading an area -/

/-- The three lines of `load_area_file` that fill one of the exit arrays of a
room from the array `arr`: cell `j`, an `int`, is `json_integer_value` of
element `j`. -/
def load_exit_array (arr : Option json_t) : List Int :=
  (List.range MAX_ROOM_EXITS).map
    (fun j => to_int (json_integer_value (json_array_get arr j)))

/-- The loop of `load_area_file` over the objects of a room from index `j` on,
for `n` more objects: each parsed object is put in front of the chain. -/
def load_objects (c : game_object_h) (fresh : Nat → game_object_t) (obj : Option json_t) :
    Nat → Nat → List game_object_t → Except fault (List game_object_t)
  | 0, _, objects => pure objects
  | n + 1, j, objects => do
    let gameobj ← game_object_from_json c (fresh j) (json_array_get obj j)
    load_objects c fresh obj n (j + 1) (gameobj :: objects)

/-- The body of the loop of `load_area_file` over rooms, up to the store of the
room: the room built from the document `room_array_obj`. The record comes from
`malloc`; `fresh_room` is what it holds before it is filled, which is what
stays in the fields `players` and `npcs`. The sizes of the name and description
buffers are not modelled. -/
def load_room (c : game_object_h) (fresh_room : room_t) (fresh : Nat → game_object_t)
    (room_array_obj : Option json_t) : Except fault room_t := do
  let id := json_int_from_obj_key room_array_obj "id"
  let area_id := json_int_from_obj_key room_array_obj "area_id"
  let name ← string_arg (json_str_from_obj_key room_array_obj "name")
  let description ← string_arg (json_str_from_obj_key room_array_obj "description")
  let exits := load_exit_array (json_object_get room_array_obj "exits")
  let exit_areas := load_exit_array (json_object_get room_array_obj "exit_areas")
  let locked_exits := load_exit_array (json_object_get room_array_obj "locked_exits")
  let obj := json_object_get room_array_obj "objects"
  let numobjs := json_array_size obj
  let objects ← load_objects c fresh obj numobjs 0 []
  pure { fresh_room with
    id := id, area_id := area_id, name := name, description := description,
    exits := exits, exit_areas := exit_areas, locked_exits := locked_exits,
    objects := objects }

/-- The loop of `load_area_file` over rooms from index `i` on, for `n` more
rooms: each room is stored in the cell of the table that its id names. -/
def load_rooms (c : game_object_h) (fresh_room : Nat → room_t)
    (fresh : Nat → Nat → game_object_t) (rooms_obj : Option json_t) :
    Nat → Nat → List (Option room_t) → Except fault (List (Option room_t))
  | 0, _, rooms => pure rooms
  | n + 1, i, rooms => do
    let room ← load_room c (fresh_room i) (fresh i) (json_array_get rooms_obj i)
    let rooms1 ← write table.rooms rooms room.id (some room)
    load_rooms c fresh_room fresh rooms_obj n (i + 1) rooms1

/-- The function `load_area_file`, given what `json_load_file` returned for the
file (`none` when it could not be read or parsed): the return value and the
area. The cells of the room table come from `malloc` and start as `none`; the
table is taken to have `num_rooms` cells. -/
def load_area_file (c : game_object_h) (fresh_room : Nat → room_t)
    (fresh : Nat → Nat → game_object_t) (area : area_t) (jsp : Option json_t) :
    Except fault (Int × area_t) :=
  match jsp with
  | none => pure (-1, area)
  | some _ => do
    let id := json_int_from_obj_key jsp "id"
    let name ← string_arg (json_str_from_obj_key jsp "name")
    let rooms_obj := json_object_get jsp "rooms"
    let num_rooms := json_array_size rooms_obj
    let rooms ← load_rooms c fresh_room fresh rooms_obj num_rooms 0
      (List.replicate num_rooms none)
    pure (0, { id := id, name := name, num_rooms := num_rooms, rooms := rooms })
/-! ## Chains of records -/

/-- The links of one chain of records in memory: the head pointer (the field
`players` or `npcs` of a room, or the `*list` of
`remove_game_object_from_list`) and, for the record at each address, its link
field (`next_in_room` or `next`). `none` is `NULL`. -/
structure chain_t where
  head : Option Nat
  next : Nat → Option Nat

/-- The records of a chain: `is_chain next p l` says that the links from the
pointer `p` lead through the addresses `l`, in order, and then to `NULL`. -/
def is_chain (next : Nat → Option Nat) : Option Nat → List Nat → Prop
  | p, [] => p = none
  | p, a :: l => p = some a ∧ is_chain next (next a) l

instance (next : Nat → Option Nat) (l : List Nat) :
    ∀ p : Option Nat, Decidable (is_chain next p l) := by
  induction l with
  | nil => intro p; unfold is_chain; infer_instance
  | cons a l ih =>
    intro p
    unfold is_chain
    have := ih (next a)
    infer_instance

/-- The function `add_player_to_room`: the record `ch` is linked to the old
head and becomes the head. -/
def add_player_to_room (room : chain_t) (ch : Nat) : chain_t :=
  { head := some ch, next := fun a => if a = ch then room.head else room.next a }

/-- The function `add_npc_to_room`: the record `npc` is linked to the old head
and becomes the head. -/
def add_npc_to_room (room : chain_t) (npc : Nat) : chain_t :=
  { head := some npc, next := fun a => if a = npc then room.head else room.next a }

/-- The loop that `remove_player_from_room`, `remove_npc_from_room` and
`remove_game_object_from_list` share, from the record `p` on with `prev` the
record before it: the first record that is `ch` is unlinked, through the head
pointer when there is no record before it and through the link of `prev`
otherwise. The result tells whether the record was met. The walk is cut off
after `fuel` records. -/
def unlink_loop (ch : Nat) (room : chain_t) :
    Nat → Option Nat → Option Nat → Except fault (Bool × chain_t)
  | _, none, _ => pure (false, room)
  | 0, some _, _ => Except.error fault.out_of_fuel
  | fuel + 1, some p, prev =>
    if p = ch then
      match prev with
      | none => pure (true, { room with head := room.next p })
      | some q =>
        pure (true, { room with next := fun a => if a = q then room.next p else room.next a })
    else unlink_loop ch room fuel (room.next p) (some p)

/-- The function `remove_player_from_room`; it returns nothing. -/
def remove_player_from_room (fuel : Nat) (room : chain_t) (ch : Nat) :
    Except fault chain_t := do
  let r ← unlink_loop ch room fuel room.head none
  pure r.2

/-- The function `remove_npc_from_room`; it returns nothing. -/
def remove_npc_from_room (fuel : Nat) (room : chain_t) (npc : Nat) :
    Except fault chain_t := do
  let r ← unlink_loop npc room fuel room.head none
  pure r.2

/-- The function `remove_game_object_from_list`: 0 when the object was in the
list and has been unlinked, -1 when it was not. -/
def remove_game_object_from_list (fuel : Nat) (list : chain_t) (obj : Nat) :
    Except fault (Int × chain_t) := do
  let r ← unlink_loop obj list fuel list.head none
  if r.1 then pure (0, r.2) else pure (-1, r.2)

/-! ## Keyword lookup -/

/-- The test `strncasecmp(s1, s2, n) == 0` of the C library, where `s1` points
to byte `pos` of the table `mem` and `s2` is the C string `s2`: byte by byte,
the lower-case forms are compared until `n` bytes have been compared, the two
differ, or both strings end. A byte of `s1` that is read outside the table is
a fault. -/
def strncasecmp_is_zero (mem : List Nat) : Nat → c_string → Nat → Except fault Bool
  | _, _, 0 => pure true
  | pos, s2, n + 1 => do
    let b ← read table.keywords mem (pos : Int)
    if tolower b = tolower (s2.headD 0) then
      if b = 0 then pure true else strncasecmp_is_zero mem (pos + 1) s2.tail n
    else pure false

/-- The loop of `object_matches_key` from row `i` on, for `n` more rows. A row
of the table is an array and never `NULL`, so the test `obj->keywords[i]` holds
for every row. -/
def matches_from (MAX_KEYWORDS : Nat) (mem : List Nat) (key : c_string) :
    Nat → Nat → Except fault Bool
  | 0, _ => pure false
  | n + 1, i => do
    let m ← strncasecmp_is_zero mem (i * MAX_KEYWORDS) key key.length
    if m then pure true else matches_from MAX_KEYWORDS mem key n (i + 1)

/-- The function `object_matches_key`. `MAX_KEYWORDS` is the bound of its loop
and the width of a row, a constant of `game_object.h`, which is not among the
sources. -/
def object_matches_key (MAX_KEYWORDS : Nat) (obj : Option game_object_t) (key : c_string) :
    Except fault Bool :=
  match obj with
  | none => pure false
  | some o => matches_from MAX_KEYWORDS o.keywords key MAX_KEYWORDS 0

/-- The function `lookup_object_from_list`: the first object of the list that
`object_matches_key` accepts, `none` for `NULL`. -/
def lookup_object_from_list (MAX_KEYWORDS : Nat) :
    List game_object_t → c_string → Except fault (Option game_object_t)
  | [], _ => pure none
  | tmp :: rest, key => do
    let m ← object_matches_key MAX_KEYWORDS (some tmp) key
    if m then pure (some tmp) else lookup_object_from_list MAX_KEYWORDS rest key

/-- The function `lookup_room_object`: the loop of `lookup_object_from_list`
over the objects of the room. -/
def lookup_room_object (MAX_KEYWORDS : Nat) (room : room_t) (key : c_string) :
    Except fault (Option game_object_t) :=
  lookup_object_from_list MAX_KEYWORDS room.objects key

/-! ## The description of a room -/

/-- The table `exit_names` of `area.c`. -/
def exit_names : List c_string := [utf8 "north", utf8 "east", utf8 "south", utf8 "west"]

/-- Modelled from the spec: `game_object.h` is not among the sources; the
rarity tags and the colour codes that `colorize_object_name` takes from it. -/
structure rarity_h where
  COMMON : Int
  LIMITED : Int
  RARE : Int
  ELITE : Int
  LEGENDARY : Int
  COMMON_COLOR : c_string
  LIMITED_COLOR : c_string
  RARE_COLOR : c_string
  ELITE_COLOR : c_string
  LEGENDARY_COLOR : c_string

/-- The function `colorize_object_name`: the colour code of the rarity, then
the name, passed through `colorize_string`, a function of another file. The
sizes of the two name buffers are not modelled. -/
def colorize_object_name (h : rarity_h) (colorize_string : c_string → c_string)
    (obj : game_object_t) : c_string :=
  let color :=
    if obj.rarity = h.COMMON then h.COMMON_COLOR
    else if obj.rarity = h.LIMITED then h.LIMITED_COLOR
    else if obj.rarity = h.RARE then h.RARE_COLOR
    else if obj.rarity = h.ELITE then h.ELITE_COLOR
    else if obj.rarity = h.LEGENDARY then h.LEGENDARY_COLOR
    else h.COMMON_COLOR
  colorize_string (color ++ obj.name)

/-- The state of `room_description` between two of its calls: the counter `n`
and the C string that `buf` holds. -/
structure desc_state where
  n : Nat
  buf : c_string
  deriving DecidableEq, Repr

/-- The call `n += snprintf(buf+n, MAXBUF-n, ...)` whose conversions give the
bytes `s`, on a buffer of `MAXBUF` bytes. With `n < MAXBUF`, as many bytes of
`s` as leave room for the closing zero are stored after the first `n` bytes;
with `n = MAXBUF` the size is 0 and nothing is stored; in both cases the whole
length of `s` is added to `n`. With `n > MAXBUF` the pointer is outside the
buffer and the size `MAXBUF-n`, negative, becomes a huge unsigned number: a
fault. -/
def snprintf_at (MAXBUF : Nat) (st : desc_state) (s : c_string) : Except fault desc_state :=
  if MAXBUF < st.n then Except.error (fault.out_of_bounds table.buf st.n)
  else if st.n = MAXBUF then pure { n := st.n + s.length, buf := st.buf }
  else pure { n := st.n + s.length, buf := st.buf.take st.n ++ s.take (MAXBUF - st.n - 1) }

/-- The call `n += sprintf(buf+n, ...)` whose conversions give the bytes `s`:
the bytes and the closing zero are stored after the first `n` bytes without a
bound; a byte that falls outside the `MAXBUF` bytes of the buffer is a
fault. -/
def sprintf_at (MAXBUF : Nat) (st : desc_state) (s : c_string) : Except fault desc_state :=
  if MAXBUF < st.n + s.length + 1 then
    Except.error (fault.out_of_bounds table.buf (max st.n MAXBUF))
  else pure { n := st.n + s.length, buf := st.buf.take st.n ++ s }

/-- The loop of `room_description` over the exit indexes from `i` on, for `k`
more indexes; `j` counts the names written so far. -/
def describe_exits (MAXBUF : Nat) (exits : List Int) :
    Nat → Nat → Nat → desc_state → Except fault desc_state
  | 0, _, _, st => pure st
  | k + 1, i, j, st => do
    let e ← read table.exits exits (i : Int)
    if e > -1 then do
      let st1 ←
        if 0 < j ∧ j < MAX_ROOM_EXITS - 1 then snprintf_at MAXBUF st (utf8 ", ")
        else pure st
      let st2 ← snprintf_at MAXBUF st1 (exit_names.getD i [])
      describe_exits MAXBUF exits k (i + 1) (j + 1) st2
    else describe_exits MAXBUF exits k (i + 1) j st

/-- The loop of `room_description` over the objects of the room; `empty` tells
that no object has been written yet. -/
def describe_objects (MAXBUF : Nat) (h : rarity_h) (colorize_string : c_string → c_string) :
    List game_object_t → Bool → desc_state → Except fault desc_state
  | [], _, st => pure st
  | roomobj :: rest, empty, st => do
    let st1 ← if empty then snprintf_at MAXBUF st (utf8 "\n\nItems:") else pure st
    let st2 ← snprintf_at MAXBUF st1
      (utf8 "\n  " ++ colorize_object_name h colorize_string roomobj)
    describe_objects MAXBUF h colorize_string rest false st2

/-- The loop of `room_description` over the characters of the room;
`char_status_string` is a function of another file. -/
def describe_npcs (MAXBUF : Nat) (char_status_string : Int → c_string) :
    List npc_t → desc_state → Except fault desc_state
  | [], st => pure st
  | npc :: rest, st => do
    let st1 ← snprintf_at MAXBUF st
      (npc.color ++ npc.name ++ utf8 "&D is " ++ char_status_string npc.ch_state ++ utf8 "\n")
    describe_npcs MAXBUF char_status_string rest st1

/-- The loop of `room_description` over the players of the room, `ch` being the
player the text is written for; `no_chars` tells that no player has been
written yet. The header is written by `sprintf`, the names by `snprintf`. -/
def describe_players (MAXBUF : Nat) (ch : Option Nat) :
    List player_t → Bool → desc_state → Except fault desc_state
  | [], _, st => pure st
  | p :: rest, no_chars, st =>
    if some p.addr ≠ ch then do
      let st1 ← if no_chars then sprintf_at MAXBUF st (utf8 "\nPeople in this room:") else pure st
      let st2 ← snprintf_at MAXBUF st1 (utf8 "\n  " ++ p.username)
      describe_players MAXBUF ch rest false st2
    else describe_players MAXBUF ch rest no_chars st

/-- The function `room_description`: the return value and the C string in
`buf`, a buffer of `MAXBUF` bytes that holds `buf` before the call. `MAXBUF` is
a constant of `shared.h`, which is not among the sources. The chains of the
room are walked as the lists they hold. -/
def room_description (MAXBUF : Nat) (h : rarity_h) (colorize_string : c_string → c_string)
    (char_status_string : Int → c_string) (room : Option room_t) (ch : Option Nat)
    (buf : c_string) : Except fault (Int × c_string) :=
  match room with
  | none => pure (-1, buf)
  | some room => do
    let st0 ← snprintf_at MAXBUF { n := 0, buf := buf }
      (utf8 "\n" ++ room.name ++ utf8 "\n" ++ room.description ++ utf8 "\nExits: ")
    let st1 ← describe_exits MAXBUF room.exits MAX_ROOM_EXITS 0 0 st0
    let st2 ← describe_objects MAXBUF h colorize_string room.objects true st1
    let st3 ← snprintf_at MAXBUF st2 (utf8 "\n\n")
    let st4 ← describe_npcs MAXBUF char_status_string room.npcs st3
    let st5 ← describe_players MAXBUF ch room.players true st4
    pure ((st5.n : Int), st5.buf)
/-! ## Example objects and documents -/

/-- Constants for the examples: names of up to 31 bytes, keys of type 0, armor
of type 1, and a keyword table of 16 rows of 8 bytes. -/
def example_h : game_object_h :=
  { MAX_NAME_LEN := 32, KEY_TYPE := 0, ARMOR_TYPE := 1, MAX_KEYWORDS := 8,
    MAX_KEYWORD_LEN := 16 }

/-- A keyword table of 16 rows of 8 bytes that holds the given keywords, each
shorter than 8 bytes, one per row from row 0 on; all other bytes are zero. -/
def keyword_table (kws : List c_string) : List Nat :=
  ((kws.map (fun k => (k ++ List.replicate 8 0).take 8)).flatten ++
    List.replicate 128 0).take 128

/-- A fresh record whose bytes are all zero. -/
def fresh_object : game_object_t :=
  { name := [], keywords := List.replicate 128 0, num_keywords := 0, is_static := 0,
    rarity := 0, type := 0, armor := 0, damage := 0, wear_location := 0, opens_area_id := 0,
    opens_room_id := 0 }

/-- A sword, of type 2, that is worn at location 3. -/
def sword : game_object_t :=
  { name := utf8 "a sword", keywords := keyword_table [utf8 "sword", utf8 "blade"],
    num_keywords := 2, is_static := 0, rarity := 1, type := 2, armor := 0, damage := 5,
    wear_location := 3, opens_area_id := 0, opens_room_id := 0 }

/-- A key that opens room 4 of area 1. -/
def brass_key : game_object_t :=
  { name := utf8 "a brass key", keywords := keyword_table [utf8 "key", utf8 "brass"],
    num_keywords := 2, is_static := 0, rarity := 0, type := 0, armor := 0, damage := 0,
    wear_location := 0, opens_area_id := 1, opens_room_id := 4 }

/-- An object whose first keyword, "longsword", is longer than a row: it runs
into the second row, whose C string is its last byte, "d". -/
def longsword : game_object_t :=
  { sword with
    name := utf8 "a longsword",
    keywords := utf8 "longsword" ++ List.replicate 119 0 }

/-- A text of ASCII bytes: every byte is below 128. The examples take this
test for `utf8_check_string`; ASCII bytes are valid UTF-8. -/
def is_ascii (s : c_string) : Bool :=
  s.all (fun b => decide (b < 128))

/-- The C string of row `i` of the keyword table of an object. -/
def keyword (c : game_object_h) (o : game_object_t) (i : Nat) : c_string :=
  c_str (o.keywords.drop (i * c.MAX_KEYWORDS))

/-- The declared keywords of an object: the C strings of its first
`num_keywords` rows. -/
def declared_keywords (c : game_object_h) (o : game_object_t) : List c_string :=
  (List.range o.num_keywords.toNat).map (keyword c o)

/-- A row of a valid object: a C string that ends inside the table, is not
empty and is valid UTF-8. -/
def valid_keyword (utf8_check_string : c_string → Bool) : Option c_string → Prop
  | some k => k ≠ [] ∧ utf8_check_string k = true
  | none => False

instance (utf8_check_string : c_string → Bool) (k : Option c_string) :
    Decidable (valid_keyword utf8_check_string k) := by
  cases k with
  | none => exact instDecidableFalse
  | some k => exact instDecidableAnd

/-- A valid object: the fields are C `int`s; the keyword table has its
`MAX_KEYWORD_LEN * MAX_KEYWORDS` bytes; each declared keyword ends inside the
table, is not empty and is valid UTF-8; the name is a C string that fits its
buffer with the closing zero and is valid UTF-8. -/
def valid_object (c : game_object_h) (utf8_check_string : c_string → Bool)
    (o : game_object_t) : Prop :=
  0 ≤ o.num_keywords ∧
  o.keywords.length = c.MAX_KEYWORD_LEN * c.MAX_KEYWORDS ∧
  (∀ i, i < o.num_keywords.toNat →
    valid_keyword utf8_check_string (c_string_of (o.keywords.drop (i * c.MAX_KEYWORDS)))) ∧
  o.name.length < c.MAX_NAME_LEN ∧ (∀ b ∈ o.name, b ≠ 0) ∧
  utf8_check_string o.name = true ∧
  is_int o.is_static ∧ is_int o.rarity ∧ is_int o.type ∧ is_int o.armor ∧
  is_int o.damage ∧ is_int o.wear_location ∧ is_int o.opens_area_id ∧
  is_int o.opens_room_id

instance (c : game_object_h) (utf8_check_string : c_string → Bool) (o : game_object_t) :
    Decidable (valid_object c utf8_check_string o) := by
  unfold valid_object
  infer_instance

/-- The document of an object of type 2 with the given name and keywords. -/
def weapon_doc (name : String) (keywords : List String) : json_t :=
  json_t.object [
    ("name", json_t.string (utf8 name)),
    ("keywords", json_t.array (keywords.map (fun k => json_t.string (utf8 k)))),
    ("is_static", json_t.integer 0), ("rarity", json_t.integer 1),
    ("type", json_t.integer 2), ("armor", json_t.integer 0),
    ("damage", json_t.integer 5)]

/-- An object document with nine keywords, one more than `MAX_KEYWORDS` of
`example_h`. -/
def nine_keywords_doc : json_t :=
  weapon_doc "a sword"
    ["sword", "blade", "steel", "edge", "iron", "sharp", "long", "old", "fine"]

/-- An object document with a keyword of 20 bytes, more than `MAX_KEYWORD_LEN`
of `example_h` and more than the 8 bytes of a row. -/
def long_keyword_doc : json_t :=
  weapon_doc "a sword" ["sword", "two-handed-longsword"]

/-- The document of a room with the given id, exits and objects. -/
def room_doc (id : Int) (exits : List json_t) (objects : List json_t) : json_t :=
  json_t.object [
    ("id", json_t.integer id), ("area_id", json_t.integer 0),
    ("name", json_t.string (utf8 "hall")), ("description", json_t.string (utf8 "bare walls")),
    ("exits", json_t.array exits),
    ("exit_areas", json_t.array [json_t.integer 0, json_t.integer 0,
      json_t.integer 0, json_t.integer 0]),
    ("locked_exits", json_t.array [json_t.integer 0, json_t.integer 0,
      json_t.integer 0, json_t.integer 0]),
    ("objects", json_t.array objects)]

/-- Four entries that say that a room has no exit. -/
def no_exits : List json_t :=
  [json_t.integer (-1), json_t.integer (-1), json_t.integer (-1), json_t.integer (-1)]

/-- An area document with one room that holds the object of
`nine_keywords_doc`. -/
def nine_keywords_area_doc : json_t :=
  json_t.object [
    ("id", json_t.integer 0), ("name", json_t.string (utf8 "armory")),
    ("rooms", json_t.array [room_doc 0 no_exits [nine_keywords_doc]])]

/-- A fresh room record. -/
def fresh_room : room_t := { id := 0, exits := [] }

/-- An area record before it is loaded. -/
def empty_area : area_t := { num_rooms := 0, rooms := [] }

/-- The key is at the start of the bytes `bs`, up to the case of letters. -/
def begins_up_to_case (key : c_string) (bs : List Nat) : Prop :=
  (bs.take key.length).map tolower = key.map tolower

instance (key : c_string) (bs : List Nat) : Decidable (begins_up_to_case key bs) := by
  unfold begins_up_to_case
  infer_instance

/-- Some row among the first `n` rows of `width` bytes of the keyword table of
the object starts with the key, up to case. -/
def some_row_matches (width n : Nat) (o : game_object_t) (key : c_string) : Bool :=
  (List.range n).any (fun i => decide (begins_up_to_case key (o.keywords.drop (i * width))))

/-- A document of an object with the one keyword "sword". -/
def one_keyword_doc : json_t :=
  weapon_doc "a sword" ["sword"]

/-- A fresh record whose memory held an object with the keywords "helm" and
"shield" before. -/
def stale_object : game_object_t :=
  { fresh_object with keywords := keyword_table [utf8 "helm", utf8 "shield"] }

/-- An object with the keywords "sword" and "shield", in this order. -/
def sword_and_shield : game_object_t :=
  { sword with keywords := keyword_table [utf8 "sword", utf8 "shield"] }

/-! ## Example rooms and the text of a description -/

/-- Rarity tags 0 to 4 with colour codes of the form `&c`. -/
def example_rarity : rarity_h :=
  { COMMON := 0, LIMITED := 1, RARE := 2, ELITE := 3, LEGENDARY := 4,
    COMMON_COLOR := utf8 "&w", LIMITED_COLOR := utf8 "&g", RARE_COLOR := utf8 "&b",
    ELITE_COLOR := utf8 "&p", LEGENDARY_COLOR := utf8 "&y" }

/-- A room with an exit in each of the four directions. -/
def crossing : room_t :=
  { id := 0, name := utf8 "A crossing", description := utf8 "Four roads meet here.",
    exits := [1, 2, 3, 4] }

/-- A room with exits to the north, east and south, and none to the west. -/
def three_way : room_t :=
  { id := 0, name := utf8 "A bend", description := utf8 "The road turns.",
    exits := [1, 2, 3, -1] }

/-- A room with the players ann, bob and cy. -/
def tavern : room_t :=
  { id := 0, name := utf8 "A tavern", description := utf8 "It is loud.",
    exits := [-1, 1, -1, -1],
    players := [{ addr := 10, username := utf8 "ann" }, { addr := 20, username := utf8 "bob" },
      { addr := 30, username := utf8 "cy" }] }

/-- The exit names that `room_description` writes for the exit indexes from `i`
on, for `k` more indexes, when nothing is cut; `j` counts the names before. -/
def exits_text (exits : List Int) : Nat → Nat → Nat → c_string
  | 0, _, _ => []
  | k + 1, i, j =>
    if exits.getD i (-1) > -1 then
      (if 0 < j ∧ j < MAX_ROOM_EXITS - 1 then utf8 ", " else []) ++ exit_names.getD i [] ++
        exits_text exits k (i + 1) (j + 1)
    else exits_text exits k (i + 1) j

/-- The lines that `room_description` writes for the objects when nothing is
cut; `empty` tells that no object has been written before. -/
def objects_text (h : rarity_h) (colorize_string : c_string → c_string) :
    List game_object_t → Bool → c_string
  | [], _ => []
  | roomobj :: rest, empty =>
    (if empty then utf8 "\n\nItems:" else []) ++
      (utf8 "\n  " ++ colorize_object_name h colorize_string roomobj) ++
      objects_text h colorize_string rest false

/-- The lines that `room_description` writes for the characters when nothing
is cut. -/
def npcs_text (char_status_string : Int → c_string) : List npc_t → c_string
  | [] => []
  | npc :: rest =>
    (npc.color ++ npc.name ++ utf8 "&D is " ++ char_status_string npc.ch_state ++ utf8 "\n") ++
      npcs_text char_status_string rest

/-- The players of a room other than the one at the address `ch`, in the order
of the chain. -/
def other_players (ch : Option Nat) (players : List player_t) : List player_t :=
  players.filter (fun p => decide (some p.addr ≠ ch))

/-- One line for each of the players, in order: a line break, two blanks and
the user name. -/
def people_lines : List player_t → c_string
  | [] => []
  | p :: rest => utf8 "\n  " ++ p.username ++ people_lines rest

/-- The people part of a description as the spec words it: nothing when no
player other than the viewer is in the room, and otherwise the header and one
line for each of them, in order. -/
def people_section (ch : Option Nat) (players : List player_t) : c_string :=
  match other_players ch players with
  | [] => []
  | others => utf8 "\nPeople in this room:" ++ people_lines others

/-- The text that `room_description` writes before the people part when
nothing is cut: name, description, exit names, objects and characters. -/
def text_before_people (h : rarity_h) (colorize_string : c_string → c_string)
    (char_status_string : Int → c_string) (room : room_t) : c_string :=
  utf8 "\n" ++ room.name ++ utf8 "\n" ++ room.description ++ utf8 "\nExits: " ++
    exits_text room.exits MAX_ROOM_EXITS 0 0 ++
    objects_text h colorize_string room.objects true ++ utf8 "\n\n" ++
    npcs_text char_status_string room.npcs

/-! ## Example area documents -/

/-- An area document with two rooms: the exits of room 0 have two entries only,
no exit to the north and room 1 to the east; the exits of room 1 have `null`
for the north and no exit in the other directions. -/
def short_exits_area_doc : json_t :=
  json_t.object [
    ("id", json_t.integer 0), ("name", json_t.string (utf8 "cellar")),
    ("rooms", json_t.array [
      room_doc 0 [json_t.integer (-1), json_t.integer 1] [],
      room_doc 1 [json_t.null, json_t.integer (-1), json_t.integer (-1),
        json_t.integer (-1)] []])]

/-- An area document with one room whose exits are the numbers 2147483648,
-4294967295, 1 and -1, the first two outside the range of `int`. -/
def wide_exits_area_doc : json_t :=
  json_t.object [
    ("id", json_t.integer 0), ("name", json_t.string (utf8 "cellar")),
    ("rooms", json_t.array [
      room_doc 0 [json_t.integer 2147483648, json_t.integer (-4294967295),
        json_t.integer 1, json_t.integer (-1)] []])]

/-- The document of an object with one keyword. -/
def object_doc (name keyword : String) : json_t :=
  json_t.object [
    ("name", json_t.string (utf8 name)),
    ("keywords", json_t.array [json_t.string (utf8 keyword)]),
    ("is_static", json_t.integer 0), ("rarity", json_t.integer 0),
    ("type", json_t.integer 2), ("armor", json_t.integer 0),
    ("damage", json_t.integer 4)]

/-- An area document with one room that holds a sword and then a sabre. -/
def two_objects_area_doc : json_t :=
  json_t.object [
    ("id", json_t.integer 0), ("name", json_t.string (utf8 "armory")),
    ("rooms", json_t.array [
      room_doc 0 no_exits [object_doc "a sword" "sword", object_doc "a sabre" "sabre"]])]

/-- The sword that `game_object_from_json` reads from its document. -/
def loaded_sword : game_object_t :=
  { fresh_object with
    name := utf8 "a sword", keywords := keyword_table [utf8 "sword"], num_keywords := 1,
    type := 2, damage := 4 }

/-- The sabre that `game_object_from_json` reads from its document. -/
def loaded_sabre : game_object_t :=
  { fresh_object with
    name := utf8 "a sabre", keywords := keyword_table [utf8 "sabre"], num_keywords := 1,
    type := 2, damage := 4 }

/-- The state of `room_description` after the text `t` has been written to the
buffer in full: the counter is the length of `t`. -/
def at_text (t : c_string) : desc_state :=
  { n := t.length, buf := t }
/-! ## Lemmas on chains -/

/-- The links from `p` lead through the addresses `l`, in order, and then to
the pointer `r`. -/
def is_seg (next : Nat → Option Nat) : Option Nat → List Nat → Option Nat → Prop
  | p, [], r => p = r
  | p, a :: l, r => p = some a ∧ is_seg next (next a) l r

/-- The chain of the records 1, 2 and 3, in this order. -/
def three_chain : chain_t :=
  { head := some 1,
    next := fun a => if a = 1 then some 2 else if a = 2 then some 3 else none }

/-- The value that `remove_player_from_room` returns: the function is `void`,
its only result is the change of the chain. -/
def remove_player_from_room_value (fuel : Nat) (room : chain_t) (ch : Nat) :
    Except fault Unit := do
  let _ ← remove_player_from_room fuel room ch
  pure ()

/-- The value that `remove_npc_from_room` returns: the function is `void`. -/
def remove_npc_from_room_value (fuel : Nat) (room : chain_t) (npc : Nat) :
    Except fault Unit := do
  let _ ← remove_npc_from_room fuel room npc
  pure ()

/-! ## A record of the accesses to the queue array -/

/-- The accesses to the array of the queue during a run, as a record kept
beside the program: for each write by `enqueue` and each read by `dequeue`,
in order, the index used and the room id written or read. -/
structure queue_log where
  writes : List (Nat × Int)
  reads : List (Nat × Int)
  deriving DecidableEq, Repr

/-- The function `enqueue`, with the write it makes added to the record. -/
def enqueue_logged (q : room_queue_t) (room_id : Int) (log : queue_log) :
    Except fault (room_queue_t × queue_log) := do
  let q1 ← enqueue q room_id
  pure (q1, { log with writes := log.writes ++ [(q.tail, room_id)] })

/-- The function `dequeue`, with the read it makes added to the record. -/
def dequeue_logged (q : room_queue_t) (log : queue_log) :
    Except fault (Int × room_queue_t × queue_log) := do
  let (room_id, q1) ← dequeue q
  pure (room_id, q1, { log with reads := log.reads ++ [(q.head, room_id)] })

/-- The body `visit` of the `for` loop, with the record kept. -/
def visit_logged (ui vi : Int) (st : bfs_state) (log : queue_log) :
    Except fault (bfs_state × queue_log) :=
  if 0 ≤ vi then do
    let c ← read table.colors st.d.colors vi
    if c = VERTEX_WHITE then do
      let colors ← write table.colors st.d.colors vi VERTEX_GRAY
      let du ← read table.distances st.d.distances ui
      let distances ← write table.distances st.d.distances vi (du + 1)
      let predecessors ← write table.predecessors st.d.predecessors vi ui
      let (q, log1) ← enqueue_logged st.q vi log
      pure ({ st with
        d := { predecessors := predecessors, colors := colors, distances := distances },
        q := q }, log1)
    else
      pure (st, log)
  else
    pure (st, log)

/-- The `for` loop `scan_exits`, with the record kept. -/
def scan_exits_logged (u : room_t) (ui : Int) :
    List Nat → bfs_state → queue_log → Except fault (bfs_state × queue_log)
  | [], st, log => pure (st, log)
  | j :: js, st, log => do
    let vi ← read table.exits u.exits (j : Int)
    let (st1, log1) ← visit_logged ui vi st log
    scan_exits_logged u ui js st1 log1

/-- One turn `bfs_step` of the `while` loop, with the record kept. -/
def bfs_step_logged (area : area_t) (st : bfs_state) (log : queue_log) :
    Except fault (bfs_state × queue_log) := do
  let (ui, q, log1) ← dequeue_logged st.q log
  let u ← room_at area ui
  let (st1, log2) ← scan_exits_logged u ui (List.range MAX_ROOM_EXITS)
    { st with q := q, dequeued := st.dequeued ++ [ui] } log1
  let colors ← write table.colors st1.d.colors ui VERTEX_BLACK
  pure ({ st1 with d := { st1.d with colors := colors } }, log2)

/-- The `while` loop `bfs_loop`, with the record kept. -/
def bfs_loop_logged (area : area_t) :
    Nat → bfs_state → queue_log → Except fault (bfs_state × queue_log)
  | 0, st, log =>
    if is_empty_queue st.q then pure (st, log) else Except.error fault.out_of_fuel
  | fuel + 1, st, log =>
    if is_empty_queue st.q then pure (st, log)
    else do
      let (st1, log1) ← bfs_step_logged area st log
      bfs_loop_logged area fuel st1 log1

/-- The run `area_bfs_run` of `area_bfs`, with the record of all accesses to
the array of the queue. -/
def area_bfs_run_logged (fuel : Nat) (area : area_t) (source : room_t) :
    Except fault (bfs_state × queue_log) := do
  let n := area.num_rooms
  let colors ← write table.colors (List.replicate n VERTEX_WHITE) source.id VERTEX_GRAY
  let (q, log) ← enqueue_logged (create_queue n) source.id { writes := [], reads := [] }
  bfs_loop_logged area fuel
    { d := { predecessors := List.replicate n (-1), colors := colors,
             distances := List.replicate n 0 },
      q := q,
      dequeued := [] } log

/-- The record fits the queue: the array has `size` cells, head and tail are
at most `size`, the writes were made at the indexes 0, 1, ... below the tail,
one after the other, and hold the cells below the tail, and the reads were
made at the indexes 0, 1, ... below the head. -/
def log_fits (q : room_queue_t) (log : queue_log) : Prop :=
  q.room_ids.length = q.size ∧ q.tail ≤ q.size ∧ q.head ≤ q.size ∧
  log.writes.map Prod.fst = List.range q.tail ∧
  log.writes.map Prod.snd = q.room_ids.take q.tail ∧
  log.reads.map Prod.fst = List.range q.head

/-! ## The order of discovery -/

/-- Exit `j` of room `u` is the first exit of `u`, in the scan order north,
east, south, west, that leads to room `v`. -/
def first_exit (area : area_t) (u j v : Nat) : Prop :=
  ∃ r, area.rooms[u]? = some (some r) ∧ r.exits[j]? = some (v : Int) ∧
    ∀ j1, j1 < j → r.exits[j1]? ≠ some (v : Int)

/-- The order of discoveries: a room dequeued earlier comes first, and of two
exits of one room the one scanned earlier. A discovery is the pair of the
dequeue index of the room scanned and the index of the exit. -/
def earlier (a b : Nat × Nat) : Prop :=
  a.1 < b.1 ∨ (a.1 = b.1 ∧ a.2 < b.2)

/-- In the final state `st`, room `v` is the room dequeued at index `i`, after
the source, and it was discovered from the room dequeued at index `k`, its
predecessor, through exit `j`, the first exit of that room that leads to `v`. -/
def discovered_at (area : area_t) (st : bfs_state) (i v k j : Nat) : Prop :=
  0 < i ∧ st.dequeued[i]? = some (v : Int) ∧
  ∃ u : Nat, st.dequeued[k]? = some (u : Int) ∧
    st.d.predecessors[v]? = some (u : Int) ∧ first_exit area u j v

/-- The invariant of the search on the order of discovery, while the exits of
the room at index `h` of `ord` are scanned and exit `jcur` is the next: `disc`
lists, for each enqueued room after the source, the discovery that enqueued
it; the discoveries are in increasing order, each is before the discovery
`(h, jcur)`, and the exits of the head room scanned so far lead to enqueued
rooms. -/
structure ord_inv (area : area_t) (d : area_graph_data_t) (ord : List Nat) (h jcur : Nat)
    (disc : List (Nat × Nat)) : Prop where
  len : disc.length + 1 = ord.length
  key : ∀ (i v k j : Nat), ord[i + 1]? = some v → disc[i]? = some (k, j) →
    ∃ u, ord[k]? = some u ∧ predOf d v = (u : Int) ∧ first_exit area u j v
  sorted : disc.Pairwise earlier
  below : ∀ a ∈ disc, earlier a (h, jcur)
  scanned : ∀ (u : Nat) (r : room_t) (j w : Nat), ord[h]? = some u →
    area.rooms[u]? = some (some r) → j < jcur → r.exits[j]? = some (w : Int) → w ∈ ord

/-- An area where the scan order decides: room 3 lies east of room 1 and north
of room 2, and rooms 1 and 2 lie north and east of room 0. -/
def fork_area : area_t :=
  { num_rooms := 4,
    rooms := [
      some { id := 0, exits := [1, 2, -1, -1] },
      some { id := 1, exits := [-1, 3, -1, -1] },
      some { id := 2, exits := [3, -1, -1, -1] },
      some { id := 3, exits := [-1, -1, -1, -1] } ] }

/-- The source room of `fork_area`. -/
def fork_source : room_t := { id := 0, exits := [1, 2, -1, -1] }

/-! ## Lemmas on table accesses -/

theorem read_ok {α : Type} (t : table) (xs : List α) (k : Nat) (a : α)
    (h : xs[k]? = some a) : read t xs (k : Int) = Except.ok a := by
  unfold read
  have h0 : ¬ ((k : Int) < 0) := by omega
  simp [h0, h]

theorem write_ok {α : Type} (t : table) (xs : List α) (k : Nat) (a : α)
    (h : k < xs.length) : write t xs (k : Int) a = Except.ok (xs.set k a) := by
  unfold write
  have h0 : ¬ ((k : Int) < 0) := by omega
  simp [h0, h]

theorem read_neg {α : Type} (t : table) (xs : List α) (i : Int) (h : i < 0) :
    read t xs i = Except.error (fault.out_of_bounds t i) := by
  unfold read
  simp [h]

theorem write_big {α : Type} (t : table) (xs : List α) (i : Int) (a : α)
    (h : i < 0 ∨ (xs.length : Int) ≤ i) :
    write t xs i a = Except.error (fault.out_of_bounds t i) := by
  unfold write
  by_cases h0 : i < 0
  · simp [h0]
  · have h1 : ¬ (i.toNat < xs.length) := by omega
    simp [h0, h1]

theorem getD_set_self {α : Type} (xs : List α) (k : Nat) (a b : α)
    (h : k < xs.length) : (xs.set k a).getD k b = a := by
  simp [List.getD_eq_getElem?_getD, List.getElem?_set, h]

theorem getD_set_other {α : Type} (xs : List α) (k j : Nat) (a b : α)
    (h : k ≠ j) : (xs.set k a).getD j b = xs.getD j b := by
  simp [List.getD_eq_getElem?_getD, List.getElem?_set, h]

theorem getElem?_snoc {α : Type} (xs : List α) (x v : α) (i : Nat)
    (h : (xs ++ [x])[i]? = some v) :
    xs[i]? = some v ∨ (i = xs.length ∧ v = x) := by
  by_cases hi : i < xs.length
  · left
    rw [List.getElem?_append_left hi] at h
    exact h
  · right
    have hle : xs.length ≤ i := by omega
    rw [List.getElem?_append_right hle] at h
    have h2 : i - xs.length = 0 := by
      by_contra hne
      have : 1 ≤ i - xs.length := by omega
      rw [List.getElem?_eq_none (by simpa using this)] at h
      cases h
    rw [h2] at h
    simp at h
    exact ⟨by omega, h.symm⟩

theorem getElem?_snoc_old {α : Type} (xs : List α) (x v : α) (i : Nat)
    (h : xs[i]? = some v) : (xs ++ [x])[i]? = some v := by
  have hi : i < xs.length := (List.getElem?_eq_some_iff.mp h).1
  rw [List.getElem?_append_left hi]
  exact h

theorem nodup_index_eq (xs : List Nat) (hn : xs.Nodup) (i j : Nat) (v : Nat)
    (hi : xs[i]? = some v) (hj : xs[j]? = some v) : i = j := by
  obtain ⟨hi1, hi2⟩ := List.getElem?_eq_some_iff.mp hi
  obtain ⟨hj1, hj2⟩ := List.getElem?_eq_some_iff.mp hj
  exact (List.Nodup.getElem_inj_iff hn).mp (hi2.trans hj2.symm)

theorem nodup_bounded_length (xs : List Nat) (n : Nat) (hn : xs.Nodup)
    (hb : ∀ v ∈ xs, v < n) : xs.length ≤ n := by
  have hsub : xs ⊆ List.range n := by
    intro v hv
    exact List.mem_range.mpr (hb v hv)
  have := (List.subperm_of_subset hn hsub).length_le
  simpa using this

theorem getElem?_of_lt_getD {α : Type} (xs : List α) (k : Nat) (b : α)
    (h : k < xs.length) : xs[k]? = some (xs.getD k b) := by
  simp [List.getD_eq_getElem?_getD, List.getElem?_eq_getElem h]

theorem colorOf_discover_self (d : area_graph_data_t) (u vi : Nat)
    (h : vi < d.colors.length) : colorOf (discover_d d u vi) vi = VERTEX_GRAY := by
  exact getD_set_self _ _ _ _ h

theorem colorOf_discover_other (d : area_graph_data_t) (u vi w : Nat) (h : vi ≠ w) :
    colorOf (discover_d d u vi) w = colorOf d w := by
  exact getD_set_other _ _ _ _ _ h

theorem distOf_discover_self (d : area_graph_data_t) (u vi : Nat)
    (h : vi < d.distances.length) :
    distOf (discover_d d u vi) vi = distOf d u + 1 := by
  exact getD_set_self _ _ _ _ h

theorem distOf_discover_other (d : area_graph_data_t) (u vi w : Nat) (h : vi ≠ w) :
    distOf (discover_d d u vi) w = distOf d w := by
  exact getD_set_other _ _ _ _ _ h

theorem predOf_discover_self (d : area_graph_data_t) (u vi : Nat)
    (h : vi < d.predecessors.length) :
    predOf (discover_d d u vi) vi = (u : Int) := by
  exact getD_set_self _ _ _ _ h

theorem predOf_discover_other (d : area_graph_data_t) (u vi w : Nat) (h : vi ≠ w) :
    predOf (discover_d d u vi) w = predOf d w := by
  exact getD_set_other _ _ _ _ _ h

/-- A white room is not among the enqueued ones. -/
theorem bfs_inv.not_mem_of_white {area : area_t} {s : Nat} {d : area_graph_data_t}
    {q : room_queue_t} {ord : List Nat} {h : Nat} (inv : bfs_inv area s d q ord h)
    (v : Nat) (hw : colorOf d v = VERTEX_WHITE) : v ∉ ord := by
  intro hmem
  obtain ⟨i, hi⟩ := List.mem_iff_getElem?.mp hmem
  by_cases hih : i < h
  · have := inv.black i v hi hih
    rw [hw] at this
    cases this
  · have := inv.gray i v hi (by omega)
    rw [hw] at this
    cases this

/-- A room that is not white is among the enqueued ones. -/
theorem bfs_inv.mem_of_not_white {area : area_t} {s : Nat} {d : area_graph_data_t}
    {q : room_queue_t} {ord : List Nat} {h : Nat} (inv : bfs_inv area s d q ord h)
    (v : Nat) (hw : colorOf d v ≠ VERTEX_WHITE) : v ∈ ord := by
  by_contra hmem
  exact hw (inv.white v hmem).1

/-- The run of `visit` on a white destination. -/
theorem visit_white {area : area_t} {s : Nat} {d : area_graph_data_t}
    {q : room_queue_t} {ord : List Nat} {h : Nat} (inv : bfs_inv area s d q ord h)
    (deq : List Int) (u vi : Nat) (hu : ord[h]? = some u) (hvi : vi < area.num_rooms)
    (hw : colorOf d vi = VERTEX_WHITE) :
    visit (u : Int) (vi : Int) { d := d, q := q, dequeued := deq } =
      Except.ok { d := discover_d d u vi, q := discover_q q vi, dequeued := deq } := by
  have hnot := inv.not_mem_of_white vi hw
  have hun : u < area.num_rooms := inv.range u (List.getElem?_mem hu)
  have hlen : ord.length < area.num_rooms := by
    have hnd : (vi :: ord).Nodup := List.nodup_cons.mpr ⟨hnot, inv.nodup⟩
    have := nodup_bounded_length (vi :: ord) area.num_rooms hnd (by
      intro v hv
      rcases List.mem_cons.mp hv with h1 | h1
      · rw [h1]; exact hvi
      · exact inv.range v h1)
    simpa using this
  have hc : d.colors[vi]? = some VERTEX_WHITE := by
    have := getElem?_of_lt_getD d.colors vi VERTEX_WHITE (by rw [inv.len_c]; exact hvi)
    rw [this]
    exact congrArg some hw
  have hd : d.distances[u]? = some (distOf d u) :=
    getElem?_of_lt_getD d.distances u 0 (by rw [inv.len_d]; exact hun)
  have h0 : (0 : Int) ≤ (vi : Int) := by omega
  have hts : q.tail ≠ q.size := by rw [inv.tail, inv.size]; omega
  have e1 := read_ok table.colors d.colors vi VERTEX_WHITE hc
  have e2 := write_ok table.colors d.colors vi VERTEX_GRAY (by rw [inv.len_c]; exact hvi)
  have e3 := read_ok table.distances d.distances u (distOf d u) hd
  have e4 := write_ok table.distances d.distances vi (distOf d u + 1)
    (by rw [inv.len_d]; exact hvi)
  have e5 := write_ok table.predecessors d.predecessors vi (u : Int)
    (by rw [inv.len_p]; exact hvi)
  have e6 := write_ok table.room_ids q.room_ids q.tail (vi : Int)
    (by rw [inv.len_q, inv.tail]; exact hlen)
  simp only [visit, enqueue, h0, e1, e2, e3, e4, e5, e6, bind, Except.bind, pure,
    Except.pure, if_true, hts, if_false, discover_d, discover_q]

/-- The invariant, after a white destination of the head room was discovered. -/
theorem discover_inv {area : area_t} {s : Nat} {d : area_graph_data_t}
    {q : room_queue_t} {ord : List Nat} {h : Nat} (inv : bfs_inv area s d q ord h)
    (u vi : Nat) (hu : ord[h]? = some u) (hvi : vi < area.num_rooms)
    (hw : colorOf d vi = VERTEX_WHITE) (hex : has_exit area u vi) :
    bfs_inv area s (discover_d d u vi) (discover_q q vi) (ord ++ [vi]) h := by
  have hnot := inv.not_mem_of_white vi hw
  have hne : ∀ w, w ∈ ord → vi ≠ w := by
    intro w hwm heq
    exact hnot (heq ▸ hwm)
  have hum : u ∈ ord := List.getElem?_mem hu
  have hh : h < ord.length := (List.getElem?_eq_some_iff.mp hu).1
  have hlen : ord.length < area.num_rooms := by
    have hnd : (vi :: ord).Nodup := List.nodup_cons.mpr ⟨hnot, inv.nodup⟩
    have := nodup_bounded_length (vi :: ord) area.num_rooms hnd (by
      intro v hv
      rcases List.mem_cons.mp hv with h1 | h1
      · rw [h1]; exact hvi
      · exact inv.range v h1)
    simpa using this
  have hdv : distOf (discover_d d u vi) vi = distOf d u + 1 :=
    distOf_discover_self d u vi (by rw [inv.len_d]; exact hvi)
  have hdo : ∀ w, w ∈ ord → distOf (discover_d d u vi) w = distOf d w :=
    fun w hwm => distOf_discover_other d u vi w (hne w hwm)
  have hold : ∀ (i v : Nat), i < ord.length → (ord ++ [vi])[i]? = some v →
      ord[i]? = some v := by
    intro i v hi hv
    rw [List.getElem?_append_left hi] at hv
    exact hv
  constructor
  · simp [discover_d, inv.len_c]
  · simp [discover_d, inv.len_d]
  · simp [discover_d, inv.len_p]
  · simp [discover_q, inv.len_q]
  · simp [discover_q, inv.size]
  · simp [discover_q, inv.tail]
  · intro i v hv
    rcases getElem?_snoc ord vi v i hv with h1 | ⟨h1, h2⟩
    · have hi : i < ord.length := (List.getElem?_eq_some_iff.mp h1).1
      have hne2 : q.tail ≠ i := by rw [inv.tail]; omega
      simp only [discover_q]
      rw [List.getElem?_set_ne hne2]
      exact inv.ids i v h1
    · subst h1
      subst h2
      simp only [discover_q]
      rw [inv.tail, List.getElem?_set_self (by rw [inv.len_q]; exact hlen)]
  · exact List.nodup_append_comm.mp (List.nodup_cons.mpr ⟨hnot, inv.nodup⟩)
  · intro v hv
    rcases List.mem_append.mp hv with h1 | h1
    · exact inv.range v h1
    · rw [List.mem_singleton.mp h1]; exact hvi
  · have := inv.hle
    simp only [List.length_append, List.length_singleton]
    omega
  · intro i v hv hi
    have h1 := hold i v (by omega) hv
    rw [colorOf_discover_other d u vi v (hne v (List.getElem?_mem h1))]
    exact inv.black i v h1 hi
  · intro i v hv hi
    rcases getElem?_snoc ord vi v i hv with h1 | ⟨_, h2⟩
    · rw [colorOf_discover_other d u vi v (hne v (List.getElem?_mem h1))]
      exact inv.gray i v h1 hi
    · subst h2
      exact colorOf_discover_self d u v (by rw [inv.len_c]; exact hvi)
  · intro v hv
    have hv1 : v ∉ ord := fun hm => hv (List.mem_append.mpr (Or.inl hm))
    have hv2 : vi ≠ v := fun he => hv (List.mem_append.mpr (Or.inr (by simp [he])))
    rw [colorOf_discover_other d u vi v hv2, distOf_discover_other d u vi v hv2,
      predOf_discover_other d u vi v hv2]
    exact inv.white v hv1
  · exact getElem?_snoc_old ord vi s 0 inv.first
  · rw [hdo s (List.getElem?_mem inv.first)]
    exact inv.dist_s
  · rw [predOf_discover_other d u vi s (hne s (List.getElem?_mem inv.first))]
    exact inv.pred_s
  · intro v
    by_cases hv : vi = v
    · subst hv
      rw [hdv]
      have := inv.nonneg u
      omega
    · rw [distOf_discover_other d u vi v hv]
      exact inv.nonneg v
  · intro i j a b ha hb hij
    rcases getElem?_snoc ord vi b j hb with h2 | ⟨h2, h3⟩
    · have hj : j < ord.length := (List.getElem?_eq_some_iff.mp h2).1
      have h1 := hold i a (by omega) ha
      rw [hdo a (List.getElem?_mem h1), hdo b (List.getElem?_mem h2)]
      exact inv.mono i j a b h1 h2 hij
    · subst h3
      rcases getElem?_snoc ord b a i ha with h1 | ⟨_, h4⟩
      · rw [hdo a (List.getElem?_mem h1), hdv]
        exact inv.bound u a hu (List.getElem?_mem h1)
      · subst h4
        exact le_refl _
  · intro a b ha hb
    have ha1 := hold h a hh ha
    have hau : a = u := by
      rw [hu] at ha1
      exact (Option.some.inj ha1).symm
    subst hau
    rw [hdo a hum]
    rcases List.mem_append.mp hb with h1 | h1
    · rw [hdo b h1]
      exact inv.bound a b hu h1
    · rw [List.mem_singleton.mp h1, hdv]
  · intro i v hv hi
    rcases getElem?_snoc ord vi v i hv with h1 | ⟨h1, h2⟩
    · obtain ⟨k, a, hk, hka, hp, he, hd, hearly⟩ := inv.tree i v h1 hi
      have hil : i < ord.length := (List.getElem?_eq_some_iff.mp h1).1
      refine ⟨k, a, hk, getElem?_snoc_old ord vi a k hka, ?_, he, ?_, ?_⟩
      · rw [predOf_discover_other d u vi v (hne v (List.getElem?_mem h1))]
        exact hp
      · rw [hdo v (List.getElem?_mem h1), hdo a (List.getElem?_mem hka)]
        exact hd
      · intro k1 u1 hk1 hu1
        exact hearly k1 u1 hk1 (hold k1 u1 (by omega) hu1)
    · subst h2
      refine ⟨h, u, by omega, getElem?_snoc_old ord v u h hu, ?_, hex, ?_, ?_⟩
      · exact predOf_discover_self d u v (by rw [inv.len_p]; exact hvi)
      · rw [hdv, hdo u hum]
      · intro k1 u1 hk1 hu1 hex1
        have h3 := hold k1 u1 (by omega) hu1
        exact hnot (inv.closed k1 u1 v h3 hk1 hex1).1
  · intro k a w ha hk hex1
    have h1 := hold k a (by omega) ha
    obtain ⟨hwm, hwd⟩ := inv.closed k a w h1 hk hex1
    refine ⟨List.mem_append.mpr (Or.inl hwm), ?_⟩
    rw [hdo w hwm, hdo a (List.getElem?_mem h1)]
    exact hwd

/-- The run of `visit` on a destination that is not white. -/
theorem visit_not_white {area : area_t} {s : Nat} {d : area_graph_data_t}
    {q : room_queue_t} {ord : List Nat} {h : Nat} (inv : bfs_inv area s d q ord h)
    (deq : List Int) (ui : Int) (vi : Nat) (hvi : vi < area.num_rooms)
    (hw : colorOf d vi ≠ VERTEX_WHITE) :
    visit ui (vi : Int) { d := d, q := q, dequeued := deq } =
      Except.ok { d := d, q := q, dequeued := deq } := by
  have hc : d.colors[vi]? = some (colorOf d vi) :=
    getElem?_of_lt_getD d.colors vi VERTEX_WHITE (by rw [inv.len_c]; exact hvi)
  have h0 : (0 : Int) ≤ (vi : Int) := by omega
  have e1 := read_ok table.colors d.colors vi (colorOf d vi) hc
  simp only [visit, h0, e1, bind, Except.bind, pure, Except.pure, if_true, hw, if_false]

/-- The run of `visit` on an exit that does not exist. -/
theorem visit_no_exit (st : bfs_state) (ui vi : Int) (hvi : vi < 0) :
    visit ui vi st = Except.ok st := by
  have h0 : ¬ ((0 : Int) ≤ vi) := by omega
  simp only [visit, h0, pure, Except.pure, if_false]

/-- The `for` loop over exits keeps the invariant, only appends to the enqueued
rooms, and leaves every destination it looked at enqueued, at most one step
farther than the head room. -/
theorem scan_exits_inv {area : area_t} {s : Nat} (u : Nat) (r : room_t)
    (hroom : area.rooms[u]? = some (some r))
    (hex : ∀ v ∈ r.exits, v < 0 ∨ v < (area.num_rooms : Int)) (h : Nat) (deq : List Int) :
    ∀ (js : List Nat), (∀ j ∈ js, j < r.exits.length) →
    ∀ (d : area_graph_data_t) (q : room_queue_t) (ord : List Nat),
      bfs_inv area s d q ord h → ord[h]? = some u →
      ∃ d1 q1 ext, scan_exits r (u : Int) js { d := d, q := q, dequeued := deq } =
          Except.ok { d := d1, q := q1, dequeued := deq } ∧
        bfs_inv area s d1 q1 (ord ++ ext) h ∧ q1.head = q.head ∧
        (∀ w ∈ ord, distOf d1 w = distOf d w) ∧
        (∀ j ∈ js, ∀ w : Nat, r.exits[j]? = some (w : Int) →
          w ∈ ord ++ ext ∧ distOf d1 w ≤ distOf d1 u + 1) := by
  intro js
  induction js with
  | nil =>
    intro _ d q ord inv _
    refine ⟨d, q, [], ?_, ?_, rfl, fun _ _ => rfl, ?_⟩
    · rfl
    · simpa using inv
    · intro j hj
      cases hj
  | cons j js ih =>
    intro hjs d q ord inv hu
    have hj : j < r.exits.length := hjs j (List.mem_cons_self j js)
    have hjs1 : ∀ j1 ∈ js, j1 < r.exits.length :=
      fun j1 h1 => hjs j1 (List.mem_cons_of_mem j h1)
    have hum : u ∈ ord := List.getElem?_mem hu
    have hhl : h < ord.length := (List.getElem?_eq_some_iff.mp hu).1
    have hrd : r.exits[j]? = some (r.exits.getD j 0) := getElem?_of_lt_getD r.exits j 0 hj
    have e1 := read_ok table.exits r.exits j _ hrd
    have hmem : r.exits.getD j 0 ∈ r.exits := List.getElem?_mem hrd
    rcases Int.lt_or_le (r.exits.getD j 0) 0 with hneg | hpos
    · -- no exit in this direction
      obtain ⟨d1, q1, ext, hrun, hinv, hhead, hframe, hscan⟩ := ih hjs1 d q ord inv hu
      refine ⟨d1, q1, ext, ?_, hinv, hhead, hframe, ?_⟩
      · simp only [scan_exits, e1, bind, Except.bind, visit_no_exit _ _ _ hneg]
        exact hrun
      · intro j1 hj1 w hw
        rcases List.mem_cons.mp hj1 with h1 | h1
        · subst h1
          rw [hrd] at hw
          have := Option.some.inj hw
          omega
        · exact hscan j1 h1 w hw
    · obtain ⟨vi, hvi⟩ := Int.eq_ofNat_of_zero_le hpos
      have hvn : vi < area.num_rooms := by
        rcases hex _ hmem with h1 | h1
        · omega
        · rw [hvi] at h1
          exact Int.ofNat_lt.mp h1
      have hexit : has_exit area u vi := ⟨r, hroom, by rw [← hvi]; exact hmem⟩
      by_cases hw : colorOf d vi = VERTEX_WHITE
      · -- a white destination is discovered
        have hinv1 := discover_inv inv u vi hu hvn hw hexit
        have hu1 : (ord ++ [vi])[h]? = some u := getElem?_snoc_old ord vi u h hu
        obtain ⟨d1, q1, ext, hrun, hinv, hhead, hframe, hscan⟩ :=
          ih hjs1 (discover_d d u vi) (discover_q q vi) (ord ++ [vi]) hinv1 hu1
        have hnot := inv.not_mem_of_white vi hw
        have hne : ∀ w, w ∈ ord → vi ≠ w := fun w hwm heq => hnot (heq ▸ hwm)
        refine ⟨d1, q1, vi :: ext, ?_, ?_, ?_, ?_, ?_⟩
        · simp only [scan_exits, e1, bind, Except.bind, hvi,
            visit_white inv deq u vi hu hvn hw]
          exact hrun
        · simpa using hinv
        · rw [hhead]
          rfl
        · intro w hwm
          rw [hframe w (List.mem_append.mpr (Or.inl hwm))]
          exact distOf_discover_other d u vi w (hne w hwm)
        · intro j1 hj1 w hw1
          rcases List.mem_cons.mp hj1 with h1 | h1
          · subst h1
            rw [hrd, hvi] at hw1
            have hwv : vi = w := Int.ofNat_inj.mp (Option.some.inj hw1)
            subst hwv
            refine ⟨by simp, ?_⟩
            rw [hframe vi (by simp), hframe u (List.mem_append.mpr (Or.inl hum)),
              distOf_discover_self d u vi (by rw [inv.len_d]; exact hvn),
              distOf_discover_other d u vi u (hne u hum)]
          · have := hscan j1 h1 w hw1
            simpa using this
      · -- the destination has been seen before
        obtain ⟨d1, q1, ext, hrun, hinv, hhead, hframe, hscan⟩ := ih hjs1 d q ord inv hu
        have hvm : vi ∈ ord := inv.mem_of_not_white vi hw
        refine ⟨d1, q1, ext, ?_, hinv, hhead, hframe, ?_⟩
        · simp only [scan_exits, e1, bind, Except.bind, hvi,
            visit_not_white inv deq (u : Int) vi hvn hw]
          exact hrun
        · intro j1 hj1 w hw1
          rcases List.mem_cons.mp hj1 with h1 | h1
          · subst h1
            rw [hrd, hvi] at hw1
            have hwv : vi = w := Int.ofNat_inj.mp (Option.some.inj hw1)
            subst hwv
            refine ⟨List.mem_append.mpr (Or.inl hvm), ?_⟩
            rw [hframe vi hvm, hframe u hum]
            exact inv.bound u vi hu hvm
          · exact hscan j1 h1 w hw1

/-- The invariant does not look at the head of the queue. -/
theorem bfs_inv.set_head {area : area_t} {s : Nat} {d : area_graph_data_t}
    {q : room_queue_t} {ord : List Nat} {h : Nat} (inv : bfs_inv area s d q ord h)
    (x : Nat) : bfs_inv area s d { q with head := x } ord h :=
  { len_c := inv.len_c, len_d := inv.len_d, len_p := inv.len_p, len_q := inv.len_q,
    size := inv.size, tail := inv.tail, ids := inv.ids, nodup := inv.nodup,
    range := inv.range, hle := inv.hle, black := inv.black, gray := inv.gray,
    white := inv.white, first := inv.first, dist_s := inv.dist_s, pred_s := inv.pred_s,
    nonneg := inv.nonneg, mono := inv.mono, bound := inv.bound, tree := inv.tree,
    closed := inv.closed }

/-- The invariant, after the head room was finished. -/
theorem finish_inv {area : area_t} {s : Nat} {d : area_graph_data_t}
    {q : room_queue_t} {ord : List Nat} {h : Nat} (inv : bfs_inv area s d q ord h)
    (u : Nat) (hu : ord[h]? = some u)
    (hscan : ∀ w, has_exit area u w → w ∈ ord ∧ distOf d w ≤ distOf d u + 1) :
    bfs_inv area s (finish_d d u) q ord (h + 1) := by
  have hhl : h < ord.length := (List.getElem?_eq_some_iff.mp hu).1
  have hun : u < area.num_rooms := inv.range u (List.getElem?_mem hu)
  have hcol : ∀ (i v : Nat), ord[i]? = some v → i ≠ h →
      colorOf (finish_d d u) v = colorOf d v := by
    intro i v hv hi
    have hne : u ≠ v := by
      intro he
      subst he
      exact hi (nodup_index_eq ord inv.nodup i h u hv hu)
    exact getD_set_other _ _ _ _ _ hne
  exact
  { len_c := by simp [finish_d, inv.len_c]
    len_d := inv.len_d
    len_p := inv.len_p
    len_q := inv.len_q
    size := inv.size
    tail := inv.tail
    ids := inv.ids
    nodup := inv.nodup
    range := inv.range
    hle := hhl
    black := by
      intro i v hv hi
      by_cases hih : i = h
      · subst hih
        rw [hu] at hv
        have := Option.some.inj hv
        subst this
        exact getD_set_self _ _ _ _ (by rw [inv.len_c]; exact hun)
      · rw [hcol i v hv hih]
        exact inv.black i v hv (by omega)
    gray := by
      intro i v hv hi
      rw [hcol i v hv (by omega)]
      exact inv.gray i v hv (by omega)
    white := by
      intro v hv
      have hne : u ≠ v := fun he => hv (he ▸ List.getElem?_mem hu)
      have : colorOf (finish_d d u) v = colorOf d v := getD_set_other _ _ _ _ _ hne
      rw [this]
      exact inv.white v hv
    first := inv.first
    dist_s := inv.dist_s
    pred_s := inv.pred_s
    nonneg := inv.nonneg
    mono := inv.mono
    bound := by
      intro a v ha hv
      have h1 : distOf d v ≤ distOf d u + 1 := inv.bound u v hu hv
      have h2 : distOf d u ≤ distOf d a := inv.mono h (h + 1) u a hu ha (by omega)
      show distOf d v ≤ distOf d a + 1
      omega
    tree := inv.tree
    closed := by
      intro k a w ha hk hex
      by_cases hkh : k = h
      · subst hkh
        rw [hu] at ha
        have := Option.some.inj ha
        subst this
        exact hscan w hex
      · exact inv.closed k a w ha (by omega) hex }

/-- The room stored at an in-range index of a well-formed area. -/
theorem well_formed.room {area : area_t} (hwf : well_formed area) (u : Nat)
    (hu : u < area.num_rooms) :
    ∃ r, area.rooms[u]? = some (some r) ∧ r.id = (u : Int) ∧
      r.exits.length = MAX_ROOM_EXITS ∧ ∀ v ∈ r.exits, v < 0 ∨ v < (area.num_rooms : Int) := by
  have h1 := hwf.2 u hu
  have h2 := getElem?_of_lt_getD area.rooms u none (by rw [hwf.1]; exact hu)
  cases hr : area.rooms.getD u none with
  | none =>
    rw [hr] at h1
    exact absurd h1 (by simp [room_ok])
  | some r =>
    rw [hr] at h1 h2
    exact ⟨r, h2, h1⟩

/-- One turn of the `while` loop finishes the head room and keeps the
invariant. -/
theorem bfs_step_inv {area : area_t} (hwf : well_formed area) {s : Nat}
    {d : area_graph_data_t} {q : room_queue_t} {ord : List Nat} {h : Nat}
    (inv : bfs_inv area s d q ord h) (deq : List Int) (hq : q.head = h)
    (u : Nat) (hu : ord[h]? = some u) :
    ∃ d1 q1 ext, bfs_step area { d := d, q := q, dequeued := deq } =
        Except.ok { d := d1, q := q1, dequeued := deq ++ [(u : Int)] } ∧
      bfs_inv area s d1 q1 (ord ++ ext) (h + 1) ∧ q1.head = h + 1 := by
  have hhl : h < ord.length := (List.getElem?_eq_some_iff.mp hu).1
  have hun : u < area.num_rooms := inv.range u (List.getElem?_mem hu)
  have hln : ord.length ≤ area.num_rooms :=
    nodup_bounded_length ord area.num_rooms inv.nodup inv.range
  obtain ⟨r, hroom, _, hlen, hex⟩ := hwf.room u hun
  have e1 : read table.room_ids q.room_ids (q.head : Int) = Except.ok (u : Int) :=
    read_ok _ _ _ _ (by rw [hq]; exact inv.ids h u hu)
  have hhs : q.head ≠ q.size := by rw [hq, inv.size]; omega
  have e2 : read table.rooms area.rooms (u : Int) = Except.ok (some r) :=
    read_ok _ _ _ _ hroom
  have hjs : ∀ j ∈ List.range MAX_ROOM_EXITS, j < r.exits.length := by
    intro j hj
    rw [hlen]
    exact List.mem_range.mp hj
  obtain ⟨d1, q1, ext, hrun, hinv, hhead, _, hscan⟩ :=
    scan_exits_inv u r hroom hex h (deq ++ [(u : Int)]) (List.range MAX_ROOM_EXITS) hjs
      d { q with head := q.head + 1 } ord (inv.set_head (q.head + 1)) hu
  have hu1 : (ord ++ ext)[h]? = some u := by
    rw [List.getElem?_append_left hhl]
    exact hu
  have hall : ∀ w, has_exit area u w → w ∈ ord ++ ext ∧ distOf d1 w ≤ distOf d1 u + 1 := by
    intro w hw
    obtain ⟨r1, hr1, hmem⟩ := hw
    rw [hroom] at hr1
    have hrr : r = r1 := Option.some.inj (Option.some.inj hr1)
    subst hrr
    obtain ⟨j, hj⟩ := List.mem_iff_getElem?.mp hmem
    have hjl : j < r.exits.length := (List.getElem?_eq_some_iff.mp hj).1
    exact hscan j (List.mem_range.mpr (by rw [← hlen]; exact hjl)) w hj
  have e3 : write table.colors d1.colors (u : Int) VERTEX_BLACK =
      Except.ok (d1.colors.set u VERTEX_BLACK) :=
    write_ok _ _ _ _ (by rw [hinv.len_c]; exact hun)
  refine ⟨finish_d d1 u, q1, ext, ?_, finish_inv hinv u hu1 hall, ?_⟩
  · simp only [bfs_step, dequeue, e1, hhs, bind, Except.bind, pure, Except.pure,
      if_false, room_at, e2, hrun, e3, finish_d]
  · rw [hhead, hq]

/-- The run of the initialisation of `area_bfs`. -/
theorem bfs_init_ok (area : area_t) (source : room_t) (s : Nat)
    (hs : source.id = (s : Int)) (hsn : s < area.num_rooms) :
    bfs_init area source =
      Except.ok { d := init_d area.num_rooms s, q := init_q area.num_rooms s,
                  dequeued := [] } := by
  have e1 := write_ok table.colors (List.replicate area.num_rooms VERTEX_WHITE) s
    VERTEX_GRAY (by simpa using hsn)
  have e2 := write_ok table.room_ids (List.replicate area.num_rooms (0 : Int)) 0
    (s : Int) (by simp; omega)
  have hne : (0 : Nat) ≠ area.num_rooms := by omega
  simp only [bfs_init, enqueue, create_queue, hs, e1, bind, Except.bind, pure,
    Except.pure, init_d, init_q]
  simp only [Nat.cast_zero] at e2 ⊢
  simp only [e2, hne, if_false]

/-- The invariant holds when the `while` loop is entered. -/
theorem init_inv (area : area_t) (s : Nat) (hsn : s < area.num_rooms) :
    bfs_inv area s (init_d area.num_rooms s) (init_q area.num_rooms s) [s] 0 := by
  have hidx : ∀ (i v : Nat), [s][i]? = some v → i = 0 ∧ v = s := by
    intro i v hv
    cases i with
    | zero => simp at hv; exact ⟨rfl, hv.symm⟩
    | succ k => simp at hv
  have hdist : ∀ v, distOf (init_d area.num_rooms s) v = 0 := by
    intro v
    simp only [distOf, init_d, List.getD_eq_getElem?_getD, List.getElem?_replicate]
    split <;> rfl
  have hpred : ∀ v, predOf (init_d area.num_rooms s) v = -1 := by
    intro v
    simp only [predOf, init_d, List.getD_eq_getElem?_getD, List.getElem?_replicate]
    split <;> rfl
  exact
  { len_c := by simp [init_d]
    len_d := by simp [init_d]
    len_p := by simp [init_d]
    len_q := by simp [init_q]
    size := rfl
    tail := rfl
    ids := by
      intro i v hv
      obtain ⟨h1, h2⟩ := hidx i v hv
      subst h1
      subst h2
      simp only [init_q]
      rw [List.getElem?_set_self (by simp; omega)]
    nodup := List.nodup_singleton s
    range := by
      intro v hv
      rw [List.mem_singleton.mp hv]
      exact hsn
    hle := Nat.zero_le _
    black := by
      intro i v _ hi
      omega
    gray := by
      intro i v hv _
      obtain ⟨_, h2⟩ := hidx i v hv
      subst h2
      exact getD_set_self _ _ _ _ (by simpa using hsn)
    white := by
      intro v hv
      have hne : s ≠ v := fun he => hv (by simp [he])
      refine ⟨?_, hdist v, hpred v⟩
      have : colorOf (init_d area.num_rooms s) v =
          (List.replicate area.num_rooms VERTEX_WHITE).getD v VERTEX_WHITE :=
        getD_set_other _ _ _ _ _ hne
      rw [this]
      simp only [List.getD_eq_getElem?_getD, List.getElem?_replicate]
      split <;> rfl
    first := rfl
    dist_s := hdist s
    pred_s := hpred s
    nonneg := by
      intro v
      rw [hdist v]
    mono := by
      intro i j a b _ _ _
      rw [hdist a, hdist b]
    bound := by
      intro a b _ _
      rw [hdist a, hdist b]
      omega
    tree := by
      intro i v hv hi
      obtain ⟨h1, _⟩ := hidx i v hv
      omega
    closed := by
      intro k a w _ hk
      omega }

/-- With enough fuel the `while` loop ends with every enqueued room finished. -/
theorem bfs_loop_inv {area : area_t} (hwf : well_formed area) {s : Nat} :
    ∀ (fuel : Nat) (d : area_graph_data_t) (q : room_queue_t) (ord : List Nat) (h : Nat),
      bfs_inv area s d q ord h → q.head = h → area.num_rooms ≤ fuel + h →
      ∃ d1 q1 ext, bfs_loop area fuel
          { d := d, q := q, dequeued := (ord.take h).map Int.ofNat } =
          Except.ok { d := d1, q := q1, dequeued := (ord ++ ext).map Int.ofNat } ∧
        bfs_inv area s d1 q1 (ord ++ ext) (ord ++ ext).length ∧
        q1.head = (ord ++ ext).length := by
  intro fuel
  induction fuel with
  | zero =>
    intro d q ord h inv hq hfuel
    have hln : ord.length ≤ area.num_rooms :=
      nodup_bounded_length ord area.num_rooms inv.nodup inv.range
    have hh : h = ord.length := by
      have := inv.hle
      omega
    have hempty : is_empty_queue q = true := by
      simp [is_empty_queue, inv.tail, hq, hh]
    refine ⟨d, q, [], ?_, ?_, ?_⟩
    · simp only [bfs_loop, hempty, if_true, pure, Except.pure, List.append_nil]
      rw [hh, List.take_length]
    · simpa [← hh] using inv
    · simpa [← hh] using hq
  | succ fuel ih =>
    intro d q ord h inv hq hfuel
    by_cases hh : h = ord.length
    · have hempty : is_empty_queue q = true := by
        simp [is_empty_queue, inv.tail, hq, hh]
      refine ⟨d, q, [], ?_, ?_, ?_⟩
      · simp only [bfs_loop, hempty, if_true, pure, Except.pure, List.append_nil]
        rw [hh, List.take_length]
      · simpa [← hh] using inv
      · simpa [← hh] using hq
    · have hhl : h < ord.length := by
        have := inv.hle
        omega
      have hne : is_empty_queue q = false := by
        simp [is_empty_queue, inv.tail, hq]
        omega
      have hu : ord[h]? = some (ord.getD h 0) := getElem?_of_lt_getD ord h 0 hhl
      obtain ⟨d1, q1, ext, hrun, hinv, hhead⟩ :=
        bfs_step_inv hwf inv ((ord.take h).map Int.ofNat) hq (ord.getD h 0) hu
      have htake : ((ord ++ ext).take (h + 1)).map Int.ofNat =
          (ord.take h).map Int.ofNat ++ [((ord.getD h 0 : Nat) : Int)] := by
        rw [List.take_append_of_le_length (by omega), List.take_succ, hu]
        simp
      obtain ⟨d2, q2, ext2, hrun2, hinv2, hhead2⟩ :=
        ih d1 q1 (ord ++ ext) (h + 1) hinv hhead (by omega)
      refine ⟨d2, q2, ext ++ ext2, ?_, ?_, ?_⟩
      · simp only [bfs_loop, hne, if_false, bind, Except.bind, hrun, Bool.false_eq_true]
        rw [← htake, List.append_assoc] at *
        exact hrun2
      · simpa [List.append_assoc] using hinv2
      · simpa [List.append_assoc] using hhead2

/-- The run of `area_bfs` on a well-formed area from an in-range source: with
`num_rooms` turns of fuel it ends, with the invariant and every enqueued room
finished. -/
theorem area_bfs_run_inv {area : area_t} (hwf : well_formed area) (source : room_t)
    (hs : in_range area source) (fuel : Nat) (hfuel : area.num_rooms ≤ fuel) :
    ∃ d q ord, area_bfs_run fuel area source =
        Except.ok { d := d, q := q, dequeued := ord.map Int.ofNat } ∧
      bfs_inv area source.id.toNat d q ord ord.length ∧ q.head = ord.length := by
  have hsid : source.id = (source.id.toNat : Int) := (Int.toNat_of_nonneg hs.1).symm
  have hsn : source.id.toNat < area.num_rooms := by
    have := hs.2
    omega
  obtain ⟨d, q, ext, hrun, hinv, hhead⟩ :=
    bfs_loop_inv hwf fuel _ _ [source.id.toNat] 0 (init_inv area _ hsn) rfl (by omega)
  refine ⟨d, q, [source.id.toNat] ++ ext, ?_, hinv, hhead⟩
  simp only [area_bfs_run, bfs_init_ok area source _ hsid hsn, bind, Except.bind]
  exact hrun

/-- The enqueued rooms are fixed by the queue. -/
theorem bfs_inv.ord_unique {area : area_t} {s : Nat} {d1 d2 : area_graph_data_t}
    {q : room_queue_t} {o1 o2 : List Nat} {h1 h2 : Nat}
    (i1 : bfs_inv area s d1 q o1 h1) (i2 : bfs_inv area s d2 q o2 h2) : o1 = o2 := by
  have hl : o1.length = o2.length := by rw [← i1.tail, ← i2.tail]
  apply List.ext_getElem hl
  intro i hi1 hi2
  have e1 := i1.ids i o1[i] (List.getElem?_eq_getElem hi1)
  have e2 := i2.ids i o2[i] (List.getElem?_eq_getElem hi2)
  rw [e1] at e2
  exact Int.ofNat_inj.mp (Option.some.inj e2)

/-- The order invariant holds when the `while` loop is entered. -/
theorem init_ord (area : area_t) (s n : Nat) :
    ord_inv area (init_d n s) [s] 0 0 [] :=
  { len := rfl
    key := by
      intro i v k j _ hk
      simp at hk
    sorted := List.Pairwise.nil
    below := by
      intro a ha
      cases ha
    scanned := by
      intro u r j w _ _ hj
      omega }

/-- The order invariant, after a white destination of the head room was
discovered through the exit `jcur`. -/
theorem discover_ord {area : area_t} {s : Nat} {d : area_graph_data_t}
    {q : room_queue_t} {ord : List Nat} {h jcur : Nat} {disc : List (Nat × Nat)}
    (inv : bfs_inv area s d q ord h) (oi : ord_inv area d ord h jcur disc)
    (u vi : Nat) (r : room_t) (hu : ord[h]? = some u)
    (hroom : area.rooms[u]? = some (some r)) (hj : r.exits[jcur]? = some (vi : Int))
    (hvi : vi < area.num_rooms) (hw : colorOf d vi = VERTEX_WHITE) :
    ord_inv area (discover_d d u vi) (ord ++ [vi]) h (jcur + 1) (disc ++ [(h, jcur)]) := by
  have hnot := inv.not_mem_of_white vi hw
  have hhl : h < ord.length := (List.getElem?_eq_some_iff.mp hu).1
  have hlen := oi.len
  constructor
  · simp only [List.length_append, List.length_singleton]
    omega
  · intro i v k j hv hk
    by_cases hi : i < disc.length
    · rw [List.getElem?_append_left hi] at hk
      rw [List.getElem?_append_left (by omega)] at hv
      obtain ⟨a, ha, hp, hf⟩ := oi.key i v k j hv hk
      refine ⟨a, getElem?_snoc_old ord vi a k ha, ?_, hf⟩
      have hne : vi ≠ v := fun he => hnot (he ▸ List.getElem?_mem hv)
      rw [predOf_discover_other d u vi v hne]
      exact hp
    · by_cases hi2 : i = disc.length
      · subst hi2
        rw [List.getElem?_append_right (le_refl _)] at hk
        simp only [Nat.sub_self, List.getElem?_cons_zero] at hk
        have hkj : (h, jcur) = (k, j) := Option.some.inj hk
        have hk1 : h = k := congrArg Prod.fst hkj
        have hj1 : jcur = j := congrArg Prod.snd hkj
        subst hk1
        subst hj1
        rw [hlen, List.getElem?_append_right (le_refl _)] at hv
        simp only [Nat.sub_self, List.getElem?_cons_zero] at hv
        have hvv : vi = v := Option.some.inj hv
        subst hvv
        refine ⟨u, getElem?_snoc_old ord vi u h hu, ?_, r, hroom, hj, ?_⟩
        · exact predOf_discover_self d u vi (by rw [inv.len_p]; exact hvi)
        · intro j1 hj1 he
          exact hnot (oi.scanned u r j1 vi hu hroom hj1 he)
      · rw [List.getElem?_eq_none (by simp; omega)] at hk
        cases hk
  · rw [List.pairwise_append]
    refine ⟨oi.sorted, List.pairwise_singleton _ _, ?_⟩
    intro a ha b hb
    rw [List.mem_singleton.mp hb]
    exact oi.below a ha
  · intro a ha
    rcases List.mem_append.mp ha with h1 | h1
    · rcases oi.below a h1 with h2 | ⟨h2, h3⟩
      · exact Or.inl h2
      · exact Or.inr ⟨h2, Nat.lt_succ_of_lt h3⟩
    · rw [List.mem_singleton.mp h1]
      exact Or.inr ⟨rfl, Nat.lt_succ_self _⟩
  · intro u1 r1 j w hu1 hr1 hj1 hw1
    rw [List.getElem?_append_left hhl, hu] at hu1
    have huu : u = u1 := Option.some.inj hu1
    subst huu
    rw [hroom] at hr1
    have hrr : r = r1 := Option.some.inj (Option.some.inj hr1)
    subst hrr
    by_cases hjj : j < jcur
    · exact List.mem_append.mpr (Or.inl (oi.scanned u r j w hu hroom hjj hw1))
    · have hje : j = jcur := by omega
      subst hje
      rw [hj] at hw1
      have hwv : vi = w := Int.ofNat_inj.mp (Option.some.inj hw1)
      rw [← hwv]
      simp

/-- The order invariant, after an exit of the head room that discovers nothing
was scanned. -/
theorem skip_ord {area : area_t} {d : area_graph_data_t} {ord : List Nat} {h jcur : Nat}
    {disc : List (Nat × Nat)} (oi : ord_inv area d ord h jcur disc)
    (u : Nat) (r : room_t) (hu : ord[h]? = some u)
    (hroom : area.rooms[u]? = some (some r))
    (hseen : ∀ w : Nat, r.exits[jcur]? = some (w : Int) → w ∈ ord) :
    ord_inv area d ord h (jcur + 1) disc :=
  { len := oi.len
    key := oi.key
    sorted := oi.sorted
    below := by
      intro a ha
      rcases oi.below a ha with h2 | ⟨h2, h3⟩
      · exact Or.inl h2
      · exact Or.inr ⟨h2, Nat.lt_succ_of_lt h3⟩
    scanned := by
      intro u1 r1 j w hu1 hr1 hj1 hw1
      rw [hu] at hu1
      have huu : u = u1 := Option.some.inj hu1
      subst huu
      rw [hroom] at hr1
      have hrr : r = r1 := Option.some.inj (Option.some.inj hr1)
      subst hrr
      by_cases hjj : j < jcur
      · exact oi.scanned u r j w hu hroom hjj hw1
      · have hje : j = jcur := by omega
        subst hje
        exact hseen w hw1 }

/-- The order invariant, when the scan of the head room is over and the next
room becomes the head. -/
theorem next_ord {area : area_t} {d d1 : area_graph_data_t} {ord : List Nat} {h jcur : Nat}
    {disc : List (Nat × Nat)} (oi : ord_inv area d ord h jcur disc)
    (hp : ∀ v, predOf d1 v = predOf d v) :
    ord_inv area d1 ord (h + 1) 0 disc :=
  { len := oi.len
    key := by
      intro i v k j hv hk
      obtain ⟨a, ha, hpa, hf⟩ := oi.key i v k j hv hk
      exact ⟨a, ha, by rw [hp v]; exact hpa, hf⟩
    sorted := oi.sorted
    below := by
      intro a ha
      rcases oi.below a ha with h2 | ⟨h2, _⟩
      · exact Or.inl (Nat.lt_succ_of_lt h2)
      · exact Or.inl (by show a.1 < h + 1; omega)
    scanned := by
      intro u r j w _ _ hj
      omega }

/-- The `for` loop over the exits `jcur`, `jcur + 1`, ... keeps the invariant
and the order invariant. -/
theorem scan_exits_ord {area : area_t} {s : Nat} (u : Nat) (r : room_t)
    (hroom : area.rooms[u]? = some (some r))
    (hex : ∀ v ∈ r.exits, v < 0 ∨ v < (area.num_rooms : Int)) (h : Nat) (deq : List Int) :
    ∀ (n jcur : Nat), jcur + n ≤ r.exits.length →
    ∀ (d : area_graph_data_t) (q : room_queue_t) (ord : List Nat) (disc : List (Nat × Nat)),
      bfs_inv area s d q ord h → ord[h]? = some u → ord_inv area d ord h jcur disc →
      ∀ st1, scan_exits r (u : Int) (List.range' jcur n) { d := d, q := q, dequeued := deq } =
          Except.ok st1 →
        ∃ ext disc1, bfs_inv area s st1.d st1.q (ord ++ ext) h ∧
          ord_inv area st1.d (ord ++ ext) h (jcur + n) disc1 := by
  intro n
  induction n with
  | zero =>
    intro jcur _ d q ord disc inv _ oi st1 hrun
    have hst : st1 = { d := d, q := q, dequeued := deq } := (Except.ok.inj hrun).symm
    subst hst
    exact ⟨[], disc, by simpa using inv, by simpa using oi⟩
  | succ n ih =>
    intro jcur hjn d q ord disc inv hu oi st1 hrun
    have hj : jcur < r.exits.length := by omega
    have hrd : r.exits[jcur]? = some (r.exits.getD jcur 0) :=
      getElem?_of_lt_getD r.exits jcur 0 hj
    have e1 := read_ok table.exits r.exits jcur _ hrd
    have hmem : r.exits.getD jcur 0 ∈ r.exits := List.getElem?_mem hrd
    have hidx : jcur + 1 + n = jcur + (n + 1) := by omega
    rw [List.range'_succ] at hrun
    rcases Int.lt_or_le (r.exits.getD jcur 0) 0 with hneg | hpos
    · simp only [scan_exits, e1, bind, Except.bind, visit_no_exit _ _ _ hneg] at hrun
      have oi1 := skip_ord oi u r hu hroom (by
        intro w hw
        rw [hrd] at hw
        have := Option.some.inj hw
        omega)
      have := ih (jcur + 1) (by omega) d q ord disc inv hu oi1 st1 hrun
      rw [hidx] at this
      exact this
    · obtain ⟨vi, hvi⟩ := Int.eq_ofNat_of_zero_le hpos
      have hvn : vi < area.num_rooms := by
        rcases hex _ hmem with h1 | h1
        · omega
        · rw [hvi] at h1
          exact Int.ofNat_lt.mp h1
      have hexit : has_exit area u vi := ⟨r, hroom, by rw [← hvi]; exact hmem⟩
      have hrd1 : r.exits[jcur]? = some (vi : Int) := by rw [hrd, hvi]
      by_cases hw : colorOf d vi = VERTEX_WHITE
      · have hinv1 := discover_inv inv u vi hu hvn hw hexit
        have oi1 := discover_ord inv oi u vi r hu hroom hrd1 hvn hw
        have hu1 : (ord ++ [vi])[h]? = some u := getElem?_snoc_old ord vi u h hu
        simp only [scan_exits, e1, bind, Except.bind, hvi,
          visit_white inv deq u vi hu hvn hw] at hrun
        obtain ⟨ext, disc1, hi2, ho2⟩ :=
          ih (jcur + 1) (by omega) _ _ (ord ++ [vi]) _ hinv1 hu1 oi1 st1 hrun
        rw [hidx] at ho2
        exact ⟨vi :: ext, disc1, by simpa using hi2, by simpa using ho2⟩
      · have hvm : vi ∈ ord := inv.mem_of_not_white vi hw
        have oi1 := skip_ord oi u r hu hroom (by
          intro w hw1
          rw [hrd1] at hw1
          have hwv : vi = w := Int.ofNat_inj.mp (Option.some.inj hw1)
          rw [← hwv]
          exact hvm)
        simp only [scan_exits, e1, bind, Except.bind, hvi,
          visit_not_white inv deq (u : Int) vi hvn hw] at hrun
        have := ih (jcur + 1) (by omega) d q ord disc inv hu oi1 st1 hrun
        rw [hidx] at this
        exact this

/-- One turn of the `while` loop keeps the invariant and the order
invariant. -/
theorem bfs_step_ord {area : area_t} (hwf : well_formed area) {s : Nat}
    {d : area_graph_data_t} {q : room_queue_t} {ord : List Nat} {h : Nat}
    {disc : List (Nat × Nat)}
    (inv : bfs_inv area s d q ord h) (oi : ord_inv area d ord h 0 disc)
    (deq : List Int) (hq : q.head = h) (u : Nat) (hu : ord[h]? = some u) :
    ∃ d1 q1 ext disc1, bfs_step area { d := d, q := q, dequeued := deq } =
        Except.ok { d := d1, q := q1, dequeued := deq ++ [(u : Int)] } ∧
      bfs_inv area s d1 q1 (ord ++ ext) (h + 1) ∧ q1.head = h + 1 ∧
      ord_inv area d1 (ord ++ ext) (h + 1) 0 disc1 := by
  obtain ⟨d1, q1, ext, hrun, hinv, hhead⟩ := bfs_step_inv hwf inv deq hq u hu
  refine ⟨d1, q1, ext, ?_⟩
  have hhl : h < ord.length := (List.getElem?_eq_some_iff.mp hu).1
  have hun : u < area.num_rooms := inv.range u (List.getElem?_mem hu)
  have hln : ord.length ≤ area.num_rooms :=
    nodup_bounded_length ord area.num_rooms inv.nodup inv.range
  obtain ⟨r, hroom, _, hlen, hex⟩ := hwf.room u hun
  have e1 : read table.room_ids q.room_ids (q.head : Int) = Except.ok (u : Int) :=
    read_ok _ _ _ _ (by rw [hq]; exact inv.ids h u hu)
  have hhs : q.head ≠ q.size := by rw [hq, inv.size]; omega
  have e2 : read table.rooms area.rooms (u : Int) = Except.ok (some r) :=
    read_ok _ _ _ _ hroom
  have hrun1 := hrun
  simp only [bfs_step, dequeue, e1, hhs, bind, Except.bind, pure, Except.pure,
    if_false, room_at, e2] at hrun1
  cases hscan : scan_exits r (u : Int) (List.range MAX_ROOM_EXITS)
      { d := d, q := { q with head := q.head + 1 }, dequeued := deq ++ [(u : Int)] } with
  | error e =>
    rw [hscan] at hrun1
    cases hrun1
  | ok st1 =>
    rw [hscan] at hrun1
    dsimp only at hrun1
    cases hwr : write table.colors st1.d.colors (u : Int) VERTEX_BLACK with
    | error e =>
      rw [hwr] at hrun1
      cases hrun1
    | ok colors =>
      rw [hwr] at hrun1
      have hst := Except.ok.inj hrun1
      have hd1 : d1 = { st1.d with colors := colors } :=
        (congrArg bfs_state.d hst).symm
      have hq1 : q1 = st1.q := (congrArg bfs_state.q hst).symm
      rw [List.range_eq_range'] at hscan
      obtain ⟨ext1, disc1, hi2, ho2⟩ :=
        scan_exits_ord u r hroom hex h (deq ++ [(u : Int)]) MAX_ROOM_EXITS 0
          (by rw [hlen]; omega) d { q with head := q.head + 1 } ord disc
          (inv.set_head (q.head + 1)) hu oi st1 hscan
      have hsame : ord ++ ext1 = ord ++ ext := by
        rw [hq1] at hinv
        exact hi2.ord_unique hinv
      rw [hsame] at ho2
      refine ⟨disc1, hrun, hinv, hhead, next_ord ho2 ?_⟩
      intro v
      rw [hd1]
      rfl

/-- With enough fuel the `while` loop ends with every enqueued room finished,
and with the order invariant. -/
theorem bfs_loop_ord {area : area_t} (hwf : well_formed area) {s : Nat} :
    ∀ (fuel : Nat) (d : area_graph_data_t) (q : room_queue_t) (ord : List Nat) (h : Nat)
      (disc : List (Nat × Nat)),
      bfs_inv area s d q ord h → ord_inv area d ord h 0 disc → q.head = h →
      area.num_rooms ≤ fuel + h →
      ∃ d1 q1 ext disc1, bfs_loop area fuel
          { d := d, q := q, dequeued := (ord.take h).map Int.ofNat } =
          Except.ok { d := d1, q := q1, dequeued := (ord ++ ext).map Int.ofNat } ∧
        bfs_inv area s d1 q1 (ord ++ ext) (ord ++ ext).length ∧
        ord_inv area d1 (ord ++ ext) (ord ++ ext).length 0 disc1 := by
  intro fuel
  induction fuel with
  | zero =>
    intro d q ord h disc inv oi hq hfuel
    have hln : ord.length ≤ area.num_rooms :=
      nodup_bounded_length ord area.num_rooms inv.nodup inv.range
    have hh : h = ord.length := by
      have := inv.hle
      omega
    have hempty : is_empty_queue q = true := by
      simp [is_empty_queue, inv.tail, hq, hh]
    refine ⟨d, q, [], disc, ?_, ?_, ?_⟩
    · simp only [bfs_loop, hempty, if_true, pure, Except.pure, List.append_nil]
      rw [hh, List.take_length]
    · simpa [← hh] using inv
    · simpa [← hh] using oi
  | succ fuel ih =>
    intro d q ord h disc inv oi hq hfuel
    by_cases hh : h = ord.length
    · have hempty : is_empty_queue q = true := by
        simp [is_empty_queue, inv.tail, hq, hh]
      refine ⟨d, q, [], disc, ?_, ?_, ?_⟩
      · simp only [bfs_loop, hempty, if_true, pure, Except.pure, List.append_nil]
        rw [hh, List.take_length]
      · simpa [← hh] using inv
      · simpa [← hh] using oi
    · have hhl : h < ord.length := by
        have := inv.hle
        omega
      have hne : is_empty_queue q = false := by
        simp [is_empty_queue, inv.tail, hq]
        omega
      have hu : ord[h]? = some (ord.getD h 0) := getElem?_of_lt_getD ord h 0 hhl
      obtain ⟨d1, q1, ext, disc1, hrun, hinv, hhead, hoi⟩ :=
        bfs_step_ord hwf inv oi ((ord.take h).map Int.ofNat) hq (ord.getD h 0) hu
      have htake : ((ord ++ ext).take (h + 1)).map Int.ofNat =
          (ord.take h).map Int.ofNat ++ [((ord.getD h 0 : Nat) : Int)] := by
        rw [List.take_append_of_le_length (by omega), List.take_succ, hu]
        simp
      obtain ⟨d2, q2, ext2, disc2, hrun2, hinv2, hoi2⟩ :=
        ih d1 q1 (ord ++ ext) (h + 1) disc1 hinv hoi hhead (by omega)
      refine ⟨d2, q2, ext ++ ext2, disc2, ?_, ?_, ?_⟩
      · simp only [bfs_loop, hne, if_false, bind, Except.bind, hrun, Bool.false_eq_true]
        rw [← htake, List.append_assoc] at *
        exact hrun2
      · simpa [List.append_assoc] using hinv2
      · simpa [List.append_assoc] using hoi2

/-- The run of `area_bfs` on a well-formed area from an in-range source ends
with the invariant and the order invariant. -/
theorem area_bfs_run_ord {area : area_t} (hwf : well_formed area) (source : room_t)
    (hs : in_range area source) (fuel : Nat) (hfuel : area.num_rooms ≤ fuel) :
    ∃ d q ord disc, area_bfs_run fuel area source =
        Except.ok { d := d, q := q, dequeued := ord.map Int.ofNat } ∧
      bfs_inv area source.id.toNat d q ord ord.length ∧
      ord_inv area d ord ord.length 0 disc := by
  have hsid : source.id = (source.id.toNat : Int) := (Int.toNat_of_nonneg hs.1).symm
  have hsn : source.id.toNat < area.num_rooms := by
    have := hs.2
    omega
  obtain ⟨d, q, ext, disc, hrun, hinv, hoi⟩ :=
    bfs_loop_ord hwf fuel _ _ [source.id.toNat] 0 [] (init_inv area _ hsn)
      (init_ord area _ _) rfl (by omega)
  refine ⟨d, q, [source.id.toNat] ++ ext, disc, ?_, hinv, hoi⟩
  simp only [area_bfs_run, bfs_init_ok area source _ hsid hsn, bind, Except.bind]
  exact hrun

/-- The first exit of a room that leads to a given room is one exit only. -/
theorem first_exit_unique {area : area_t} {u j1 j2 v : Nat}
    (h1 : first_exit area u j1 v) (h2 : first_exit area u j2 v) : j1 = j2 := by
  obtain ⟨r1, hr1, he1, hm1⟩ := h1
  obtain ⟨r2, hr2, he2, hm2⟩ := h2
  rw [hr1] at hr2
  have hrr : r1 = r2 := Option.some.inj (Option.some.inj hr2)
  subst hrr
  rcases Nat.lt_trichotomy j1 j2 with h | h | h
  · exact absurd he1 (hm2 j1 h)
  · exact h
  · exact absurd he2 (hm1 j2 h)

/-- The order of discoveries is strict. -/
theorem earlier_asymm {a b : Nat × Nat} (h1 : earlier a b) (h2 : earlier b a) : False := by
  rcases h1 with h1 | ⟨h1, h3⟩ <;> rcases h2 with h2 | ⟨h2, h4⟩ <;> omega

/-! ## What the final state says -/

/-- At the end, a room joined to the source by an exit path of `k` steps is
enqueued and its distance is at most `k`. -/
theorem bfs_inv.of_path {area : area_t} {s : Nat} {d : area_graph_data_t}
    {q : room_queue_t} {ord : List Nat} (inv : bfs_inv area s d q ord ord.length)
    (r k : Nat) (hp : exit_path area s r k) : r ∈ ord ∧ distOf d r ≤ (k : Int) := by
  induction hp with
  | start =>
    refine ⟨List.getElem?_mem inv.first, ?_⟩
    rw [inv.dist_s]
    simp
  | @step u v k1 _ hex ih =>
    obtain ⟨hu, hd⟩ := ih
    obtain ⟨i, hi⟩ := List.mem_iff_getElem?.mp hu
    have hil : i < ord.length := (List.getElem?_eq_some_iff.mp hi).1
    obtain ⟨hv, hdv⟩ := inv.closed i u v hi hil hex
    refine ⟨hv, ?_⟩
    push_cast
    omega

/-- An enqueued room is joined to the source by an exit path whose number of
steps is its distance. -/
theorem bfs_inv.path_of_mem {area : area_t} {s : Nat} {d : area_graph_data_t}
    {q : room_queue_t} {ord : List Nat} {h : Nat} (inv : bfs_inv area s d q ord h) :
    ∀ (i v : Nat), ord[i]? = some v →
      ∃ m : Nat, distOf d v = (m : Int) ∧ exit_path area s v m := by
  intro i
  induction i using Nat.strong_induction_on with
  | _ i ih =>
    intro v hv
    by_cases hi : i = 0
    · subst hi
      rw [inv.first] at hv
      have := Option.some.inj hv
      subst this
      exact ⟨0, by rw [inv.dist_s]; rfl, exit_path.start⟩
    · obtain ⟨k, u, hk, hu, _, hex, hd, _⟩ := inv.tree i v hv (by omega)
      obtain ⟨m, hm, hp⟩ := ih k hk u hu
      refine ⟨m + 1, ?_, exit_path.step hp hex⟩
      rw [hd, hm]
      push_cast
      rfl

/-- The cells of the three tables for a room of the area. -/
theorem bfs_inv.cells {area : area_t} {s : Nat} {d : area_graph_data_t}
    {q : room_queue_t} {ord : List Nat} {h : Nat} (inv : bfs_inv area s d q ord h)
    (r : Nat) (hr : r < area.num_rooms) :
    d.colors[r]? = some (colorOf d r) ∧ d.distances[r]? = some (distOf d r) ∧
      d.predecessors[r]? = some (predOf d r) :=
  ⟨getElem?_of_lt_getD _ _ _ (by rw [inv.len_c]; exact hr),
   getElem?_of_lt_getD _ _ _ (by rw [inv.len_d]; exact hr),
   getElem?_of_lt_getD _ _ _ (by rw [inv.len_p]; exact hr)⟩

/-- A room reachable from an in-range source of a well-formed area is a room
of the area. -/
theorem reachable_lt {area : area_t} (hwf : well_formed area) (s : Nat)
    (hs : s < area.num_rooms) (r k : Nat) (hp : exit_path area s r k) :
    r < area.num_rooms := by
  induction hp with
  | start => exact hs
  | @step u v k1 _ hex ih =>
    obtain ⟨r1, hr1, hmem⟩ := hex
    obtain ⟨r2, hr2, _, _, hok⟩ := hwf.room u ih
    rw [hr1] at hr2
    have : r1 = r2 := Option.some.inj (Option.some.inj hr2)
    subst this
    rcases hok _ hmem with h1 | h1
    · omega
    · exact Int.ofNat_lt.mp h1

/-- The result of `area_bfs` is the table part of the final state. -/
theorem area_bfs_of_run (fuel : Nat) (area : area_t) (source : room_t) (st : bfs_state)
    (h : area_bfs_run fuel area source = Except.ok st) :
    area_bfs fuel area source = Except.ok st.d := by
  simp only [area_bfs, h, bind, Except.bind, pure, Except.pure]

/-! ## Claims on the search -/

/-- C1: on a well-formed area and from an in-range source, `area_bfs` returns,
and in its result the distance of every room reachable from the source by
exits is the least number of exit traversals of an exit path from the source
to that room; the distance of the source is 0. -/
theorem area_bfs_distance_is_shortest (area : area_t) (source : room_t) (fuel : Nat)
    (hwf : well_formed area) (hs : in_range area source)
    (hfuel : area.num_rooms ≤ fuel) :
    ∃ d, area_bfs fuel area source = Except.ok d ∧
      d.distances[source.id.toNat]? = some 0 ∧
      ∀ r, reachable area source.id.toNat r →
        ∃ m : Nat, d.distances[r]? = some (m : Int) ∧
          exit_path area source.id.toNat r m ∧
          ∀ k, exit_path area source.id.toNat r k → m ≤ k := by
  obtain ⟨d, q, ord, hrun, inv, _⟩ := area_bfs_run_inv hwf source hs fuel hfuel
  have hsn : source.id.toNat < area.num_rooms := by
    have := hs.1
    have := hs.2
    omega
  refine ⟨d, area_bfs_of_run fuel area source _ hrun, ?_, ?_⟩
  · rw [(inv.cells _ hsn).2.1, inv.dist_s]
  · intro r hr
    obtain ⟨k0, hk0⟩ := hr
    obtain ⟨hmem, _⟩ := inv.of_path r k0 hk0
    obtain ⟨i, hi⟩ := List.mem_iff_getElem?.mp hmem
    obtain ⟨m, hm, hp⟩ := inv.path_of_mem i r hi
    refine ⟨m, ?_, hp, ?_⟩
    · rw [(inv.cells r (reachable_lt hwf _ hsn r k0 hk0)).2.1, hm]
    · intro k hk
      have := (inv.of_path r k hk).2
      rw [hm] at this
      exact Int.ofNat_le.mp this

/-- C1, at the example area: the hypotheses hold there. -/
theorem area_bfs_distance_is_shortest_witness :
    well_formed example_area ∧ in_range example_area example_source ∧
    ∃ d, area_bfs 5 example_area example_source = Except.ok d ∧
      d.distances[example_source.id.toNat]? = some 0 ∧
      ∀ r, reachable example_area example_source.id.toNat r →
        ∃ m : Nat, d.distances[r]? = some (m : Int) ∧
          exit_path example_area example_source.id.toNat r m ∧
          ∀ k, exit_path example_area example_source.id.toNat r k → m ≤ k :=
  ⟨by decide, by decide,
   area_bfs_distance_is_shortest example_area example_source 5 (by decide) (by decide)
     (by decide)⟩

/-- C2: on a well-formed area and from an in-range source, in the result of
`area_bfs` a room is black exactly when it is reachable from the source by
exits, a room that is not reachable is white, at distance 0 and without
predecessor, and no room is gray. -/
theorem area_bfs_colors (area : area_t) (source : room_t) (fuel : Nat)
    (hwf : well_formed area) (hs : in_range area source)
    (hfuel : area.num_rooms ≤ fuel) :
    ∃ d, area_bfs fuel area source = Except.ok d ∧
      ∀ r, r < area.num_rooms →
        (d.colors[r]? = some VERTEX_BLACK ↔ reachable area source.id.toNat r) ∧
        (¬ reachable area source.id.toNat r →
          d.colors[r]? = some VERTEX_WHITE ∧ d.distances[r]? = some 0 ∧
            d.predecessors[r]? = some (-1)) ∧
        d.colors[r]? ≠ some VERTEX_GRAY := by
  obtain ⟨d, q, ord, hrun, inv, _⟩ := area_bfs_run_inv hwf source hs fuel hfuel
  refine ⟨d, area_bfs_of_run fuel area source _ hrun, ?_⟩
  intro r hr
  obtain ⟨hc, hd, hp⟩ := inv.cells r hr
  have hreach : reachable area source.id.toNat r ↔ r ∈ ord := by
    constructor
    · intro ⟨k, hk⟩
      exact (inv.of_path r k hk).1
    · intro hmem
      obtain ⟨i, hi⟩ := List.mem_iff_getElem?.mp hmem
      obtain ⟨m, _, hpath⟩ := inv.path_of_mem i r hi
      exact ⟨m, hpath⟩
  have hblack : r ∈ ord → colorOf d r = VERTEX_BLACK := by
    intro hmem
    obtain ⟨i, hi⟩ := List.mem_iff_getElem?.mp hmem
    exact inv.black i r hi (List.getElem?_eq_some_iff.mp hi).1
  rw [hc, hd, hp, hreach]
  refine ⟨⟨?_, fun hmem => congrArg some (hblack hmem)⟩, ?_, ?_⟩
  · intro hb
    by_contra hmem
    have := (inv.white r hmem).1
    rw [this] at hb
    cases hb
  · intro hmem
    obtain ⟨h1, h2, h3⟩ := inv.white r hmem
    rw [h1, h2, h3]
    exact ⟨rfl, rfl, rfl⟩
  · intro hg
    by_cases hmem : r ∈ ord
    · rw [hblack hmem] at hg
      cases hg
    · rw [(inv.white r hmem).1] at hg
      cases hg

/-- C2, at the example area: the hypotheses hold there. -/
theorem area_bfs_colors_witness :
    well_formed example_area ∧ in_range example_area example_source ∧
    ∃ d, area_bfs 5 example_area example_source = Except.ok d ∧
      ∀ r, r < example_area.num_rooms →
        (d.colors[r]? = some VERTEX_BLACK ↔
          reachable example_area example_source.id.toNat r) ∧
        (¬ reachable example_area example_source.id.toNat r →
          d.colors[r]? = some VERTEX_WHITE ∧ d.distances[r]? = some 0 ∧
            d.predecessors[r]? = some (-1)) ∧
        d.colors[r]? ≠ some VERTEX_GRAY :=
  ⟨by decide, by decide,
   area_bfs_colors example_area example_source 5 (by decide) (by decide) (by decide)⟩

/-- In the result of `area_bfs`, the reachable rooms are the black ones. -/
theorem reachable_iff_black (area : area_t) (source : room_t) (fuel : Nat)
    (hwf : well_formed area) (hs : in_range area source)
    (hfuel : area.num_rooms ≤ fuel) (d : area_graph_data_t)
    (hd : area_bfs fuel area source = Except.ok d) (r : Nat) (hr : r < area.num_rooms) :
    reachable area source.id.toNat r ↔ d.colors[r]? = some VERTEX_BLACK := by
  obtain ⟨d1, q, ord, hrun, inv, _⟩ := area_bfs_run_inv hwf source hs fuel hfuel
  have h1 := area_bfs_of_run fuel area source _ hrun
  rw [hd] at h1
  have hdd : d = d1 := Except.ok.inj h1
  subst hdd
  rw [(inv.cells r hr).1]
  constructor
  · intro ⟨k, hk⟩
    obtain ⟨i, hi⟩ := List.mem_iff_getElem?.mp (inv.of_path r k hk).1
    exact congrArg some (inv.black i r hi (List.getElem?_eq_some_iff.mp hi).1)
  · intro hb
    have hmem : r ∈ ord := inv.mem_of_not_white r (by
      rw [Option.some.inj hb]
      decide)
    obtain ⟨i, hi⟩ := List.mem_iff_getElem?.mp hmem
    obtain ⟨m, _, hpath⟩ := inv.path_of_mem i r hi
    exact ⟨m, hpath⟩

/-- C3: on a well-formed area and from an in-range source, in the result of
`area_bfs` the source has no predecessor and is dequeued first, and the
predecessor of every other reached room `v` is a reached room `u` with an exit
to `v`, one step nearer to the source; no room dequeued before `u` has an exit
to `v`, and `v` was discovered through the first exit of `u` that leads to it.
The rooms after the source are dequeued in the order of their discoveries: by
the dequeue index of the predecessor and, for rooms with the same predecessor,
by the index of the exit in the scan order north, east, south, west. On the
five-room example the distances are 0, 1, 2, 1, 2 and the predecessors of
rooms 1 to 4 are 0, 1, 0, 1; on `fork_area`, where room 3 is reached from the
rooms north and east of the source, its predecessor is the room to the
north. -/
theorem area_bfs_predecessors (area : area_t) (source : room_t) (fuel : Nat)
    (hwf : well_formed area) (hs : in_range area source)
    (hfuel : area.num_rooms ≤ fuel) :
    (∃ st, area_bfs_run fuel area source = Except.ok st ∧
      area_bfs fuel area source = Except.ok st.d ∧
      st.d.predecessors[source.id.toNat]? = some (-1) ∧
      st.dequeued[0]? = some source.id ∧
      (∀ v, reachable area source.id.toNat v → v ≠ source.id.toNat →
        ∃ (u i : Nat) (du : Int), st.dequeued[i]? = some (u : Int) ∧
          st.d.predecessors[v]? = some (u : Int) ∧
          reachable area source.id.toNat u ∧ has_exit area u v ∧
          st.d.distances[u]? = some du ∧ st.d.distances[v]? = some (du + 1) ∧
          (∀ (i1 u1 : Nat), i1 < i → st.dequeued[i1]? = some (u1 : Int) →
            ¬ has_exit area u1 v) ∧
          ∃ iv j, discovered_at area st iv v i j) ∧
      (∀ (iv iw v w kv kw jv jw : Nat), discovered_at area st iv v kv jv →
        discovered_at area st iw w kw jw →
        (iv < iw ↔ earlier (kv, jv) (kw, jw)))) ∧
    area_bfs 5 example_area example_source = Except.ok
      { predecessors := [-1, 0, 1, 0, 1],
        colors := [VERTEX_BLACK, VERTEX_BLACK, VERTEX_BLACK, VERTEX_BLACK, VERTEX_BLACK],
        distances := [0, 1, 2, 1, 2] } ∧
    area_bfs 4 fork_area fork_source = Except.ok
      { predecessors := [-1, 0, 0, 1],
        colors := [VERTEX_BLACK, VERTEX_BLACK, VERTEX_BLACK, VERTEX_BLACK],
        distances := [0, 1, 1, 2] } := by
  refine ⟨?_, rfl, rfl⟩
  obtain ⟨d, q, ord, disc, hrun, inv, oi⟩ := area_bfs_run_ord hwf source hs fuel hfuel
  have hsn : source.id.toNat < area.num_rooms := by
    have := hs.1
    have := hs.2
    omega
  have hdeq : ∀ (i u : Nat), (ord.map Int.ofNat)[i]? = some (u : Int) → ord[i]? = some u := by
    intro i u hiu
    rw [List.getElem?_map] at hiu
    cases ho : ord[i]? with
    | none => rw [ho] at hiu; cases hiu
    | some w =>
      rw [ho] at hiu
      have : (w : Int) = (u : Int) := Option.some.inj hiu
      rw [Int.ofNat_inj.mp this]
  have henq : ∀ (i u : Nat), ord[i]? = some u → (ord.map Int.ofNat)[i]? = some (u : Int) := by
    intro i u hiu
    rw [List.getElem?_map, hiu]
    rfl
  -- the discovery of the room at index `i` is entry `i - 1` of `disc`
  have hkey : ∀ (i v k j : Nat),
      discovered_at area { d := d, q := q, dequeued := ord.map Int.ofNat } i v k j →
      i < ord.length ∧ disc[i - 1]? = some (k, j) := by
    intro i v k j ⟨hi0, hv, u, hu, hp, hf⟩
    have hv1 := hdeq i v hv
    have hu1 := hdeq k u hu
    have hil : i < ord.length := (List.getElem?_eq_some_iff.mp hv1).1
    have hvn := inv.range v (List.getElem?_mem hv1)
    have hpv : predOf d v = (u : Int) := by
      have h1 := (inv.cells v hvn).2.2
      have h2 : d.predecessors[v]? = some (u : Int) := hp
      rw [h1] at h2
      exact Option.some.inj h2
    have hdl : i - 1 < disc.length := by
      have := oi.len
      omega
    have hd1 : disc[i - 1]? = some (disc[i - 1]) := List.getElem?_eq_getElem hdl
    have hv2 : ord[i - 1 + 1]? = some v := by
      rw [Nat.sub_add_cancel hi0]
      exact hv1
    obtain ⟨u2, hu2, hp2, hf2⟩ := oi.key (i - 1) v (disc[i - 1]).1 (disc[i - 1]).2 hv2 hd1
    have huu : u2 = u := by
      rw [hpv] at hp2
      exact (Int.ofNat_inj.mp hp2).symm
    subst huu
    have hk : (disc[i - 1]).1 = k := nodup_index_eq ord inv.nodup _ _ u2 hu2 hu1
    have hj : (disc[i - 1]).2 = j := first_exit_unique hf2 hf
    refine ⟨hil, ?_⟩
    rw [hd1, ← hk, ← hj]
  refine ⟨_, hrun, area_bfs_of_run fuel area source _ hrun, ?_, ?_, ?_, ?_⟩
  · rw [(inv.cells _ hsn).2.2, inv.pred_s]
  · show (ord.map Int.ofNat)[0]? = some source.id
    rw [henq 0 _ inv.first]
    exact congrArg some (Int.toNat_of_nonneg hs.1)
  · intro v ⟨k0, hk0⟩ hvs
    have hvn := reachable_lt hwf _ hsn v k0 hk0
    obtain ⟨i, hi⟩ := List.mem_iff_getElem?.mp (inv.of_path v k0 hk0).1
    have hi0 : 0 < i := by
      by_contra h0
      have : i = 0 := by omega
      subst this
      rw [inv.first] at hi
      exact hvs (Option.some.inj hi).symm
    have hil : i < ord.length := (List.getElem?_eq_some_iff.mp hi).1
    obtain ⟨k, u, _, hu, hp, hex, hd, hearly⟩ := inv.tree i v hi hi0
    have hun := inv.range u (List.getElem?_mem hu)
    obtain ⟨m, _, hpath⟩ := inv.path_of_mem k u hu
    have hdl : i - 1 < disc.length := by
      have := oi.len
      omega
    have hd1 : disc[i - 1]? = some (disc[i - 1]) := List.getElem?_eq_getElem hdl
    have hv2 : ord[i - 1 + 1]? = some v := by
      rw [Nat.sub_add_cancel hi0]
      exact hi
    obtain ⟨u2, hu2, hp2, hf2⟩ := oi.key (i - 1) v (disc[i - 1]).1 (disc[i - 1]).2 hv2 hd1
    have huu : u2 = u := by
      rw [hp] at hp2
      exact (Int.ofNat_inj.mp hp2).symm
    subst huu
    refine ⟨u2, k, distOf d u2, henq k u2 hu, ?_, ⟨m, hpath⟩, hex, (inv.cells u2 hun).2.1,
      ?_, ?_, i, (disc[i - 1]).2, hi0, henq i v hi, u2, henq k u2 hu, ?_, hf2⟩
    · rw [(inv.cells v hvn).2.2, hp]
    · rw [(inv.cells v hvn).2.1, hd]
    · intro i1 u1 hi1 hu1
      exact hearly i1 u1 hi1 (hdeq i1 u1 hu1)
    · show d.predecessors[v]? = some (u2 : Int)
      rw [(inv.cells v hvn).2.2, hp]
  · intro iv iw v w kv kw jv jw hv hw
    obtain ⟨hvl, hvk⟩ := hkey iv v kv jv hv
    obtain ⟨hwl, hwk⟩ := hkey iw w kw jw hw
    have hv0 : 0 < iv := hv.1
    have hw0 : 0 < iw := hw.1
    have hlen := oi.len
    have hsorted := List.pairwise_iff_getElem.mp oi.sorted
    have hget : ∀ (a b : Nat) (ka ja kb jb : Nat), disc[a]? = some (ka, ja) →
        disc[b]? = some (kb, jb) → a < b → earlier (ka, ja) (kb, jb) := by
      intro a b ka ja kb jb ha hb hab
      obtain ⟨ha1, ha2⟩ := List.getElem?_eq_some_iff.mp ha
      obtain ⟨hb1, hb2⟩ := List.getElem?_eq_some_iff.mp hb
      have := hsorted a b ha1 hb1 hab
      rw [ha2, hb2] at this
      exact this
    constructor
    · intro hlt
      exact hget (iv - 1) (iw - 1) kv jv kw jw hvk hwk (by omega)
    · intro he
      rcases Nat.lt_trichotomy iv iw with h1 | h1 | h1
      · exact h1
      · subst h1
        rw [hvk] at hwk
        have hkj : (kv, jv) = (kw, jw) := Option.some.inj hwk
        rw [hkj] at he
        exact absurd he (fun h2 => earlier_asymm h2 h2)
      · exact absurd (hget (iw - 1) (iv - 1) kw jw kv jv hwk hvk (by omega))
          (fun h2 => earlier_asymm he h2)

/-- C3, at the example area: the hypotheses hold there. -/
theorem area_bfs_predecessors_witness :
    well_formed example_area ∧ in_range example_area example_source ∧
    ((∃ st, area_bfs_run 5 example_area example_source = Except.ok st ∧
      area_bfs 5 example_area example_source = Except.ok st.d ∧
      st.d.predecessors[example_source.id.toNat]? = some (-1) ∧
      st.dequeued[0]? = some example_source.id ∧
      (∀ v, reachable example_area example_source.id.toNat v →
        v ≠ example_source.id.toNat →
        ∃ (u i : Nat) (du : Int), st.dequeued[i]? = some (u : Int) ∧
          st.d.predecessors[v]? = some (u : Int) ∧
          reachable example_area example_source.id.toNat u ∧
          has_exit example_area u v ∧
          st.d.distances[u]? = some du ∧ st.d.distances[v]? = some (du + 1) ∧
          (∀ (i1 u1 : Nat), i1 < i → st.dequeued[i1]? = some (u1 : Int) →
            ¬ has_exit example_area u1 v) ∧
          ∃ iv j, discovered_at example_area st iv v i j) ∧
      (∀ (iv iw v w kv kw jv jw : Nat), discovered_at example_area st iv v kv jv →
        discovered_at example_area st iw w kw jw →
        (iv < iw ↔ earlier (kv, jv) (kw, jw)))) ∧
    area_bfs 5 example_area example_source = Except.ok
      { predecessors := [-1, 0, 1, 0, 1],
        colors := [VERTEX_BLACK, VERTEX_BLACK, VERTEX_BLACK, VERTEX_BLACK, VERTEX_BLACK],
        distances := [0, 1, 2, 1, 2] } ∧
    area_bfs 4 fork_area fork_source = Except.ok
      { predecessors := [-1, 0, 0, 1],
        colors := [VERTEX_BLACK, VERTEX_BLACK, VERTEX_BLACK, VERTEX_BLACK],
        distances := [0, 1, 1, 2] }) :=
  ⟨by decide, by decide,
   area_bfs_predecessors example_area example_source 5 (by decide) (by decide)
     (by decide)⟩

/-- The walk of `print_path` from an enqueued room reaches the source: it
prints the source, then every later room of an exit path to the room. -/
theorem print_path_of_mem {area : area_t} {s : Nat} {d : area_graph_data_t}
    {q : room_queue_t} {ord : List Nat} {h : Nat} (inv : bfs_inv area s d q ord h) :
    ∀ (i v : Nat), ord[i]? = some v → ∀ fuel, i < fuel →
      ∃ rest : List Nat,
        print_path d (s : Int) fuel (v : Int) =
          Except.ok (path_out.first (s : Int) ::
            rest.map (fun (w : Nat) => path_out.arrow (Int.ofNat w))) ∧
        (s :: rest).getLast? = some v ∧ distOf d v = (rest.length : Int) ∧
        List.Chain' (has_exit area) (s :: rest) := by
  intro i
  induction i using Nat.strong_induction_on with
  | _ i ih =>
    intro v hv fuel hfuel
    obtain ⟨f, hf⟩ : ∃ f, fuel = f + 1 := ⟨fuel - 1, by omega⟩
    subst hf
    by_cases hsv : s = v
    · subst hsv
      refine ⟨[], ?_, rfl, ?_, List.chain'_singleton s⟩
      · simp only [print_path, if_true, pure, Except.pure, List.map_nil]
      · rw [inv.dist_s]
        rfl
    · have hi0 : 0 < i := by
        by_contra h0
        have : i = 0 := by omega
        subst this
        rw [inv.first] at hv
        exact hsv (Option.some.inj hv)
      obtain ⟨k, u, hk, hu, hp, hex, hd, _⟩ := inv.tree i v hv hi0
      have hvn := inv.range v (List.getElem?_mem hv)
      obtain ⟨rest, hrun, hlast, hlen, hchain⟩ := ih k hk u hu f (by omega)
      have hne : ¬ ((s : Int) = (v : Int)) := fun he => hsv (Int.ofNat_inj.mp he)
      have e1 : read table.predecessors d.predecessors (v : Int) = Except.ok (u : Int) :=
        read_ok _ _ _ _ (by rw [(inv.cells v hvn).2.2, hp])
      have hu1 : ¬ ((u : Int) = -1) := by omega
      refine ⟨rest ++ [v], ?_, ?_, ?_, ?_⟩
      · simp only [print_path, hne, if_false, e1, bind, Except.bind, hu1, hrun, pure,
          Except.pure, List.map_append, List.map_cons, List.map_nil, List.cons_append]
        rfl
      · rw [← List.cons_append]
        exact List.getLast?_concat _
      · rw [hd, hlen]
        simp
      · rw [← List.cons_append]
        refine List.Chain'.append hchain (List.chain'_singleton v) ?_
        intro x hx y hy
        rw [hlast] at hx
        have hxu : u = x := Option.some.inj hx
        have hyv : v = y := by simpa using hy
        rw [← hxu, ← hyv]
        exact hex

/-- C4: on a well-formed area, from an in-range source and for a room `t`
reachable from it, `print_path` over the result of `area_bfs` ends and prints
the source and then, in order, the later rooms of a sequence that ends with
`t`, has `distances[t] + 1` rooms and in which every room has an exit to the
next; for `t` the source itself it prints the source alone. On the five-room
example, from 0 to 4, it prints 0, 1, 4. -/
theorem print_path_reaches_target (area : area_t) (source : room_t) (fuel pfuel t : Nat)
    (hwf : well_formed area) (hs : in_range area source)
    (hfuel : area.num_rooms ≤ fuel) (hpfuel : area.num_rooms ≤ pfuel)
    (ht : reachable area source.id.toNat t) :
    (∃ (d : area_graph_data_t) (rest : List Nat) (dt : Int),
      area_bfs fuel area source = Except.ok d ∧
      print_path d source.id pfuel (t : Int) =
        Except.ok (path_out.first source.id ::
          rest.map (fun (w : Nat) => path_out.arrow (Int.ofNat w))) ∧
      (source.id.toNat :: rest).getLast? = some t ∧
      d.distances[t]? = some dt ∧
      ((source.id.toNat :: rest).length : Int) = dt + 1 ∧
      List.Chain' (has_exit area) (source.id.toNat :: rest) ∧
      (t = source.id.toNat → rest = [])) ∧
    (∃ d, area_bfs 5 example_area example_source = Except.ok d ∧
      print_path d 0 5 4 =
        Except.ok [path_out.first 0, path_out.arrow 1, path_out.arrow 4]) := by
  refine ⟨?_, ⟨_, rfl, rfl⟩⟩
  obtain ⟨d, q, ord, hrun, inv, _⟩ := area_bfs_run_inv hwf source hs fuel hfuel
  have hsid : source.id = (source.id.toNat : Int) := (Int.toNat_of_nonneg hs.1).symm
  have hsn : source.id.toNat < area.num_rooms := by
    have := hs.2
    omega
  obtain ⟨k0, hk0⟩ := ht
  have htn := reachable_lt hwf _ hsn t k0 hk0
  obtain ⟨i, hi⟩ := List.mem_iff_getElem?.mp (inv.of_path t k0 hk0).1
  have hil : i < ord.length := (List.getElem?_eq_some_iff.mp hi).1
  have hln : ord.length ≤ area.num_rooms :=
    nodup_bounded_length ord area.num_rooms inv.nodup inv.range
  obtain ⟨rest, hprint, hlast, hlen, hchain⟩ := print_path_of_mem inv i t hi pfuel (by omega)
  refine ⟨d, rest, distOf d t, area_bfs_of_run fuel area source _ hrun, ?_, hlast,
    (inv.cells t htn).2.1, ?_, hchain, ?_⟩
  · rw [← hsid] at hprint
    exact hprint
  · rw [hlen]
    simp
  · intro hts
    rw [hts, inv.dist_s] at hlen
    have : rest.length = 0 := by omega
    exact List.length_eq_zero.mp this

/-- C4, at the example area: the hypotheses hold there, for the target 4. -/
theorem print_path_reaches_target_witness :
    well_formed example_area ∧ in_range example_area example_source ∧
    reachable example_area example_source.id.toNat 4 ∧
    ((∃ (d : area_graph_data_t) (rest : List Nat) (dt : Int),
      area_bfs 5 example_area example_source = Except.ok d ∧
      print_path d example_source.id 5 ((4 : Nat) : Int) =
        Except.ok (path_out.first example_source.id ::
          rest.map (fun (w : Nat) => path_out.arrow (Int.ofNat w))) ∧
      (example_source.id.toNat :: rest).getLast? = some 4 ∧
      d.distances[4]? = some dt ∧
      ((example_source.id.toNat :: rest).length : Int) = dt + 1 ∧
      List.Chain' (has_exit example_area) (example_source.id.toNat :: rest) ∧
      (4 = example_source.id.toNat → rest = [])) ∧
    (∃ d, area_bfs 5 example_area example_source = Except.ok d ∧
      print_path d 0 5 4 =
        Except.ok [path_out.first 0, path_out.arrow 1, path_out.arrow 4])) :=
  have h1 : has_exit example_area 0 1 :=
    ⟨{ id := 0, exits := [-1, 1, 3, -1] }, rfl, by decide⟩
  have h2 : has_exit example_area 1 4 :=
    ⟨{ id := 1, exits := [4, -1, 2, 0] }, rfl, by decide⟩
  have hr : reachable example_area example_source.id.toNat 4 :=
    ⟨2, exit_path.step (exit_path.step exit_path.start h1) h2⟩
  ⟨by decide, by decide, hr,
   print_path_reaches_target example_area example_source 5 5 4 (by decide) (by decide)
     (by decide) (by decide) hr⟩

/-- C5: on a well-formed area, from an in-range source and for a room `t` of
the area that is not reachable from it, `print_path` over the result of
`area_bfs` prints the line "no path" and nothing else. -/
theorem print_path_unreachable (area : area_t) (source : room_t) (fuel pfuel t : Nat)
    (hwf : well_formed area) (hs : in_range area source)
    (hfuel : area.num_rooms ≤ fuel) (hpfuel : 0 < pfuel) (ht : t < area.num_rooms)
    (hnr : ¬ reachable area source.id.toNat t) :
    ∃ d, area_bfs fuel area source = Except.ok d ∧
      print_path d source.id pfuel (t : Int) =
        Except.ok [path_out.no_path source.id (t : Int)] := by
  obtain ⟨d, q, ord, hrun, inv, _⟩ := area_bfs_run_inv hwf source hs fuel hfuel
  have hsid : source.id = (source.id.toNat : Int) := (Int.toNat_of_nonneg hs.1).symm
  refine ⟨d, area_bfs_of_run fuel area source _ hrun, ?_⟩
  have hmem : t ∉ ord := by
    intro hm
    obtain ⟨i, hi⟩ := List.mem_iff_getElem?.mp hm
    obtain ⟨m, _, hpath⟩ := inv.path_of_mem i t hi
    exact hnr ⟨m, hpath⟩
  have hne : ¬ (source.id = (t : Int)) := by
    intro he
    apply hnr
    have : source.id.toNat = t := by omega
    rw [this]
    exact ⟨0, exit_path.start⟩
  have e1 : read table.predecessors d.predecessors (t : Int) = Except.ok (-1) :=
    read_ok _ _ _ _ (by rw [(inv.cells t ht).2.2, (inv.white t hmem).2.2])
  obtain ⟨f, hf⟩ : ∃ f, pfuel = f + 1 := ⟨pfuel - 1, by omega⟩
  subst hf
  simp only [print_path, hne, if_false, e1, bind, Except.bind, if_true, pure, Except.pure]

/-- C5, at the area with the island room 2, which no exit path from room 0
reaches. -/
theorem print_path_unreachable_witness :
    well_formed island_area ∧ in_range island_area island_source ∧
    ¬ reachable island_area island_source.id.toNat 2 ∧
    ∃ d, area_bfs 3 island_area island_source = Except.ok d ∧
      print_path d island_source.id 1 ((2 : Nat) : Int) =
        Except.ok [path_out.no_path island_source.id ((2 : Nat) : Int)] :=
  have hnr : ¬ reachable island_area island_source.id.toNat 2 := fun hr =>
    absurd ((reachable_iff_black island_area island_source 3 (by decide) (by decide)
      (by decide) _ rfl 2 (by decide)).mp hr) (by decide)
  ⟨by decide, by decide, hnr,
   print_path_unreachable island_area island_source 3 1 2 (by decide) (by decide)
     (by decide) (by decide) (by decide) hnr⟩

/-! ## What the search reads of a room -/

/-- The `for` loop over exits reads nothing of the room but its exits. -/
theorem scan_exits_congr (u v : room_t) (h : u.exits = v.exits) (ui : Int) :
    ∀ (js : List Nat) (st : bfs_state), scan_exits u ui js st = scan_exits v ui js st := by
  intro js
  induction js with
  | nil => intro st; rfl
  | cons j js ih =>
    intro st
    simp only [scan_exits, h, ih]

/-- The read of a room gives rooms with the same exits in two tables that
agree on the exits of every cell. -/
theorem room_at_congr (a b : area_t)
    (hex : a.rooms.map (Option.map room_t.exits) = b.rooms.map (Option.map room_t.exits))
    (ui : Int) :
    room_at a ui = room_at b ui ∨
    ∃ u v, room_at a ui = Except.ok u ∧ room_at b ui = Except.ok v ∧ u.exits = v.exits := by
  have hcell : ∀ k : Nat, (a.rooms[k]?).map (Option.map room_t.exits) =
      (b.rooms[k]?).map (Option.map room_t.exits) := by
    intro k
    rw [← List.getElem?_map, ← List.getElem?_map, hex]
  by_cases hneg : ui < 0
  · left
    simp only [room_at, read_neg _ _ _ hneg, bind, Except.bind]
  · have hk := hcell ui.toNat
    simp only [room_at, read, hneg, if_false, bind, Except.bind]
    cases ha : a.rooms[ui.toNat]? with
    | none =>
      cases hb : b.rooms[ui.toNat]? with
      | none =>
        left
        rfl
      | some y => rw [ha, hb] at hk; cases hk
    | some x =>
      cases hb : b.rooms[ui.toNat]? with
      | none => rw [ha, hb] at hk; cases hk
      | some y =>
        rw [ha, hb] at hk
        have hxy : Option.map room_t.exits x = Option.map room_t.exits y :=
          Option.some.inj hk
        cases x with
        | none =>
          cases y with
          | none =>
            left
            rfl
          | some v => cases hxy
        | some u =>
          cases y with
          | none => cases hxy
          | some v =>
            right
            exact ⟨u, v, rfl, rfl, Option.some.inj hxy⟩

/-- One turn of the `while` loop is the same on two areas that agree on the
exits of every room. -/
theorem bfs_step_congr (a b : area_t)
    (hex : a.rooms.map (Option.map room_t.exits) = b.rooms.map (Option.map room_t.exits))
    (st : bfs_state) : bfs_step a st = bfs_step b st := by
  simp only [bfs_step, bind, Except.bind]
  cases hd : dequeue st.q with
  | error e => rfl
  | ok p =>
    obtain ⟨ui, q⟩ := p
    simp only []
    rcases room_at_congr a b hex ui with h1 | ⟨u, v, h1, h2, h3⟩
    · rw [← h1]
    · rw [h1, h2]
      simp only [scan_exits_congr u v h3]

/-- The `while` loop is the same on two areas that agree on the exits of every
room. -/
theorem bfs_loop_congr (a b : area_t)
    (hex : a.rooms.map (Option.map room_t.exits) = b.rooms.map (Option.map room_t.exits)) :
    ∀ (fuel : Nat) (st : bfs_state), bfs_loop a fuel st = bfs_loop b fuel st := by
  intro fuel
  induction fuel with
  | zero => intro st; rfl
  | succ fuel ih =>
    intro st
    simp only [bfs_loop, bfs_step_congr a b hex, ih]

/-- The search gives the same result on two areas with the same number of rooms
that agree on the exits of every room, from sources with the same id. -/
theorem area_bfs_congr (a b : area_t) (hn : a.num_rooms = b.num_rooms)
    (hex : a.rooms.map (Option.map room_t.exits) = b.rooms.map (Option.map room_t.exits))
    (s t : room_t) (hid : s.id = t.id) (fuel : Nat) :
    area_bfs fuel a s = area_bfs fuel b t := by
  simp only [area_bfs, area_bfs_run, bfs_init, hn, hid, bfs_loop_congr a b hex]

/-- Rooms that are equal after a change that keeps the exits have equal exits. -/
theorem exits_of_erased (f : room_t → room_t) (hf : ∀ r, (f r).exits = r.exits)
    (xs ys : List (Option room_t))
    (h : xs.map (Option.map f) = ys.map (Option.map f)) :
    xs.map (Option.map room_t.exits) = ys.map (Option.map room_t.exits) := by
  have key : ∀ zs : List (Option room_t),
      zs.map (Option.map room_t.exits) =
        (zs.map (Option.map f)).map (Option.map room_t.exits) := by
    intro zs
    rw [List.map_map]
    apply List.map_congr_left
    intro o _
    cases o with
    | none => rfl
    | some r => simp [hf r]
  rw [key xs, key ys, h]

/-- C6, refuted at `border_area`: the exit of room 0 that leads to another area
is followed, room 1 is discovered through it, and the result is not the one on
the area without the cross-area exit. -/
theorem cross_area_exit_is_followed :
    well_formed border_area ∧
    area_bfs 2 border_area border_source = Except.ok
      { predecessors := [-1, 0], colors := [VERTEX_BLACK, VERTEX_BLACK],
        distances := [0, 1] } ∧
    area_bfs 2 (without_cross_area_exits border_area) border_source = Except.ok
      { predecessors := [-1, -1], colors := [VERTEX_BLACK, VERTEX_WHITE],
        distances := [0, 0] } ∧
    area_bfs 2 border_area border_source ≠
      area_bfs 2 (without_cross_area_exits border_area) border_source :=
  ⟨by decide, rfl, rfl, fun h => by
    have h1 : area_bfs 2 border_area border_source = Except.ok
      { predecessors := [-1, 0], colors := [VERTEX_BLACK, VERTEX_BLACK],
        distances := [0, 1] } := rfl
    have h2 : area_bfs 2 (without_cross_area_exits border_area) border_source = Except.ok
      { predecessors := [-1, -1], colors := [VERTEX_BLACK, VERTEX_WHITE],
        distances := [0, 0] } := rfl
    rw [h1, h2] at h
    exact absurd (Except.ok.inj h) (by decide)⟩

/-- C6, amended: `area_bfs` reads neither `exit_areas` nor `area_id`; two areas
that differ in these only give the same result, so an exit is followed to the
room of the given area with its number whatever area it is said to lead to. -/
theorem area_bfs_ignores_exit_areas (a b : area_t) (s t : room_t) (fuel : Nat)
    (hab : differ_in_exit_areas_only a b) (hid : s.id = t.id) :
    area_bfs fuel a s = area_bfs fuel b t :=
  area_bfs_congr a b hab.1
    (exits_of_erased erase_exit_areas (fun _ => rfl) a.rooms b.rooms hab.2) s t hid fuel

/-- C6, amended, at `border_area`. -/
theorem area_bfs_ignores_exit_areas_witness :
    differ_in_exit_areas_only border_area border_area_same ∧
    border_source.id = border_source.id ∧
    area_bfs 2 border_area border_source = area_bfs 2 border_area_same border_source :=
  ⟨by decide, rfl,
   area_bfs_ignores_exit_areas border_area border_area_same border_source border_source 2
     (by decide) rfl⟩

/-- C7, refuted at the example area: for the source id 7, out of range for
five rooms, `area_bfs` does not fail before it indexes a table; its first
access is the write `colors[7]`, outside the colour table. -/
theorem out_of_range_source_is_indexed :
    ¬ in_range example_area { id := 7, exits := [-1, -1, -1, -1] } ∧
    area_bfs 5 example_area { id := 7, exits := [-1, -1, -1, -1] } =
      Except.error (fault.out_of_bounds table.colors 7) :=
  ⟨by decide, rfl⟩

/-- C7, amended: `area_bfs` makes no range check and has no failure of its
own; for a source id out of range its first table access, the write
`colors[source->id]`, is outside the colour table, and no result is built. -/
theorem area_bfs_no_range_check (area : area_t) (source : room_t) (fuel : Nat)
    (hs : ¬ in_range area source) :
    area_bfs fuel area source =
      Except.error (fault.out_of_bounds table.colors source.id) := by
  have hw : write table.colors (List.replicate area.num_rooms VERTEX_WHITE) source.id
      VERTEX_GRAY = Except.error (fault.out_of_bounds table.colors source.id) := by
    apply write_big
    simp only [in_range, not_and_or, not_le, not_lt] at hs
    simpa using hs
  simp only [area_bfs, area_bfs_run, bfs_init, hw, bind, Except.bind]

/-- C7, amended, at the example area and the source id -1. -/
theorem area_bfs_no_range_check_witness :
    ¬ in_range example_area { id := -1, exits := [-1, -1, -1, -1] } ∧
    area_bfs 5 example_area { id := -1, exits := [-1, -1, -1, -1] } =
      Except.error (fault.out_of_bounds table.colors (-1)) :=
  ⟨by decide,
   area_bfs_no_range_check example_area { id := -1, exits := [-1, -1, -1, -1] } 5
     (by decide)⟩

/-- C8: the result of `area_bfs` does not depend on locked flags; two areas
that differ in `locked_exits` only give the same colours, distances and
predecessors from the same source id. -/
theorem area_bfs_ignores_locked (a b : area_t) (s t : room_t) (fuel : Nat)
    (hab : differ_in_locked_only a b) (hid : s.id = t.id) :
    area_bfs fuel a s = area_bfs fuel b t :=
  area_bfs_congr a b hab.1
    (exits_of_erased erase_locked (fun _ => rfl) a.rooms b.rooms hab.2) s t hid fuel

/-- C8, at the example area and its copy with two locked doors. -/
theorem area_bfs_ignores_locked_witness :
    differ_in_locked_only example_area example_area_locked ∧
    example_source.id = example_source.id ∧
    area_bfs 5 example_area example_source =
      area_bfs 5 example_area_locked example_source :=
  ⟨by decide, rfl,
   area_bfs_ignores_locked example_area example_area_locked example_source
     example_source 5 (by decide) rfl⟩

/-! ## Lemmas on strings and integers -/

/-- A value in the range of `int` is not changed by the conversion to `int`. -/
theorem to_int_of_is_int (v : Int) (h : is_int v) : to_int v = v := by
  obtain ⟨h1, h2⟩ := h
  unfold to_int
  omega

/-- The conversion to `int` gives a value in the range of `int`. -/
theorem is_int_to_int (v : Int) : is_int (to_int v) := by
  unfold to_int is_int
  omega

/-- A C string without a zero byte is the C string at its own bytes. -/
theorem c_str_self (k : c_string) (h : ∀ b ∈ k, b ≠ 0) : c_str k = k := by
  unfold c_str
  rw [List.takeWhile_eq_self_iff]
  intro b hb
  simpa using h b hb

/-- The C string that a zero byte closes has no zero byte, and it is the C
string at the pointer. -/
theorem c_string_of_some (bs : List Nat) :
    ∀ k, c_string_of bs = some k → (∀ b ∈ k, b ≠ 0) ∧ c_str bs = k := by
  induction bs with
  | nil =>
    intro k h
    cases h
  | cons b bs ih =>
    intro k h
    by_cases hb : b = 0
    · simp only [c_string_of, hb, if_true] at h
      have hk := (Option.some.inj h).symm
      subst hk
      subst hb
      refine ⟨?_, by simp [c_str]⟩
      intro b hb
      cases hb
    · simp only [c_string_of, hb, if_false] at h
      cases hr : c_string_of bs with
      | none =>
        rw [hr] at h
        cases h
      | some k1 =>
        rw [hr] at h
        have hk : b :: k1 = k := Option.some.inj h
        subst hk
        obtain ⟨h1, h2⟩ := ih k1 hr
        refine ⟨?_, ?_⟩
        · intro x hx
          rcases List.mem_cons.mp hx with h3 | h3
          · rw [h3]
            exact hb
          · exact h1 x h3
        · unfold c_str at h2 ⊢
          rw [List.takeWhile_cons]
          simp [hb, h2]

/-- The C string at byte `pos` of a table, byte by byte: it is `k` exactly when
the bytes from `pos` on are those of `k`, none of them zero, and then a zero
byte. -/
theorem c_string_of_drop_iff (mem : List Nat) :
    ∀ (k : List Nat) (pos : Nat), c_string_of (mem.drop pos) = some k ↔
      (∀ t, t < k.length → mem[pos + t]? = k[t]? ∧ mem[pos + t]? ≠ some 0) ∧
        mem[pos + k.length]? = some 0 := by
  intro k
  induction k with
  | nil =>
    intro pos
    by_cases hp : pos < mem.length
    · rw [List.drop_eq_getElem_cons hp]
      simp only [c_string_of, List.length_nil, Nat.add_zero, List.getElem?_eq_getElem hp]
      by_cases hb : mem[pos] = 0
      · simp [hb]
      · simp only [hb, if_false]
        constructor
        · intro h
          cases hr : c_string_of (mem.drop (pos + 1)) with
          | none => rw [hr] at h; cases h
          | some k1 => rw [hr] at h; cases h
        · intro ⟨_, h⟩
          exact absurd (Option.some.inj h) hb
    · rw [List.drop_eq_nil_of_le (by omega)]
      simp only [c_string_of, List.length_nil, Nat.add_zero,
        List.getElem?_eq_none (show mem.length ≤ pos by omega)]
      simp
  | cons b k ih =>
    intro pos
    by_cases hp : pos < mem.length
    · rw [List.drop_eq_getElem_cons hp]
      have hih := ih (pos + 1)
      by_cases hb : mem[pos] = 0
      · simp only [c_string_of, hb, if_true]
        constructor
        · intro h
          cases h
        · intro ⟨h, _⟩
          have := (h 0 (by simp)).2
          rw [Nat.add_zero, List.getElem?_eq_getElem hp, hb] at this
          exact absurd rfl this
      · simp only [c_string_of, hb, if_false]
        constructor
        · intro h
          cases hr : c_string_of (mem.drop (pos + 1)) with
          | none => rw [hr] at h; cases h
          | some k1 =>
            rw [hr] at h
            have hk : mem[pos] :: k1 = b :: k := Option.some.inj h
            have hb1 : mem[pos] = b := (List.cons.inj hk).1
            have hk1 : k1 = k := (List.cons.inj hk).2
            subst hk1
            obtain ⟨h1, h2⟩ := hih.mp hr
            refine ⟨?_, ?_⟩
            · intro t ht
              cases t with
              | zero =>
                rw [Nat.add_zero, List.getElem?_eq_getElem hp]
                refine ⟨by simp [hb1], ?_⟩
                intro h3
                exact hb (Option.some.inj h3)
              | succ t =>
                have := h1 t (by simpa using ht)
                rw [show pos + (t + 1) = pos + 1 + t by omega]
                simpa using this
            · rw [show pos + (b :: k1).length = pos + 1 + k1.length by simp; omega]
              exact h2
        · intro ⟨h1, h2⟩
          have h0 := (h1 0 (by simp)).1
          rw [Nat.add_zero, List.getElem?_eq_getElem hp] at h0
          have hb1 : mem[pos] = b := by simpa using h0
          have hr : c_string_of (mem.drop (pos + 1)) = some k := by
            apply hih.mpr
            refine ⟨?_, ?_⟩
            · intro t ht
              have := h1 (t + 1) (by simpa using ht)
              rw [show pos + (t + 1) = pos + 1 + t by omega] at this
              simpa using this
            · rw [show pos + (b :: k).length = pos + 1 + k.length by simp; omega] at h2
              exact h2
          rw [hr, hb1]
          rfl
    · rw [List.drop_eq_nil_of_le (by omega)]
      simp only [c_string_of]
      constructor
      · intro h
        cases h
      · intro ⟨_, h⟩
        rw [List.getElem?_eq_none (by omega)] at h
        cases h

/-- The bytes of a table after a call of `sprintf` that stayed inside the
table. -/
theorem sprintf_s_getElem? (t : table) (mem out : List Nat) (pos : Nat) (s : c_string)
    (h : sprintf_s t mem pos s = Except.ok out) :
    pos + s.length + 1 ≤ mem.length ∧ out.length = mem.length ∧
    ∀ p, out[p]? =
      if p < pos then mem[p]?
      else if p < pos + s.length then s[p - pos]?
      else if p = pos + s.length then some 0
      else mem[p]? := by
  unfold sprintf_s at h
  by_cases hfit : pos + s.length + 1 ≤ mem.length
  · rw [if_pos hfit] at h
    have ho := (Except.ok.inj h).symm
    subst ho
    refine ⟨hfit, ?_, ?_⟩
    · simp only [List.length_append, List.length_take, List.length_cons, List.length_drop]
      omega
    · intro p
      have hlt : (mem.take pos).length = pos := by
        rw [List.length_take]
        omega
      by_cases h1 : p < pos
      · rw [if_pos h1, List.getElem?_append_left (by omega), List.getElem?_take_of_lt h1]
      · rw [if_neg h1, List.getElem?_append_right (by omega), hlt]
        by_cases h2 : p < pos + s.length
        · rw [if_pos h2, List.getElem?_append_left (by omega)]
        · rw [if_neg h2, List.getElem?_append_right (by omega)]
          by_cases h3 : p = pos + s.length
          · rw [if_pos h3]
            have : p - pos - s.length = 0 := by omega
            rw [this]
            simp
          · rw [if_neg h3]
            have hq : p - pos - s.length = (p - pos - s.length - 1) + 1 := by omega
            rw [hq, List.getElem?_cons_succ, List.getElem?_drop]
            congr 1
            omega
  · rw [if_neg hfit] at h
    cases h

/-- A call of `sprintf` whose bytes stay inside the table ends without a
fault. -/
theorem sprintf_s_ok (t : table) (mem : List Nat) (pos : Nat) (s : c_string)
    (h : pos + s.length + 1 ≤ mem.length) :
    ∃ out, sprintf_s t mem pos s = Except.ok out := by
  unfold sprintf_s
  rw [if_pos h]
  exact ⟨_, rfl⟩

/-! ## Lemmas on the keyword loops -/

/-- The loop of `game_object_to_json` over rows that hold valid keywords: the
C string of every row is appended. -/
theorem append_keywords_valid (K : Nat) (check : c_string → Bool) (mem : List Nat) :
    ∀ (n i : Nat) (acc : List json_t),
      (∀ i1, i ≤ i1 → i1 < i + n → valid_keyword check (c_string_of (mem.drop (i1 * K)))) →
      append_keywords K check mem n i (json_t.array acc) =
        Except.ok (json_t.array (acc ++
          (List.range' i n).map (fun i1 => json_t.string (c_str (mem.drop (i1 * K)))))) := by
  intro n
  induction n with
  | zero =>
    intro i acc _
    simp [append_keywords, pure, Except.pure]
  | succ n ih =>
    intro i acc hv
    have hvi := hv i (le_refl i) (by omega)
    cases hk : c_string_of (mem.drop (i * K)) with
    | none =>
      rw [hk] at hvi
      exact absurd hvi (by simp [valid_keyword])
    | some k =>
      rw [hk] at hvi
      obtain ⟨hne, hchk⟩ : k ≠ [] ∧ check k = true := hvi
      obtain ⟨hbytes, _⟩ := (c_string_of_drop_iff mem k (i * K)).mp hk
      have hpos : 0 < k.length := List.length_pos.mpr hne
      obtain ⟨h0, h0z⟩ := hbytes 0 hpos
      rw [Nat.add_zero] at h0 h0z
      have hk0 : k[0]? = some k[0] := List.getElem?_eq_getElem hpos
      rw [hk0] at h0
      have hnz : k[0] ≠ 0 := by
        intro hz
        rw [h0, hz] at h0z
        exact h0z rfl
      have hr := read_ok table.keywords mem (i * K) _ h0
      have hstr := (c_string_of_some _ k hk).2
      simp only [append_keywords, hr, bind, Except.bind, hnz, if_false, c_str_at, hk, pure,
        Except.pure, json_string, hchk, if_true, json_array_append]
      rw [ih (i + 1) _ (fun i1 h1 h2 => hv i1 (by omega) (by omega)), List.range'_succ]
      simp [hstr]

/-- The document that `game_object_to_json` builds for a valid object. -/
theorem game_object_to_json_valid (c : game_object_h) (check : c_string → Bool)
    (o : game_object_t) (hv : valid_object c check o) :
    game_object_to_json c check o = Except.ok (json_t.object (
      [("name", json_t.string o.name), ("is_static", json_t.integer o.is_static),
       ("rarity", json_t.integer o.rarity), ("type", json_t.integer o.type),
       ("armor", json_t.integer o.armor), ("damage", json_t.integer o.damage),
       ("wear_location", json_t.integer o.wear_location)] ++
      (if o.type = c.KEY_TYPE then
        [("opens_area_id", json_t.integer o.opens_area_id),
         ("opens_room_id", json_t.integer o.opens_room_id)] else []) ++
      [("keywords", json_t.array ((declared_keywords c o).map json_t.string))])) := by
  obtain ⟨_, _, hkw, _, _, hname, _⟩ := hv
  have happ := append_keywords_valid c.MAX_KEYWORDS check o.keywords o.num_keywords.toNat 0 []
    (fun i1 _ h2 => hkw i1 (by omega))
  have hdecl : (declared_keywords c o).map json_t.string =
      (List.range' 0 o.num_keywords.toNat).map
        (fun i1 => json_t.string (c_str (o.keywords.drop (i1 * c.MAX_KEYWORDS)))) := by
    simp [declared_keywords, keyword, List.range_eq_range', Function.comp_def]
  rw [hdecl]
  simp only [List.nil_append] at happ
  simp only [game_object_to_json, happ, bind, Except.bind, pure, Except.pure, json_string,
    hname, if_true]
  by_cases hk : o.type = c.KEY_TYPE
  · simp [hk, json_object_set_new]
  · simp [hk, json_object_set_new]

/-- The loop of `keywords_from_json` on the keywords `kws`, when the C string
at `kws[i]` is the C string at row `i` of a table `T` of the same size: every
keyword is written inside the table, and where the table written to held the
bytes of `T` before, or a keyword was written, it holds the bytes of `T`
afterwards. -/
theorem copy_keywords_agree (K : Nat) (T : List Nat) (kws : List c_string)
    (hT : ∀ (i : Nat) (k : c_string), kws[i]? = some k →
      c_string_of (T.drop (i * K)) = some k) :
    ∀ (n i : Nat) (cur : List Nat), i + n = kws.length → cur.length = T.length →
      ∃ out, copy_keywords K (some (json_t.array (kws.map json_t.string))) n i cur =
          Except.ok out ∧ out.length = T.length ∧
        ∀ p, (cur[p]? = T[p]? ∨ ∃ (i1 : Nat) (k : c_string), kws[i1]? = some k ∧ i ≤ i1 ∧
            i1 * K ≤ p ∧ p < i1 * K + k.length + 1) → out[p]? = T[p]? := by
  intro n
  induction n with
  | zero =>
    intro i cur hin hlen
    refine ⟨cur, rfl, hlen, ?_⟩
    intro p hp
    rcases hp with h1 | ⟨i1, k, hk, h2, _, _⟩
    · exact h1
    · have := (List.getElem?_eq_some_iff.mp hk).1
      omega
  | succ n ih =>
    intro i cur hin hlen
    have hil : i < kws.length := by omega
    have hki : kws[i]? = some kws[i] := List.getElem?_eq_getElem hil
    have hTi := hT i kws[i] hki
    obtain ⟨hnz, hcs⟩ := c_string_of_some _ _ hTi
    obtain ⟨hbytes, hzero⟩ := (c_string_of_drop_iff T kws[i] (i * K)).mp hTi
    have hin1 : i * K + kws[i].length < T.length := by
      by_contra hc
      rw [List.getElem?_eq_none (by omega)] at hzero
      cases hzero
    obtain ⟨out1, hout1⟩ := sprintf_s_ok table.keywords cur (i * K) kws[i]
      (by rw [hlen]; omega)
    obtain ⟨_, hlen1, hget⟩ := sprintf_s_getElem? _ _ _ _ _ hout1
    obtain ⟨out, hrun, hol, hagree⟩ := ih (i + 1) out1 (by omega) (by rw [hlen1, hlen])
    have harg : string_arg (json_string_value
        (json_array_get (some (json_t.array (kws.map json_t.string))) i)) =
        Except.ok kws[i] := by
      simp only [json_array_get, List.getElem?_map, hki, Option.map_some', json_string_value,
        string_arg, c_str_self _ hnz, pure, Except.pure]
    refine ⟨out, ?_, hol, ?_⟩
    · simp only [copy_keywords, harg, bind, Except.bind, hout1]
      exact hrun
    · -- a byte of `T` stays, and the bytes of keyword `i` are those of `T`
      have hstep : ∀ p, (cur[p]? = T[p]? ∨
          (i * K ≤ p ∧ p < i * K + kws[i].length + 1)) → out1[p]? = T[p]? := by
        intro p hp
        rw [hget p]
        by_cases h1 : p < i * K
        · rw [if_pos h1]
          rcases hp with h2 | h2
          · exact h2
          · omega
        · rw [if_neg h1]
          by_cases h2 : p < i * K + kws[i].length
          · rw [if_pos h2]
            have := (hbytes (p - i * K) (by omega)).1
            rw [show i * K + (p - i * K) = p by omega] at this
            exact this.symm
          · rw [if_neg h2]
            by_cases h3 : p = i * K + kws[i].length
            · rw [if_pos h3, h3, hzero]
            · rw [if_neg h3]
              rcases hp with h4 | h4
              · exact h4
              · omega
      intro p hp
      apply hagree p
      rcases hp with h1 | ⟨i1, k, hk, h2, h3, h4⟩
      · exact Or.inl (hstep p (Or.inl h1))
      · by_cases hi1 : i1 = i
        · subst hi1
          rw [hki] at hk
          have hkk : kws[i1] = k := Option.some.inj hk
          rw [← hkk] at h4
          exact Or.inl (hstep p (Or.inr ⟨h3, h4⟩))
        · exact Or.inr ⟨i1, k, hk, by omega, h3, h4⟩

/-- The call of `snprintf` for a name that fits its buffer stores the name. -/
theorem snprintf_s_fits (size : Nat) (old s : c_string) (h : s.length < size) :
    snprintf_s size old s = s := by
  unfold snprintf_s
  have h0 : ¬ (size = 0) := by omega
  rw [if_neg h0, List.take_of_length_le (by omega)]

set_option maxRecDepth 100000

/-- The declared keywords of a valid object are the C strings that zero bytes
close inside the table. -/
theorem declared_keywords_of_valid (c : game_object_h) (check : c_string → Bool)
    (o : game_object_t) (hv : valid_object c check o) (i : Nat) (k : c_string)
    (hk : (declared_keywords c o)[i]? = some k) :
    c_string_of (o.keywords.drop (i * c.MAX_KEYWORDS)) = some k := by
  obtain ⟨_, _, hkw, _⟩ := hv
  have hi : i < o.num_keywords.toNat := by
    have := (List.getElem?_eq_some_iff.mp hk).1
    simpa [declared_keywords] using this
  have hval := hkw i hi
  cases hc : c_string_of (o.keywords.drop (i * c.MAX_KEYWORDS)) with
  | none =>
    rw [hc] at hval
    exact absurd hval (by simp [valid_keyword])
  | some k1 =>
    have hs := (c_string_of_some _ k1 hc).2
    simp only [declared_keywords, List.getElem?_map, List.getElem?_range hi, Option.map_some',
      keyword, hs] at hk
    rw [Option.some.inj hk]

/-- C9, refuted at a sword of type 2, not armor, that is worn at location 3:
the object is valid, and what is read back from its document has the wear
location 0. -/
theorem game_object_roundtrip_loses_wear_location :
    valid_object example_h is_ascii sword ∧ sword.wear_location = 3 ∧
    (do
      let json ← game_object_to_json example_h is_ascii sword
      game_object_from_json example_h fresh_object (some json)) =
      Except.ok { sword with wear_location := 0 } :=
  ⟨by decide, rfl, rfl⟩

/-- C9, amended: for a valid object and a fresh record with a keyword table of
the same size, `game_object_from_json` of `game_object_to_json` gives an
object with the same name, number of keywords, declared keywords,
`is_static`, rarity, type, armor and damage; the wear location is the same for
armor and 0 for every other type; `opens_area_id` and `opens_room_id` are the
same for keys. -/
theorem game_object_roundtrip (c : game_object_h) (check : c_string → Bool)
    (fresh o : game_object_t) (hv : valid_object c check o)
    (hfresh : fresh.keywords.length = c.MAX_KEYWORD_LEN * c.MAX_KEYWORDS) :
    ∃ json o1, game_object_to_json c check o = Except.ok json ∧
      game_object_from_json c fresh (some json) = Except.ok o1 ∧
      o1.name = o.name ∧ o1.num_keywords = o.num_keywords ∧
      declared_keywords c o1 = declared_keywords c o ∧
      o1.is_static = o.is_static ∧ o1.rarity = o.rarity ∧ o1.type = o.type ∧
      o1.armor = o.armor ∧ o1.damage = o.damage ∧
      (o.type = c.ARMOR_TYPE → o1.wear_location = o.wear_location) ∧
      (o.type ≠ c.ARMOR_TYPE → o1.wear_location = 0) ∧
      (o.type = c.KEY_TYPE →
        o1.opens_area_id = o.opens_area_id ∧ o1.opens_room_id = o.opens_room_id) := by
  have hjson := game_object_to_json_valid c check o hv
  have hT := declared_keywords_of_valid c check o hv
  obtain ⟨h0, hlen, hkw, hname, hnz, _, i1, i2, i3, i4, i5, i6, i7, i8⟩ := hv
  have hdl : (declared_keywords c o).length = o.num_keywords.toNat := by
    simp [declared_keywords]
  obtain ⟨out, hcopy, _, hagree⟩ :=
    copy_keywords_agree c.MAX_KEYWORDS o.keywords (declared_keywords c o) hT
      (declared_keywords c o).length 0 fresh.keywords (by omega) (by rw [hfresh, hlen])
  have hnum : (((declared_keywords c o).length : Nat) : Int) = o.num_keywords := by
    rw [hdl]
    exact Int.toNat_of_nonneg h0
  let o1 : game_object_t :=
    { name := o.name, keywords := out, num_keywords := o.num_keywords,
      is_static := o.is_static, rarity := o.rarity, type := o.type, armor := o.armor,
      damage := o.damage,
      wear_location := if o.type = c.ARMOR_TYPE then o.wear_location else 0,
      opens_area_id := if o.type = c.KEY_TYPE then o.opens_area_id else fresh.opens_area_id,
      opens_room_id := if o.type = c.KEY_TYPE then o.opens_room_id else fresh.opens_room_id }
  have hback : game_object_from_json c fresh (some (json_t.object (
      [("name", json_t.string o.name), ("is_static", json_t.integer o.is_static),
       ("rarity", json_t.integer o.rarity), ("type", json_t.integer o.type),
       ("armor", json_t.integer o.armor), ("damage", json_t.integer o.damage),
       ("wear_location", json_t.integer o.wear_location)] ++
      (if o.type = c.KEY_TYPE then
        [("opens_area_id", json_t.integer o.opens_area_id),
         ("opens_room_id", json_t.integer o.opens_room_id)] else []) ++
      [("keywords", json_t.array ((declared_keywords c o).map json_t.string))]))) =
      Except.ok o1 := by
    by_cases hk : o.type = c.KEY_TYPE
    · simp [game_object_from_json, keywords_from_json, json_object_get, hk,
        List.lookup, json_array_size, hcopy, bind, Except.bind, pure, Except.pure,
        json_int_from_obj_key, json_str_from_obj_key, json_integer_value,
        json_string_value, string_arg, hnum, c_str_self _ hnz,
        snprintf_s_fits _ _ _ hname, to_int_of_is_int, i1, i2, i3, i4, i5, i6, i7, i8, o1]
      rw [← hk]
      simp [to_int_of_is_int, i3]
    · simp [game_object_from_json, keywords_from_json, json_object_get, hk,
        List.lookup, json_array_size, hcopy, bind, Except.bind, pure, Except.pure,
        json_int_from_obj_key, json_str_from_obj_key, json_integer_value,
        json_string_value, string_arg, hnum, c_str_self _ hnz,
        snprintf_s_fits _ _ _ hname, to_int_of_is_int, i1, i2, i3, i4, i5, i6, i7, i8, o1]
  refine ⟨_, o1, hjson, hback, rfl, rfl, ?_, rfl, rfl, rfl, rfl, rfl, ?_, ?_, ?_⟩
  · -- each declared keyword is read back from the bytes written
    show (List.range o.num_keywords.toNat).map (keyword c o1) =
      (List.range o.num_keywords.toNat).map (keyword c o)
    apply List.map_congr_left
    intro i hi
    have hi1 : i < o.num_keywords.toNat := List.mem_range.mp hi
    have hki : (declared_keywords c o)[i]? = some (keyword c o i) := by
      simp [declared_keywords, List.getElem?_range hi1]
    have hTi := hT i _ hki
    obtain ⟨hbytes, hzero⟩ := (c_string_of_drop_iff o.keywords _ _).mp hTi
    have hsame : ∀ t, t ≤ (keyword c o i).length →
        out[i * c.MAX_KEYWORDS + t]? = o.keywords[i * c.MAX_KEYWORDS + t]? := by
      intro t ht
      exact hagree _ (Or.inr ⟨i, _, hki, Nat.zero_le _, by omega, by omega⟩)
    have hout : c_string_of (out.drop (i * c.MAX_KEYWORDS)) = some (keyword c o i) := by
      apply (c_string_of_drop_iff out _ _).mpr
      refine ⟨?_, ?_⟩
      · intro t ht
        rw [hsame t (by omega)]
        exact hbytes t ht
      · rw [hsame _ (le_refl _)]
        exact hzero
    exact (c_string_of_some _ _ hout).2
  · intro h
    simp [o1, h]
  · intro h
    simp [o1, h]
  · intro h
    simp [o1, h]

/-- C9, amended, at a key, and at an object whose first keyword runs over
the end of its row. -/
theorem game_object_roundtrip_witness :
    valid_object example_h is_ascii brass_key ∧
    fresh_object.keywords.length = example_h.MAX_KEYWORD_LEN * example_h.MAX_KEYWORDS ∧
    valid_object example_h is_ascii longsword ∧
    declared_keywords example_h longsword = [utf8 "longsword", utf8 "d"] ∧
    (do
      let json ← game_object_to_json example_h is_ascii longsword
      let o1 ← game_object_from_json example_h fresh_object (some json)
      pure (declared_keywords example_h o1)) = Except.ok [utf8 "longsword", utf8 "d"] ∧
    ∃ json o1, game_object_to_json example_h is_ascii brass_key = Except.ok json ∧
      game_object_from_json example_h fresh_object (some json) = Except.ok o1 ∧
      o1.name = brass_key.name ∧ o1.num_keywords = brass_key.num_keywords ∧
      declared_keywords example_h o1 = declared_keywords example_h brass_key ∧
      o1.is_static = brass_key.is_static ∧ o1.rarity = brass_key.rarity ∧
      o1.type = brass_key.type ∧
      o1.armor = brass_key.armor ∧ o1.damage = brass_key.damage ∧
      (brass_key.type = example_h.ARMOR_TYPE →
        o1.wear_location = brass_key.wear_location) ∧
      (brass_key.type ≠ example_h.ARMOR_TYPE → o1.wear_location = 0) ∧
      (brass_key.type = example_h.KEY_TYPE →
        o1.opens_area_id = brass_key.opens_area_id ∧
        o1.opens_room_id = brass_key.opens_room_id) :=
  ⟨by decide, by decide, by decide, by decide, rfl,
   game_object_roundtrip example_h is_ascii fresh_object brass_key (by decide) (by decide)⟩

/-- The C string at a pointer has no zero byte. -/
theorem c_str_no_zero (bs : List Nat) : ∀ b ∈ c_str bs, b ≠ 0 := by
  intro b hb
  have := List.mem_takeWhile_imp hb
  simpa using this

/-- The entry `i` of an array of strings, as `keywords_from_json` reads it. -/
theorem keyword_arg (kws : List (List Nat)) (i : Nat) (k : List Nat)
    (hk : kws[i]? = some k) :
    string_arg (json_string_value
      (json_array_get (some (json_t.array (kws.map json_t.string))) i)) =
      Except.ok (c_str k) := by
  simp only [json_array_get, List.getElem?_map, hk, Option.map_some', json_string_value,
    string_arg, pure, Except.pure]

/-- The loop of `keywords_from_json` when every keyword, written with its
closing zero from the start of its row on, ends inside the table: the loop ends
without a fault, the bytes before the first row written stay, and a keyword
that is shorter than a row, or is the last one, is then the C string of its
row. -/
theorem copy_keywords_fits (K : Nat) (kws : List (List Nat)) :
    ∀ (n i : Nat) (cur : List Nat), i + n = kws.length →
      (∀ (i1 : Nat) (k1 : List Nat), i ≤ i1 → kws[i1]? = some k1 →
        i1 * K + (c_str k1).length + 1 ≤ cur.length) →
      ∃ out, copy_keywords K (some (json_t.array (kws.map json_t.string))) n i cur =
          Except.ok out ∧ out.length = cur.length ∧
        (∀ p, p < i * K → out[p]? = cur[p]?) ∧
        ∀ (i1 : Nat) (k1 : List Nat), i ≤ i1 → kws[i1]? = some k1 →
          ((c_str k1).length < K ∨ i1 + 1 = kws.length) →
          c_string_of (out.drop (i1 * K)) = some (c_str k1) := by
  intro n
  induction n with
  | zero =>
    intro i cur hin _
    refine ⟨cur, rfl, rfl, fun _ _ => rfl, ?_⟩
    intro i1 k1 h1 hk1 _
    have := (List.getElem?_eq_some_iff.mp hk1).1
    omega
  | succ n ih =>
    intro i cur hin hfit
    have hil : i < kws.length := by omega
    have hki : kws[i]? = some kws[i] := List.getElem?_eq_getElem hil
    obtain ⟨out1, hout1⟩ := sprintf_s_ok table.keywords cur (i * K) (c_str kws[i])
      (hfit i _ (le_refl i) hki)
    obtain ⟨_, hlen1, hget⟩ := sprintf_s_getElem? _ _ _ _ _ hout1
    obtain ⟨out, hrun, hol, hlow, hrows⟩ := ih (i + 1) out1 (by omega)
      (fun i1 k1 h1 hk1 => by rw [hlen1]; exact hfit i1 k1 (by omega) hk1)
    have hmul : i * K ≤ (i + 1) * K := Nat.mul_le_mul_right K (Nat.le_succ i)
    refine ⟨out, ?_, by rw [hol, hlen1], ?_, ?_⟩
    · simp only [copy_keywords, keyword_arg kws i _ hki, bind, Except.bind, hout1]
      exact hrun
    · intro p hp
      rw [hlow p (by omega), hget p, if_pos hp]
    · intro i1 k1 h1 hk1 hshort
      by_cases hi1 : i1 = i
      · subst hi1
        rw [hki] at hk1
        have hkk : kws[i1] = k1 := Option.some.inj hk1
        subst hkk
        -- the bytes of the keyword and its closing zero are still there
        have hkeep : ∀ t, t ≤ (c_str kws[i1]).length →
            out[i1 * K + t]? = out1[i1 * K + t]? := by
          intro t ht
          rcases hshort with h2 | h2
          · apply hlow
            have : (i1 + 1) * K = i1 * K + K := Nat.succ_mul i1 K
            omega
          · have hn : n = 0 := by omega
            subst hn
            simp only [copy_keywords, pure, Except.pure] at hrun
            rw [Except.ok.inj hrun]
        apply (c_string_of_drop_iff out _ _).mpr
        refine ⟨?_, ?_⟩
        · intro t ht
          rw [hkeep t (by omega), hget, if_neg (by omega), if_pos (by omega)]
          have hidx : i1 * K + t - i1 * K = t := by omega
          rw [hidx]
          refine ⟨rfl, ?_⟩
          rw [List.getElem?_eq_getElem ht]
          intro hz
          exact c_str_no_zero _ _ (List.getElem_mem ht) (Option.some.inj hz)
        · rw [hkeep _ (le_refl _), hget, if_neg (by omega), if_neg (by omega), if_pos rfl]
      · exact hrows i1 k1 (by omega) hk1 hshort

/-- The loop of `keywords_from_json` when some keyword does not end inside the
table: the loop ends in a fault at the keyword table. -/
theorem copy_keywords_overflow (K : Nat) (kws : List (List Nat)) :
    ∀ (n i : Nat) (cur : List Nat), i + n = kws.length →
      (∃ (i1 : Nat) (k1 : List Nat), i ≤ i1 ∧ kws[i1]? = some k1 ∧
        cur.length < i1 * K + (c_str k1).length + 1) →
      ∃ x, copy_keywords K (some (json_t.array (kws.map json_t.string))) n i cur =
        Except.error (fault.out_of_bounds table.keywords x) := by
  intro n
  induction n with
  | zero =>
    intro i cur hin ⟨i1, k1, h1, hk1, _⟩
    have := (List.getElem?_eq_some_iff.mp hk1).1
    omega
  | succ n ih =>
    intro i cur hin ⟨i1, k1, h1, hk1, hbig⟩
    have hil : i < kws.length := by omega
    have hki : kws[i]? = some kws[i] := List.getElem?_eq_getElem hil
    by_cases hfit : i * K + (c_str kws[i]).length + 1 ≤ cur.length
    · obtain ⟨out1, hout1⟩ := sprintf_s_ok table.keywords cur (i * K) (c_str kws[i]) hfit
      obtain ⟨_, hlen1, _⟩ := sprintf_s_getElem? _ _ _ _ _ hout1
      have hne : i1 ≠ i := by
        intro he
        subst he
        rw [hki] at hk1
        rw [Option.some.inj hk1] at hfit
        omega
      obtain ⟨x, hx⟩ := ih (i + 1) out1 (by omega)
        ⟨i1, k1, by omega, hk1, by rw [hlen1]; exact hbig⟩
      refine ⟨x, ?_⟩
      simp only [copy_keywords, keyword_arg kws i _ hki, bind, Except.bind, hout1]
      exact hx
    · refine ⟨max ((i * K : Nat) : Int) ((cur.length : Nat) : Int), ?_⟩
      simp only [copy_keywords, keyword_arg kws i _ hki, bind, Except.bind, sprintf_s, hfit,
        if_false]

/-- C10, refuted at a document with nine keywords, one more than
`MAX_KEYWORDS`, and at a document with a keyword of 20 bytes, more than
`MAX_KEYWORD_LEN`: `game_object_from_json` rejects neither, it gives an object
with 9 and with 2 keywords; the ninth keyword is written to row 8 and the long
one runs over rows 1 to 3, all inside the table. `load_area_file` on an area
document with the first object returns 0 and the area with this object. -/
theorem excess_keywords_not_rejected :
    json_array_size (json_object_get (some nine_keywords_doc) "keywords") = 9 ∧
    example_h.MAX_KEYWORDS = 8 ∧ example_h.MAX_KEYWORD_LEN = 16 ∧
    (game_object_from_json example_h fresh_object (some nine_keywords_doc)).map
        (fun o => (o.num_keywords, declared_keywords example_h o)) =
      Except.ok (9, [utf8 "sword", utf8 "blade", utf8 "steel", utf8 "edge", utf8 "iron",
        utf8 "sharp", utf8 "long", utf8 "old", utf8 "fine"]) ∧
    (game_object_from_json example_h fresh_object (some long_keyword_doc)).map
        (fun o => (o.num_keywords, declared_keywords example_h o)) =
      Except.ok (2, [utf8 "sword", utf8 "two-handed-longsword"]) ∧
    (load_area_file example_h (fun _ => fresh_room) (fun _ _ => fresh_object) empty_area
        (some nine_keywords_area_doc)).map
        (fun r => (r.1, r.2.rooms.map
          (Option.map (fun room => room.objects.map game_object_t.num_keywords)))) =
      Except.ok (0, [some [9]]) :=
  ⟨rfl, rfl, rfl, rfl, rfl, rfl⟩

/-- The return value of `load_area_file` for a parsed document is 0. -/
theorem load_area_file_returns_zero (c : game_object_h) (fr : Nat → room_t)
    (fo : Nat → Nat → game_object_t) (area : area_t) (jsp : json_t) (rc : Int)
    (a : area_t) (h : load_area_file c fr fo area (some jsp) = Except.ok (rc, a)) :
    rc = 0 := by
  simp only [load_area_file, bind, Except.bind, pure, Except.pure] at h
  split at h
  · cases h
  · split at h
    · cases h
    · have := Except.ok.inj h
      exact (congrArg Prod.fst this).symm

/-- C10, amended: `game_object_from_json` makes no bound check and has no
error value. For a document with a string name whose keywords are strings,
keyword `i` is written with its closing zero from byte `i * MAX_KEYWORDS` of
the table on. When each of them ends inside the table, the result is an object
with their number as `num_keywords`, whatever the number and the lengths are,
and a keyword that is shorter than a row, or is the last one, is the C string
of its row; when one of them does not end inside the table, the write is
outside the table. The return value of `load_area_file` for a parsed document
is 0. -/
theorem game_object_from_json_no_validation (c : game_object_h) (fresh : game_object_t)
    (json : json_t) (kws : List (List Nat)) (name : c_string)
    (hkw : json_object_get (some json) "keywords" =
      some (json_t.array (kws.map json_t.string)))
    (hname : json_str_from_obj_key (some json) "name" = some name) :
    ((∀ i, i < kws.length →
        i * c.MAX_KEYWORDS + (c_str (kws.getD i [])).length + 1 ≤ fresh.keywords.length) →
      ∃ o, game_object_from_json c fresh (some json) = Except.ok o ∧
        o.num_keywords = (kws.length : Int) ∧
        o.keywords.length = fresh.keywords.length ∧
        ∀ i, i < kws.length →
          ((c_str (kws.getD i [])).length < c.MAX_KEYWORDS ∨ i + 1 = kws.length) →
          keyword c o i = c_str (kws.getD i [])) ∧
    ((∃ i, i < kws.length ∧
        fresh.keywords.length < i * c.MAX_KEYWORDS + (c_str (kws.getD i [])).length + 1) →
      ∃ x, game_object_from_json c fresh (some json) =
        Except.error (fault.out_of_bounds table.keywords x)) ∧
    (∀ (fr : Nat → room_t) (fo : Nat → Nat → game_object_t) (area : area_t)
      (jsp : json_t) (rc : Int) (a : area_t),
      load_area_file c fr fo area (some jsp) = Except.ok (rc, a) → rc = 0) := by
  have hgetD : ∀ (i : Nat) (k : List Nat), kws[i]? = some k → kws.getD i [] = k := by
    intro i k hk
    simp [List.getD_eq_getElem?_getD, hk]
  refine ⟨?_, ?_, load_area_file_returns_zero c⟩
  · intro hfit
    obtain ⟨out, hcopy, hlen, _, hrows⟩ :=
      copy_keywords_fits c.MAX_KEYWORDS kws kws.length 0 fresh.keywords (by omega) (by
        intro i1 k1 _ hk1
        have := hfit i1 (List.getElem?_eq_some_iff.mp hk1).1
        rw [hgetD i1 k1 hk1] at this
        exact this)
    simp only [game_object_from_json, keywords_from_json, hkw, json_array_size,
      List.length_map, hcopy, hname, string_arg, bind, Except.bind, pure, Except.pure]
    refine ⟨_, rfl, rfl, hlen, ?_⟩
    intro i hi hshort
    have hki : kws[i]? = some kws[i] := List.getElem?_eq_getElem hi
    rw [hgetD i _ hki] at hshort ⊢
    exact (c_string_of_some _ _ (hrows i _ (Nat.zero_le i) hki hshort)).2
  · intro ⟨i, hi, hbig⟩
    have hki : kws[i]? = some kws[i] := List.getElem?_eq_getElem hi
    rw [hgetD i _ hki] at hbig
    obtain ⟨x, hx⟩ := copy_keywords_overflow c.MAX_KEYWORDS kws kws.length 0 fresh.keywords
      (by omega) ⟨i, _, Nat.zero_le i, hki, hbig⟩
    refine ⟨x, ?_⟩
    simp only [game_object_from_json, keywords_from_json, hkw, json_array_size,
      List.length_map, hx, bind, Except.bind]

/-- C10, amended, at the document with nine keywords: all nine end inside the
table and each is shorter than a row, so all nine are read. -/
theorem game_object_from_json_no_validation_witness :
    json_object_get (some nine_keywords_doc) "keywords" =
      some (json_t.array (([utf8 "sword", utf8 "blade", utf8 "steel", utf8 "edge",
        utf8 "iron", utf8 "sharp", utf8 "long", utf8 "old", utf8 "fine"]).map
          json_t.string)) ∧
    json_str_from_obj_key (some nine_keywords_doc) "name" = some (utf8 "a sword") ∧
    ∃ o, game_object_from_json example_h fresh_object (some nine_keywords_doc) =
        Except.ok o ∧
      o.num_keywords = 9 ∧ o.keywords.length = fresh_object.keywords.length ∧
      keyword example_h o 8 = utf8 "fine" :=
  have h := (game_object_from_json_no_validation example_h fresh_object nine_keywords_doc
    [utf8 "sword", utf8 "blade", utf8 "steel", utf8 "edge", utf8 "iron", utf8 "sharp",
      utf8 "long", utf8 "old", utf8 "fine"] (utf8 "a sword") rfl rfl).1 (by decide)
  ⟨rfl, rfl, h.elim (fun o ho => ⟨o, ho.1, ho.2.1, ho.2.2.1, ho.2.2.2 8 (by decide)
    (by decide)⟩)⟩

/-! ## Lemmas and claims on chains -/

theorem is_chain_iff_seg (next : Nat → Option Nat) (l : List Nat) :
    ∀ p, is_chain next p l ↔ is_seg next p l none := by
  induction l with
  | nil => intro p; rfl
  | cons a l ih =>
    intro p
    simp only [is_chain, is_seg, ih]

theorem is_seg_append (next : Nat → Option Nat) (x y : List Nat) (r : Option Nat) :
    ∀ p, is_seg next p (x ++ y) r ↔ ∃ m, is_seg next p x m ∧ is_seg next m y r := by
  induction x with
  | nil =>
    intro p
    simp [is_seg]
  | cons a x ih =>
    intro p
    constructor
    · intro h
      have h1 : p = some a ∧ is_seg next (next a) (x ++ y) r := h
      obtain ⟨m, h2, h3⟩ := (ih _).mp h1.2
      exact ⟨m, ⟨h1.1, h2⟩, h3⟩
    · rintro ⟨m, h1, h2⟩
      have h3 : p = some a ∧ is_seg next (next a) x m := h1
      exact ⟨h3.1, (ih _).mpr ⟨m, h3.2, h2⟩⟩

/-- A segment does not change when a link outside it is written. -/
theorem is_seg_update (next : Nat → Option Nat) (q : Nat) (v : Option Nat) (l : List Nat)
    (r : Option Nat) (hq : q ∉ l) :
    ∀ p, is_seg next p l r → is_seg (fun a => if a = q then v else next a) p l r := by
  induction l with
  | nil => intro p h; exact h
  | cons a l ih =>
    intro p h
    have hne : a ≠ q := fun he => hq (by simp [he])
    have hq1 : q ∉ l := fun hm => hq (List.mem_cons_of_mem a hm)
    refine ⟨h.1, ?_⟩
    simp only [hne, if_false]
    exact ih hq1 _ h.2

/-- A chain does not change when a link outside it is written. -/
theorem is_chain_update (next : Nat → Option Nat) (q : Nat) (v : Option Nat) (l : List Nat)
    (hq : q ∉ l) (p : Option Nat) (h : is_chain next p l) :
    is_chain (fun a => if a = q then v else next a) p l :=
  (is_chain_iff_seg _ l p).mpr (is_seg_update next q v l none hq p
    ((is_chain_iff_seg next l p).mp h))

theorem is_chain_unique (next : Nat → Option Nat) (l : List Nat) :
    ∀ (p : Option Nat) (l1 : List Nat), is_chain next p l → is_chain next p l1 → l = l1 := by
  induction l with
  | nil =>
    intro p l1 h h1
    cases l1 with
    | nil => rfl
    | cons b l1 =>
      have h0 : p = none := h
      have hb : p = some b := h1.1
      rw [h0] at hb
      cases hb
  | cons a l ih =>
    intro p l1 h h1
    cases l1 with
    | nil =>
      have h0 : p = none := h1
      have ha : p = some a := h.1
      rw [h0] at ha
      cases ha
    | cons b l1 =>
      have ha : p = some a := h.1
      have hb : p = some b := h1.1
      rw [ha] at hb
      have hab : a = b := Option.some.inj hb
      subst hab
      rw [ih (next a) l1 h.2 h1.2]

/-- The records of a chain that ends are different from one another. -/
theorem is_chain_nodup (next : Nat → Option Nat) (l : List Nat) :
    ∀ p, is_chain next p l → l.Nodup := by
  induction l with
  | nil => intro _ _; exact List.nodup_nil
  | cons a l ih =>
    intro p h
    refine List.nodup_cons.mpr ⟨?_, ih (next a) h.2⟩
    intro hmem
    obtain ⟨x, y, hxy⟩ := List.append_of_mem hmem
    have h2 : is_seg next (next a) (x ++ a :: y) none := by
      rw [← hxy]
      exact (is_chain_iff_seg next l _).mp h.2
    obtain ⟨m, _, h3⟩ := (is_seg_append next x (a :: y) none _).mp h2
    have h4 : is_chain next (next a) y := (is_chain_iff_seg next y _).mpr h3.2
    have h5 := is_chain_unique next l (next a) y h.2 h4
    have h6 : l.length = y.length := by rw [h5]
    rw [hxy] at h6
    simp at h6
    omega

/-- The run of the loop shared by the three removals, on a chain that ends,
from the record after the part `pre` that has been walked: the record `ch` is
unlinked from the rest when it is there, and nothing changes when it is
not. -/
theorem unlink_loop_spec (ch : Nat) (room : chain_t) :
    ∀ (rest pre : List Nat) (p : Option Nat) (fuel : Nat),
      is_seg room.next room.head pre p → is_chain room.next p rest →
      (pre ++ rest).Nodup → ch ∉ pre → rest.length ≤ fuel →
      (ch ∉ rest ∧ unlink_loop ch room fuel p pre.getLast? = Except.ok (false, room)) ∨
      (ch ∈ rest ∧ ∃ r, unlink_loop ch room fuel p pre.getLast? = Except.ok (true, r) ∧
        is_chain r.next r.head (pre ++ rest.erase ch)) := by
  intro rest
  induction rest with
  | nil =>
    intro pre p fuel _ hc _ _ _
    left
    have hp : p = none := hc
    subst hp
    refine ⟨List.not_mem_nil ch, ?_⟩
    cases fuel <;> rfl
  | cons a rest ih =>
    intro pre p fuel hseg hc hnd hpre hfuel
    have hp : p = some a := hc.1
    subst hp
    obtain ⟨f, hf⟩ : ∃ f, fuel = f + 1 := ⟨fuel - 1, by simp at hfuel; omega⟩
    subst hf
    by_cases hach : a = ch
    · right
      subst hach
      refine ⟨List.mem_cons_self a rest, ?_⟩
      have herase : (a :: rest).erase a = rest := by simp
      rw [herase]
      have hnd1 : a ∉ rest := by
        have := (List.nodup_append.mp hnd).2.1
        exact (List.nodup_cons.mp this).1
      cases hlast : pre.getLast? with
      | none =>
        have hpre0 : pre = [] := List.getLast?_eq_none_iff.mp hlast
        subst hpre0
        refine ⟨{ room with head := room.next a }, ?_, ?_⟩
        · simp [unlink_loop, pure, Except.pure]
        · exact hc.2
      | some q =>
        obtain ⟨pre1, hpre1⟩ : ∃ pre1, pre = pre1 ++ [q] := by
          have hne : pre ≠ [] := by
            intro h0
            rw [h0] at hlast
            cases hlast
          refine ⟨pre.dropLast, ?_⟩
          have h1 := List.dropLast_append_getLast? q (by rw [hlast]; rfl)
          exact h1.symm
        subst hpre1
        refine ⟨{ room with next := fun b => if b = q then room.next a else room.next b },
          ?_, ?_⟩
        · simp [unlink_loop, pure, Except.pure]
        · obtain ⟨m, hs1, hs2⟩ := (is_seg_append room.next pre1 [q] (some a) _).mp hseg
          have hm : m = some q := hs2.1
          subst hm
          have hq1 : q ∉ pre1 := by
            have h1 := (List.nodup_append.mp hnd).1
            have h2 := List.nodup_append.mp h1
            intro hm
            exact h2.2.2 hm (List.mem_singleton_self q)
          have hq2 : q ∉ rest := by
            intro hm
            have h3 := (List.nodup_append.mp hnd).2.2
            exact h3 (List.mem_append.mpr (Or.inr (List.mem_singleton_self q)))
              (List.mem_cons_of_mem a hm)
          rw [is_chain_iff_seg]
          show is_seg _ room.head (pre1 ++ [q] ++ rest) none
          rw [List.append_assoc, is_seg_append]
          refine ⟨some q, is_seg_update room.next q _ pre1 _ hq1 _ hs1, ?_⟩
          refine ⟨rfl, ?_⟩
          simp only [if_true]
          exact is_seg_update room.next q _ rest none hq2 _
            ((is_chain_iff_seg room.next rest _).mp hc.2)
    · have hseg1 : is_seg room.next room.head (pre ++ [a]) (room.next a) := by
        rw [is_seg_append]
        exact ⟨some a, hseg, rfl, rfl⟩
      have hnd1 : ((pre ++ [a]) ++ rest).Nodup := by
        rw [List.append_assoc]
        exact hnd
      have hpre1 : ch ∉ pre ++ [a] := by
        intro hm
        rcases List.mem_append.mp hm with h1 | h1
        · exact hpre h1
        · exact hach (List.mem_singleton.mp h1).symm
      have hstep : unlink_loop ch room (f + 1) (some a) pre.getLast? =
          unlink_loop ch room f (room.next a) (pre ++ [a]).getLast? := by
        simp [unlink_loop, hach]
      have herase : (a :: rest).erase ch = a :: rest.erase ch := by
        rw [List.erase_cons_tail]
        simpa using hach
      rcases ih (pre ++ [a]) (room.next a) f hseg1 hc.2 hnd1 hpre1
        (by simp at hfuel; omega) with ⟨h1, h2⟩ | ⟨h1, r, h2, h3⟩
      · left
        refine ⟨?_, by rw [hstep]; exact h2⟩
        intro hm
        rcases List.mem_cons.mp hm with h4 | h4
        · exact hach h4.symm
        · exact h1 h4
      · right
        refine ⟨List.mem_cons_of_mem a h1, r, by rw [hstep]; exact h2, ?_⟩
        rw [herase]
        simpa using h3

/-- The run of the loop shared by the three removals from the head of a chain
that ends. -/
theorem unlink_loop_head (ch : Nat) (room : chain_t) (l : List Nat) (fuel : Nat)
    (hl : is_chain room.next room.head l) (hfuel : l.length ≤ fuel) :
    (ch ∉ l ∧ unlink_loop ch room fuel room.head none = Except.ok (false, room)) ∨
    (ch ∈ l ∧ ∃ r, unlink_loop ch room fuel room.head none = Except.ok (true, r) ∧
      is_chain r.next r.head (l.erase ch)) := by
  have := unlink_loop_spec ch room l [] room.head fuel rfl hl
    (by simpa using is_chain_nodup room.next l _ hl) (List.not_mem_nil ch) hfuel
  simpa using this

/-- C11, refuted at the chain 1, 2, 3 and the player 2, who is in the room
already: after `add_player_to_room` and `remove_player_from_room` the head is
record 1 again, but record 2 is linked back to record 1, so the chain runs in
a circle through 1 and 2 and record 3 is no longer on it. -/
theorem add_then_remove_present_player :
    is_chain three_chain.next three_chain.head [1, 2, 3] ∧
    (remove_player_from_room 3 (add_player_to_room three_chain 2) 2).map
        (fun r => (r.head, r.next 1, r.next 2)) =
      Except.ok (some 1, some 2, some 1) ∧
    ∃ r, remove_player_from_room 3 (add_player_to_room three_chain 2) 2 = Except.ok r ∧
      ¬ is_chain r.next r.head [1, 2, 3] :=
  ⟨by decide, rfl, _, rfl, by decide⟩

/-- C11, amended: on a chain that ends and for a player that is not on it,
`add_player_to_room` followed by `remove_player_from_room` leaves the head and
the records of the chain as they were, in the same order; likewise
`add_npc_to_room` followed by `remove_npc_from_room`. -/
theorem add_then_remove_restores (room : chain_t) (l : List Nat) (p fuel : Nat)
    (hl : is_chain room.next room.head l) (hp : p ∉ l) (hfuel : 0 < fuel) :
    (∃ r, remove_player_from_room fuel (add_player_to_room room p) p = Except.ok r ∧
      r.head = room.head ∧ is_chain r.next r.head l) ∧
    (∃ r, remove_npc_from_room fuel (add_npc_to_room room p) p = Except.ok r ∧
      r.head = room.head ∧ is_chain r.next r.head l) := by
  obtain ⟨f, hf⟩ : ∃ f, fuel = f + 1 := ⟨fuel - 1, by omega⟩
  subst hf
  have key : is_chain (fun a => if a = p then room.head else room.next a) room.head l :=
    is_chain_update room.next p room.head l hp room.head hl
  constructor
  · refine ⟨{ head := room.head, next := fun a => if a = p then room.head else room.next a },
      ?_, rfl, key⟩
    simp [remove_player_from_room, add_player_to_room, unlink_loop, bind, Except.bind,
      pure, Except.pure]
  · refine ⟨{ head := room.head, next := fun a => if a = p then room.head else room.next a },
      ?_, rfl, key⟩
    simp [remove_npc_from_room, add_npc_to_room, unlink_loop, bind, Except.bind,
      pure, Except.pure]

/-- C11, amended, at the chain 1, 2, 3 and the new player 7. -/
theorem add_then_remove_restores_witness :
    is_chain three_chain.next three_chain.head [1, 2, 3] ∧ 7 ∉ [1, 2, 3] ∧
    (∃ r, remove_player_from_room 1 (add_player_to_room three_chain 7) 7 = Except.ok r ∧
      r.head = three_chain.head ∧ is_chain r.next r.head [1, 2, 3]) ∧
    (∃ r, remove_npc_from_room 1 (add_npc_to_room three_chain 7) 7 = Except.ok r ∧
      r.head = three_chain.head ∧ is_chain r.next r.head [1, 2, 3]) :=
  ⟨by decide, by decide,
   add_then_remove_restores three_chain [1, 2, 3] 7 1 (by decide) (by decide) (by decide)⟩

/-- C12, refuted at the chain 1, 2, 3: `remove_player_from_room` and
`remove_npc_from_room` return the same value, none, for record 2, which is on
the chain, and for record 9, which is not. -/
theorem remove_player_reports_nothing :
    is_chain three_chain.next three_chain.head [1, 2, 3] ∧
    2 ∈ [1, 2, 3] ∧ 9 ∉ [1, 2, 3] ∧
    remove_player_from_room_value 3 three_chain 2 = Except.ok () ∧
    remove_player_from_room_value 3 three_chain 9 = Except.ok () ∧
    remove_npc_from_room_value 3 three_chain 2 = Except.ok () ∧
    remove_npc_from_room_value 3 three_chain 9 = Except.ok () :=
  ⟨by decide, by decide, by decide, rfl, rfl, rfl, rfl⟩

/-- C12, amended: on a chain that ends, `remove_player_from_room` and
`remove_npc_from_room` return nothing and `remove_game_object_from_list`
returns 0 when the record is on the chain and -1 when it is not; a record that
is on the chain is taken off it and the others keep their order; when the
record is not on the chain nothing changes. -/
theorem removal_by_identity (room : chain_t) (l : List Nat) (ch fuel : Nat)
    (hl : is_chain room.next room.head l) (hfuel : l.length ≤ fuel) :
    (∃ r, remove_player_from_room fuel room ch = Except.ok r ∧
      is_chain r.next r.head (l.erase ch)) ∧
    (∃ r, remove_npc_from_room fuel room ch = Except.ok r ∧
      is_chain r.next r.head (l.erase ch)) ∧
    (∃ r, remove_game_object_from_list fuel room ch =
        Except.ok (if ch ∈ l then 0 else -1, r) ∧
      is_chain r.next r.head (l.erase ch)) ∧
    (ch ∉ l → remove_player_from_room fuel room ch = Except.ok room ∧
      remove_npc_from_room fuel room ch = Except.ok room ∧
      remove_game_object_from_list fuel room ch = Except.ok (-1, room)) := by
  rcases unlink_loop_head ch room l fuel hl hfuel with ⟨h1, h2⟩ | ⟨h1, r, h2, h3⟩
  · have herase : l.erase ch = l := List.erase_of_not_mem h1
    rw [herase]
    refine ⟨⟨room, ?_, hl⟩, ⟨room, ?_, hl⟩, ⟨room, ?_, hl⟩, fun _ => ⟨?_, ?_, ?_⟩⟩ <;>
      simp [remove_player_from_room, remove_npc_from_room, remove_game_object_from_list,
        h1, h2, bind, Except.bind, pure, Except.pure]
  · refine ⟨⟨r, ?_, h3⟩, ⟨r, ?_, h3⟩, ⟨r, ?_, h3⟩, fun hn => absurd h1 hn⟩ <;>
      simp [remove_player_from_room, remove_npc_from_room, remove_game_object_from_list,
        h1, h2, bind, Except.bind, pure, Except.pure]

/-- C12, amended, at the chain 1, 2, 3 and the record 2. -/
theorem removal_by_identity_witness :
    is_chain three_chain.next three_chain.head [1, 2, 3] ∧
    (∃ r, remove_player_from_room 3 three_chain 2 = Except.ok r ∧
      is_chain r.next r.head [1, 3]) ∧
    (∃ r, remove_game_object_from_list 3 three_chain 2 = Except.ok (0, r) ∧
      is_chain r.next r.head [1, 3]) :=
  have h := removal_by_identity three_chain [1, 2, 3] 2 3 (by decide) (by decide)
  ⟨by decide, h.1, h.2.2.1⟩

/-! ## Lemmas and claims on the keyword lookup -/

/-- The lower-case form of a byte that is not zero is not zero. -/
theorem tolower_ne_zero (b : Nat) (h : b ≠ 0) : tolower b ≠ 0 := by
  unfold tolower
  split <;> omega

/-- The test of `object_matches_key` on a row, for a key that the bytes of the
table from the row on are long enough for: it holds exactly when the key is at
the start of these bytes, up to case. -/
theorem strncasecmp_is_zero_eq (mem : List Nat) :
    ∀ (key : c_string) (pos : Nat), (∀ b ∈ key, b ≠ 0) → pos + key.length ≤ mem.length →
      strncasecmp_is_zero mem pos key key.length =
        Except.ok (decide (begins_up_to_case key (mem.drop pos))) := by
  intro key
  induction key with
  | nil =>
    intro pos _ _
    simp [strncasecmp_is_zero, begins_up_to_case, pure, Except.pure]
  | cons c key ih =>
    intro pos hnz hlen
    have hp : pos < mem.length := by
      simp only [List.length_cons] at hlen
      omega
    have hr := read_ok table.keywords mem pos _ (List.getElem?_eq_getElem hp)
    have hc : c ≠ 0 := hnz c (List.mem_cons_self c key)
    have hrec := ih (pos + 1) (fun b hb => hnz b (List.mem_cons_of_mem c hb)) (by
      simp only [List.length_cons] at hlen
      omega)
    have hdrop : mem.drop pos = mem[pos] :: mem.drop (pos + 1) := List.drop_eq_getElem_cons hp
    have hiff : begins_up_to_case (c :: key) (mem.drop pos) ↔
        (tolower mem[pos] = tolower c ∧ begins_up_to_case key (mem.drop (pos + 1))) := by
      unfold begins_up_to_case
      rw [hdrop]
      simp only [List.length_cons, List.take_succ_cons, List.map_cons, List.cons.injEq]
    simp only [List.length_cons, strncasecmp_is_zero, hr, bind, Except.bind, List.headD_cons,
      List.tail_cons]
    by_cases ht : tolower mem[pos] = tolower c
    · have hb : mem[pos] ≠ 0 := by
        intro hz
        rw [hz] at ht
        exact tolower_ne_zero c hc ht.symm
      simp only [ht, if_true, hb, if_false, hrec]
      congr 1
      exact decide_eq_decide.mpr ⟨fun h => hiff.mpr ⟨ht, h⟩, fun h => (hiff.mp h).2⟩
    · simp only [ht, if_false, pure, Except.pure]
      congr 1
      exact (decide_eq_false (fun h => ht (hiff.mp h).1)).symm

/-- The loop of `object_matches_key` over rows of the table: it holds exactly
when the key is at the start of one of the rows it looks at, up to case. -/
theorem matches_from_eq (K : Nat) (mem : List Nat) (key : c_string)
    (hnz : ∀ b ∈ key, b ≠ 0) :
    ∀ (n i : Nat), (∀ i1, i ≤ i1 → i1 < i + n → i1 * K + key.length ≤ mem.length) →
      matches_from K mem key n i =
        Except.ok ((List.range' i n).any
          (fun i1 => decide (begins_up_to_case key (mem.drop (i1 * K))))) := by
  intro n
  induction n with
  | zero =>
    intro i _
    simp [matches_from, pure, Except.pure]
  | succ n ih =>
    intro i hlen
    have h1 := strncasecmp_is_zero_eq mem key (i * K) hnz (hlen i (le_refl i) (by omega))
    have h2 := ih (i + 1) (fun i1 ha hb => hlen i1 (by omega) (by omega))
    simp only [matches_from, h1, bind, Except.bind, List.range'_succ, List.any_cons]
    by_cases hm : begins_up_to_case key (mem.drop (i * K))
    · simp [hm, pure, Except.pure]
    · simp only [hm, decide_False, Bool.false_or, Bool.false_eq_true, if_false]
      exact h2

/-- The function `object_matches_key` looks at the first `MAX_KEYWORDS` rows of
the table, declared or not. -/
theorem object_matches_key_eq (K : Nat) (o : game_object_t) (key : c_string)
    (hnz : ∀ b ∈ key, b ≠ 0)
    (hrows : ∀ i, i < K → i * K + key.length ≤ o.keywords.length) :
    object_matches_key K (some o) key = Except.ok (some_row_matches K K o key) := by
  have := matches_from_eq K o.keywords key hnz K 0 (fun i1 _ h => hrows i1 (by omega))
  simpa [object_matches_key, some_row_matches, List.range_eq_range'] using this

/-- The function `lookup_object_from_list` gives the first object of the list
one of whose first `MAX_KEYWORDS` rows starts with the key, up to case. -/
theorem lookup_object_from_list_eq (K : Nat) (key : c_string) (hnz : ∀ b ∈ key, b ≠ 0) :
    ∀ (l : List game_object_t),
      (∀ o ∈ l, ∀ i, i < K → i * K + key.length ≤ o.keywords.length) →
      lookup_object_from_list K l key =
        Except.ok (l.find? (fun o => some_row_matches K K o key)) := by
  intro l
  induction l with
  | nil => intro _; rfl
  | cons o l ih =>
    intro hrows
    have h1 := object_matches_key_eq K o key hnz (hrows o (List.mem_cons_self o l))
    have h2 := ih (fun o1 ho1 => hrows o1 (List.mem_cons_of_mem o ho1))
    simp only [lookup_object_from_list, h1, bind, Except.bind, List.find?_cons]
    cases hm : some_row_matches K K o key with
    | true => rfl
    | false => simpa using h2

/-- C13, at an object read by `game_object_from_json` from a document with the
one keyword "sword" into a record whose second row still holds "shield": the
key "sh" is at the start of no declared keyword of the object, and
`lookup_object_from_list` and `lookup_room_object` return the object for it.
The example of the claim holds: the key "sw" finds the object with the
keywords "sword" and "shield". -/
theorem lookup_matches_undeclared_row :
    (∃ obj, game_object_from_json example_h stale_object (some one_keyword_doc) =
        Except.ok obj ∧
      obj.num_keywords = 1 ∧ declared_keywords example_h obj = [utf8 "sword"] ∧
      keyword example_h obj 1 = utf8 "shield" ∧
      (∀ k ∈ declared_keywords example_h obj, ¬ begins_up_to_case (utf8 "sh") k) ∧
      lookup_object_from_list example_h.MAX_KEYWORDS [obj] (utf8 "sh") =
        Except.ok (some obj) ∧
      lookup_room_object example_h.MAX_KEYWORDS
          { id := 0, exits := [-1, -1, -1, -1], objects := [obj] } (utf8 "sh") =
        Except.ok (some obj)) ∧
    declared_keywords example_h sword_and_shield = [utf8 "sword", utf8 "shield"] ∧
    lookup_object_from_list example_h.MAX_KEYWORDS [sword_and_shield] (utf8 "sw") =
      Except.ok (some sword_and_shield) :=
  ⟨⟨_, rfl, rfl, rfl, rfl, by decide, rfl, rfl⟩, rfl, rfl⟩

/-- C20: for the empty key `object_matches_key` holds for every object, so
`lookup_object_from_list` and `lookup_room_object` return the first object of
a list that is not empty, and none for the empty list. -/
theorem empty_key_matches_every_object (K : Nat) (hK : 0 < K) :
    (∀ o : game_object_t, object_matches_key K (some o) (utf8 "") = Except.ok true) ∧
    (∀ (o : game_object_t) (rest : List game_object_t),
      lookup_object_from_list K (o :: rest) (utf8 "") = Except.ok (some o)) ∧
    lookup_object_from_list K [] (utf8 "") = Except.ok none ∧
    (∀ (room : room_t) (o : game_object_t) (rest : List game_object_t),
      room.objects = o :: rest →
      lookup_room_object K room (utf8 "") = Except.ok (some o)) ∧
    (∀ room : room_t, room.objects = [] →
      lookup_room_object K room (utf8 "") = Except.ok none) := by
  obtain ⟨k, hk⟩ : ∃ k, K = k + 1 := ⟨K - 1, by omega⟩
  subst hk
  have hempty : utf8 "" = [] := rfl
  have hmatch : ∀ o : game_object_t,
      object_matches_key (k + 1) (some o) (utf8 "") = Except.ok true := by
    intro o
    rw [hempty]
    simp only [object_matches_key, matches_from, List.length_nil, strncasecmp_is_zero, bind,
      Except.bind, pure, Except.pure, if_true]
  have hlook : ∀ (o : game_object_t) (rest : List game_object_t),
      lookup_object_from_list (k + 1) (o :: rest) (utf8 "") = Except.ok (some o) := by
    intro o rest
    simp only [lookup_object_from_list, hmatch o, bind, Except.bind, if_true, pure,
      Except.pure]
  refine ⟨hmatch, hlook, rfl, ?_, ?_⟩
  · intro room o rest hobjs
    simp only [lookup_room_object, hobjs]
    exact hlook o rest
  · intro room hobjs
    simp only [lookup_room_object, hobjs]
    rfl

/-- C20, at the row width of the examples and the list of the sword and the
key. -/
theorem empty_key_matches_every_object_witness :
    0 < example_h.MAX_KEYWORDS ∧
    object_matches_key example_h.MAX_KEYWORDS (some sword) (utf8 "") = Except.ok true ∧
    lookup_object_from_list example_h.MAX_KEYWORDS [sword, brass_key] (utf8 "") =
      Except.ok (some sword) ∧
    lookup_object_from_list example_h.MAX_KEYWORDS [] (utf8 "") = Except.ok none :=
  have h := empty_key_matches_every_object example_h.MAX_KEYWORDS (by decide)
  ⟨by decide, h.1 sword, h.2.1 sword [brass_key], h.2.2.1⟩

/-! ## Lemmas and claims on the description of a room -/

/-- A call of `snprintf` whose bytes fit the buffer with the closing zero:
they are all stored. -/
theorem snprintf_at_fits (MAXBUF : Nat) (t s : c_string) (h : (t ++ s).length < MAXBUF) :
    snprintf_at MAXBUF (at_text t) s = Except.ok (at_text (t ++ s)) := by
  rw [List.length_append] at h
  have h1 : ¬ MAXBUF < t.length := by omega
  have h2 : ¬ t.length = MAXBUF := by omega
  have h3 : s.take (MAXBUF - t.length - 1) = s := List.take_of_length_le (by omega)
  simp only [snprintf_at, at_text, h1, h2, if_false, pure, Except.pure, List.take_length,
    List.length_append, h3]

/-- The first call of `snprintf`, at the start of the buffer, when its bytes
fit: what the buffer held before is gone. -/
theorem snprintf_at_first (MAXBUF : Nat) (buf s : c_string) (h : s.length < MAXBUF) :
    snprintf_at MAXBUF { n := 0, buf := buf } s = Except.ok (at_text s) := by
  have h1 : ¬ MAXBUF < 0 := by omega
  have h2 : ¬ 0 = MAXBUF := by omega
  have h3 : s.take (MAXBUF - 0 - 1) = s := List.take_of_length_le (by omega)
  simp only [snprintf_at, at_text, h1, h2, if_false, pure, Except.pure, List.take_zero,
    List.nil_append, Nat.zero_add, h3]

/-- A call of `sprintf` whose bytes fit the buffer with the closing zero. -/
theorem sprintf_at_fits (MAXBUF : Nat) (t s : c_string) (h : (t ++ s).length < MAXBUF) :
    sprintf_at MAXBUF (at_text t) s = Except.ok (at_text (t ++ s)) := by
  rw [List.length_append] at h
  have h1 : ¬ MAXBUF < t.length + s.length + 1 := by omega
  simp only [sprintf_at, at_text, h1, if_false, pure, Except.pure, List.take_length,
    List.length_append]

/-- The loop over exits, when the names fit the buffer: they are all
written. -/
theorem describe_exits_fits (MAXBUF : Nat) (exits : List Int) :
    ∀ (k i j : Nat) (t : c_string), i + k ≤ exits.length →
      (t ++ exits_text exits k i j).length < MAXBUF →
      describe_exits MAXBUF exits k i j (at_text t) =
        Except.ok (at_text (t ++ exits_text exits k i j)) := by
  intro k
  induction k with
  | zero =>
    intro i j t _ _
    simp [describe_exits, exits_text, pure, Except.pure]
  | succ k ih =>
    intro i j t hlen hfit
    have hi : i < exits.length := by omega
    have hr : read table.exits exits (i : Int) = Except.ok (exits[i]) :=
      read_ok _ _ _ _ (List.getElem?_eq_getElem hi)
    have hg : exits.getD i (-1) = exits[i] := by
      simp [List.getD_eq_getElem?_getD, List.getElem?_eq_getElem hi]
    simp only [describe_exits, hr, bind, Except.bind, exits_text, hg] at hfit ⊢
    by_cases he : exits[i] > -1
    · simp only [he, if_true] at hfit ⊢
      by_cases hj : 0 < j ∧ j < MAX_ROOM_EXITS - 1
      · simp only [hj, and_self, if_true] at hfit ⊢
        rw [List.append_assoc, ← List.append_assoc, ← List.append_assoc] at hfit
        have hf2 : ((t ++ utf8 ", ") ++ exit_names.getD i []).length < MAXBUF := by
          rw [List.length_append] at hfit
          omega
        have hf1 : (t ++ utf8 ", ").length < MAXBUF := by
          rw [List.length_append] at hf2
          omega
        rw [snprintf_at_fits MAXBUF t _ hf1]
        dsimp only
        rw [snprintf_at_fits MAXBUF _ _ hf2]
        dsimp only
        rw [ih (i + 1) (j + 1) _ (by omega) hfit]
        simp only [List.append_assoc]
      · simp only [hj, if_false, List.nil_append, pure, Except.pure] at hfit ⊢
        rw [← List.append_assoc] at hfit
        have hf2 : (t ++ exit_names.getD i []).length < MAXBUF := by
          rw [List.length_append] at hfit
          omega
        rw [snprintf_at_fits MAXBUF _ _ hf2]
        dsimp only
        rw [ih (i + 1) (j + 1) _ (by omega) hfit]
        simp only [List.append_assoc]
    · simp only [he, if_false] at hfit ⊢
      exact ih (i + 1) j t (by omega) hfit

/-- The loop over objects, when the lines fit the buffer. -/
theorem describe_objects_fits (MAXBUF : Nat) (h : rarity_h)
    (colorize_string : c_string → c_string) :
    ∀ (objs : List game_object_t) (empty : Bool) (t : c_string),
      (t ++ objects_text h colorize_string objs empty).length < MAXBUF →
      describe_objects MAXBUF h colorize_string objs empty (at_text t) =
        Except.ok (at_text (t ++ objects_text h colorize_string objs empty)) := by
  intro objs
  induction objs with
  | nil =>
    intro empty t _
    simp [describe_objects, objects_text, pure, Except.pure]
  | cons o rest ih =>
    intro empty t hfit
    simp only [objects_text] at hfit ⊢
    cases empty with
    | true =>
      simp only [if_true] at hfit ⊢
      rw [← List.append_assoc, ← List.append_assoc] at hfit
      have hf2 : ((t ++ utf8 "\n\nItems:") ++
          (utf8 "\n  " ++ colorize_object_name h colorize_string o)).length < MAXBUF := by
        rw [List.length_append] at hfit
        omega
      have hf1 : (t ++ utf8 "\n\nItems:").length < MAXBUF := by
        rw [List.length_append] at hf2
        omega
      simp only [describe_objects, if_true, bind, Except.bind]
      rw [snprintf_at_fits MAXBUF t _ hf1]
      dsimp only
      rw [snprintf_at_fits MAXBUF _ _ hf2]
      dsimp only
      rw [ih false _ hfit]
      simp only [List.append_assoc]
    | false =>
      simp only [Bool.false_eq_true, if_false, List.nil_append] at hfit ⊢
      rw [← List.append_assoc] at hfit
      have hf2 : (t ++ (utf8 "\n  " ++ colorize_object_name h colorize_string o)).length
          < MAXBUF := by
        rw [List.length_append] at hfit
        omega
      simp only [describe_objects, Bool.false_eq_true, if_false, bind, Except.bind, pure,
        Except.pure]
      rw [snprintf_at_fits MAXBUF _ _ hf2]
      dsimp only
      rw [ih false _ hfit]
      simp only [List.append_assoc]

/-- The loop over characters, when the lines fit the buffer. -/
theorem describe_npcs_fits (MAXBUF : Nat) (char_status_string : Int → c_string) :
    ∀ (npcs : List npc_t) (t : c_string),
      (t ++ npcs_text char_status_string npcs).length < MAXBUF →
      describe_npcs MAXBUF char_status_string npcs (at_text t) =
        Except.ok (at_text (t ++ npcs_text char_status_string npcs)) := by
  intro npcs
  induction npcs with
  | nil =>
    intro t _
    simp [describe_npcs, npcs_text, pure, Except.pure]
  | cons npc rest ih =>
    intro t hfit
    simp only [npcs_text] at hfit ⊢
    rw [← List.append_assoc] at hfit
    have hf1 : (t ++ (npc.color ++ npc.name ++ utf8 "&D is " ++
        char_status_string npc.ch_state ++ utf8 "\n")).length < MAXBUF := by
      rw [List.length_append] at hfit
      omega
    simp only [describe_npcs, bind, Except.bind]
    rw [snprintf_at_fits MAXBUF _ _ hf1]
    dsimp only
    rw [ih _ hfit]
    simp only [List.append_assoc]

/-- The loop over players, once the header has been written and when the lines
fit the buffer: one line is added for every player other than the viewer. -/
theorem describe_players_rest (MAXBUF : Nat) (ch : Option Nat) :
    ∀ (players : List player_t) (t : c_string),
      (t ++ people_lines (other_players ch players)).length < MAXBUF →
      describe_players MAXBUF ch players false (at_text t) =
        Except.ok (at_text (t ++ people_lines (other_players ch players))) := by
  intro players
  induction players with
  | nil =>
    intro t _
    simp [describe_players, other_players, people_lines, pure, Except.pure]
  | cons p rest ih =>
    intro t hfit
    by_cases hp : some p.addr ≠ ch
    · have hf : other_players ch (p :: rest) = p :: other_players ch rest := by
        simp [other_players, hp]
      rw [hf] at hfit ⊢
      simp only [people_lines] at hfit ⊢
      rw [← List.append_assoc] at hfit
      have hf1 : (t ++ (utf8 "\n  " ++ p.username)).length < MAXBUF := by
        rw [List.length_append] at hfit
        omega
      simp only [describe_players, hp, if_true, Bool.false_eq_true, if_false, bind,
        Except.bind, pure, Except.pure, ne_eq, not_false_eq_true]
      rw [snprintf_at_fits MAXBUF _ _ hf1]
      dsimp only
      rw [ih _ hfit]
      simp only [List.append_assoc]
    · have hf : other_players ch (p :: rest) = other_players ch rest := by
        simp [other_players, hp]
      rw [hf] at hfit ⊢
      simp only [describe_players, hp, if_false]
      exact ih t hfit

/-- The loop over players from its start, when the people part fits the
buffer: the people part is added. -/
theorem describe_players_fits (MAXBUF : Nat) (ch : Option Nat) :
    ∀ (players : List player_t) (t : c_string),
      (t ++ people_section ch players).length < MAXBUF →
      describe_players MAXBUF ch players true (at_text t) =
        Except.ok (at_text (t ++ people_section ch players)) := by
  intro players
  induction players with
  | nil =>
    intro t _
    simp [describe_players, people_section, other_players, pure, Except.pure]
  | cons p rest ih =>
    intro t hfit
    by_cases hp : some p.addr ≠ ch
    · have hf : other_players ch (p :: rest) = p :: other_players ch rest := by
        simp [other_players, hp]
      simp only [people_section, hf, people_lines] at hfit ⊢
      have hf2 : ((t ++ utf8 "\nPeople in this room:") ++
          (utf8 "\n  " ++ p.username)).length < MAXBUF := by
        simp only [List.append_assoc, List.length_append] at hfit ⊢
        omega
      have hf1 : (t ++ utf8 "\nPeople in this room:").length < MAXBUF := by
        simp only [List.append_assoc, List.length_append] at hfit ⊢
        omega
      simp only [describe_players, hp, if_true, bind, Except.bind, ne_eq, not_false_eq_true]
      rw [sprintf_at_fits MAXBUF _ _ hf1]
      dsimp only
      rw [snprintf_at_fits MAXBUF _ _ hf2]
      dsimp only
      rw [describe_players_rest MAXBUF ch rest _ (by
        simp only [List.append_assoc, List.length_append] at hfit ⊢
        omega)]
      simp only [List.append_assoc]
    · have hf : other_players ch (p :: rest) = other_players ch rest := by
        simp [other_players, hp]
      have hs : people_section ch (p :: rest) = people_section ch rest := by
        simp only [people_section, hf]
      rw [hs] at hfit ⊢
      simp only [describe_players, hp, if_false]
      exact ih t hfit

/-- The run of `room_description` when the whole text fits the buffer with the
closing zero: the text is written in full and its length is returned. -/
theorem room_description_fits (MAXBUF : Nat) (h : rarity_h)
    (colorize_string : c_string → c_string) (char_status_string : Int → c_string)
    (room : room_t) (ch : Option Nat) (buf : c_string)
    (hex : room.exits.length = MAX_ROOM_EXITS)
    (hfit : (text_before_people h colorize_string char_status_string room ++
      people_section ch room.players).length < MAXBUF) :
    room_description MAXBUF h colorize_string char_status_string (some room) ch buf =
      Except.ok
        ((((text_before_people h colorize_string char_status_string room ++
            people_section ch room.players).length : Nat) : Int),
          text_before_people h colorize_string char_status_string room ++
            people_section ch room.players) := by
  have hlen := hfit
  simp only [text_before_people, List.append_assoc, List.length_append] at hlen
  simp only [room_description, bind, Except.bind]
  rw [snprintf_at_first MAXBUF buf _ (by
    simp only [List.append_assoc, List.length_append]
    omega)]
  dsimp only
  rw [describe_exits_fits MAXBUF room.exits MAX_ROOM_EXITS 0 0 _ (by omega) (by
    simp only [List.append_assoc, List.length_append]
    omega)]
  dsimp only
  rw [describe_objects_fits MAXBUF h colorize_string room.objects true _ (by
    simp only [List.append_assoc, List.length_append]
    omega)]
  dsimp only
  rw [snprintf_at_fits MAXBUF _ _ (by
    simp only [List.append_assoc, List.length_append]
    omega)]
  dsimp only
  rw [describe_npcs_fits MAXBUF char_status_string room.npcs _ (by
    simp only [List.append_assoc, List.length_append]
    omega)]
  dsimp only
  rw [describe_players_fits MAXBUF ch room.players _ (by
    simp only [List.append_assoc, List.length_append]
    omega)]
  simp only [pure, Except.pure, at_text, text_before_people, List.append_assoc]

/-- A call of `snprintf` leaves fewer than `MAXBUF` bytes before the closing
zero in the buffer. -/
theorem snprintf_at_bounded (MAXBUF : Nat) (st st1 : desc_state) (s : c_string)
    (hb : st.n < MAXBUF ∨ st.buf.length < MAXBUF)
    (h : snprintf_at MAXBUF st s = Except.ok st1) : st1.buf.length < MAXBUF := by
  unfold snprintf_at at h
  by_cases h1 : MAXBUF < st.n
  · rw [if_pos h1] at h
    cases h
  · rw [if_neg h1] at h
    by_cases h2 : st.n = MAXBUF
    · rw [if_pos h2] at h
      have hs := (Except.ok.inj h).symm
      subst hs
      rcases hb with h3 | h3
      · omega
      · exact h3
    · rw [if_neg h2] at h
      have hs := (Except.ok.inj h).symm
      subst hs
      simp only [List.length_append, List.length_take]
      omega

/-- A call of `sprintf` that stays inside the buffer leaves fewer than `MAXBUF`
bytes before the closing zero. -/
theorem sprintf_at_bounded (MAXBUF : Nat) (st st1 : desc_state) (s : c_string)
    (h : sprintf_at MAXBUF st s = Except.ok st1) : st1.buf.length < MAXBUF := by
  unfold sprintf_at at h
  by_cases h1 : MAXBUF < st.n + s.length + 1
  · rw [if_pos h1] at h
    cases h
  · rw [if_neg h1] at h
    have hs := (Except.ok.inj h).symm
    subst hs
    simp only [List.length_append, List.length_take]
    omega

/-- The loop over exits keeps the text in the buffer shorter than `MAXBUF`. -/
theorem describe_exits_bounded (MAXBUF : Nat) (exits : List Int) :
    ∀ (k i j : Nat) (st st1 : desc_state), st.buf.length < MAXBUF →
      describe_exits MAXBUF exits k i j st = Except.ok st1 → st1.buf.length < MAXBUF := by
  intro k
  induction k with
  | zero =>
    intro i j st st1 hb h
    rw [← Except.ok.inj h]
    exact hb
  | succ k ih =>
    intro i j st st1 hb h
    simp only [describe_exits, bind, Except.bind] at h
    cases hr : read table.exits exits (i : Int) with
    | error e => rw [hr] at h; cases h
    | ok e =>
      rw [hr] at h
      dsimp only at h
      by_cases he : e > -1
      · simp only [he, if_true] at h
        by_cases hj : 0 < j ∧ j < MAX_ROOM_EXITS - 1
        · simp only [hj, and_self, if_true] at h
          cases h1 : snprintf_at MAXBUF st (utf8 ", ") with
          | error x => rw [h1] at h; cases h
          | ok st2 =>
            rw [h1] at h
            dsimp only at h
            have hb2 := snprintf_at_bounded MAXBUF st st2 _ (Or.inr hb) h1
            cases h2 : snprintf_at MAXBUF st2 (exit_names.getD i []) with
            | error x => rw [h2] at h; cases h
            | ok st3 =>
              rw [h2] at h
              dsimp only at h
              exact ih _ _ st3 st1 (snprintf_at_bounded MAXBUF st2 st3 _ (Or.inr hb2) h2) h
        · simp only [hj, if_false, pure, Except.pure] at h
          cases h2 : snprintf_at MAXBUF st (exit_names.getD i []) with
          | error x => rw [h2] at h; cases h
          | ok st3 =>
            rw [h2] at h
            dsimp only at h
            exact ih _ _ st3 st1 (snprintf_at_bounded MAXBUF st st3 _ (Or.inr hb) h2) h
      · simp only [he, if_false] at h
        exact ih _ _ st st1 hb h

/-- The loop over objects keeps the text in the buffer shorter than
`MAXBUF`. -/
theorem describe_objects_bounded (MAXBUF : Nat) (h : rarity_h)
    (colorize_string : c_string → c_string) :
    ∀ (objs : List game_object_t) (empty : Bool) (st st1 : desc_state),
      st.buf.length < MAXBUF →
      describe_objects MAXBUF h colorize_string objs empty st = Except.ok st1 →
      st1.buf.length < MAXBUF := by
  intro objs
  induction objs with
  | nil =>
    intro empty st st1 hb hrun
    rw [← Except.ok.inj hrun]
    exact hb
  | cons o rest ih =>
    intro empty st st1 hb hrun
    simp only [describe_objects, bind, Except.bind] at hrun
    cases empty with
    | true =>
      simp only [if_true] at hrun
      cases h1 : snprintf_at MAXBUF st (utf8 "\n\nItems:") with
      | error x => rw [h1] at hrun; cases hrun
      | ok st2 =>
        rw [h1] at hrun
        dsimp only at hrun
        have hb2 := snprintf_at_bounded MAXBUF st st2 _ (Or.inr hb) h1
        cases h2 : snprintf_at MAXBUF st2
            (utf8 "\n  " ++ colorize_object_name h colorize_string o) with
        | error x => rw [h2] at hrun; cases hrun
        | ok st3 =>
          rw [h2] at hrun
          dsimp only at hrun
          exact ih false st3 st1 (snprintf_at_bounded MAXBUF st2 st3 _ (Or.inr hb2) h2) hrun
    | false =>
      simp only [Bool.false_eq_true, if_false, pure, Except.pure] at hrun
      cases h2 : snprintf_at MAXBUF st
          (utf8 "\n  " ++ colorize_object_name h colorize_string o) with
      | error x => rw [h2] at hrun; cases hrun
      | ok st3 =>
        rw [h2] at hrun
        dsimp only at hrun
        exact ih false st3 st1 (snprintf_at_bounded MAXBUF st st3 _ (Or.inr hb) h2) hrun

/-- The loop over characters keeps the text in the buffer shorter than
`MAXBUF`. -/
theorem describe_npcs_bounded (MAXBUF : Nat) (char_status_string : Int → c_string) :
    ∀ (npcs : List npc_t) (st st1 : desc_state), st.buf.length < MAXBUF →
      describe_npcs MAXBUF char_status_string npcs st = Except.ok st1 →
      st1.buf.length < MAXBUF := by
  intro npcs
  induction npcs with
  | nil =>
    intro st st1 hb hrun
    rw [← Except.ok.inj hrun]
    exact hb
  | cons npc rest ih =>
    intro st st1 hb hrun
    simp only [describe_npcs, bind, Except.bind] at hrun
    cases h1 : snprintf_at MAXBUF st (npc.color ++ npc.name ++ utf8 "&D is " ++
        char_status_string npc.ch_state ++ utf8 "\n") with
    | error x => rw [h1] at hrun; cases hrun
    | ok st2 =>
      rw [h1] at hrun
      dsimp only at hrun
      exact ih st2 st1 (snprintf_at_bounded MAXBUF st st2 _ (Or.inr hb) h1) hrun

/-- The loop over players keeps the text in the buffer shorter than
`MAXBUF`. -/
theorem describe_players_bounded (MAXBUF : Nat) (ch : Option Nat) :
    ∀ (players : List player_t) (no_chars : Bool) (st st1 : desc_state),
      st.buf.length < MAXBUF →
      describe_players MAXBUF ch players no_chars st = Except.ok st1 →
      st1.buf.length < MAXBUF := by
  intro players
  induction players with
  | nil =>
    intro no_chars st st1 hb hrun
    rw [← Except.ok.inj hrun]
    exact hb
  | cons p rest ih =>
    intro no_chars st st1 hb hrun
    by_cases hp : some p.addr ≠ ch
    · simp only [describe_players, hp, if_true, bind, Except.bind, ne_eq,
        not_false_eq_true] at hrun
      cases no_chars with
      | true =>
        simp only [if_true] at hrun
        cases h1 : sprintf_at MAXBUF st (utf8 "\nPeople in this room:") with
        | error x => rw [h1] at hrun; cases hrun
        | ok st2 =>
          rw [h1] at hrun
          dsimp only at hrun
          have hb2 := sprintf_at_bounded MAXBUF st st2 _ h1
          cases h2 : snprintf_at MAXBUF st2 (utf8 "\n  " ++ p.username) with
          | error x => rw [h2] at hrun; cases hrun
          | ok st3 =>
            rw [h2] at hrun
            dsimp only at hrun
            exact ih false st3 st1 (snprintf_at_bounded MAXBUF st2 st3 _ (Or.inr hb2) h2) hrun
      | false =>
        simp only [Bool.false_eq_true, if_false, pure, Except.pure] at hrun
        cases h2 : snprintf_at MAXBUF st (utf8 "\n  " ++ p.username) with
        | error x => rw [h2] at hrun; cases hrun
        | ok st3 =>
          rw [h2] at hrun
          dsimp only at hrun
          exact ih false st3 st1 (snprintf_at_bounded MAXBUF st st3 _ (Or.inr hb) h2) hrun
    · simp only [describe_players, hp, if_false] at hrun
      exact ih no_chars st st1 hb hrun

/-- The text that `room_description` leaves in a buffer of `MAXBUF` bytes has
fewer than `MAXBUF` bytes, whatever the room holds. -/
theorem room_description_bounded (MAXBUF : Nat) (h : rarity_h)
    (colorize_string : c_string → c_string) (char_status_string : Int → c_string)
    (room : room_t) (ch : Option Nat) (buf : c_string) (n : Int) (text : c_string)
    (hpos : 0 < MAXBUF)
    (hrun : room_description MAXBUF h colorize_string char_status_string (some room) ch buf =
      Except.ok (n, text)) : text.length < MAXBUF := by
  simp only [room_description, bind, Except.bind] at hrun
  cases h0 : snprintf_at MAXBUF { n := 0, buf := buf }
      (utf8 "\n" ++ room.name ++ utf8 "\n" ++ room.description ++ utf8 "\nExits: ") with
  | error x => rw [h0] at hrun; cases hrun
  | ok st0 =>
    rw [h0] at hrun
    dsimp only at hrun
    have b0 := snprintf_at_bounded MAXBUF _ st0 _ (Or.inl hpos) h0
    cases h1 : describe_exits MAXBUF room.exits MAX_ROOM_EXITS 0 0 st0 with
    | error x => rw [h1] at hrun; cases hrun
    | ok st1 =>
      rw [h1] at hrun
      dsimp only at hrun
      have b1 := describe_exits_bounded MAXBUF _ _ _ _ st0 st1 b0 h1
      cases h2 : describe_objects MAXBUF h colorize_string room.objects true st1 with
      | error x => rw [h2] at hrun; cases hrun
      | ok st2 =>
        rw [h2] at hrun
        dsimp only at hrun
        have b2 := describe_objects_bounded MAXBUF h colorize_string _ _ st1 st2 b1 h2
        cases h3 : snprintf_at MAXBUF st2 (utf8 "\n\n") with
        | error x => rw [h3] at hrun; cases hrun
        | ok st3 =>
          rw [h3] at hrun
          dsimp only at hrun
          have b3 := snprintf_at_bounded MAXBUF st2 st3 _ (Or.inr b2) h3
          cases h4 : describe_npcs MAXBUF char_status_string room.npcs st3 with
          | error x => rw [h4] at hrun; cases hrun
          | ok st4 =>
            rw [h4] at hrun
            dsimp only at hrun
            have b4 := describe_npcs_bounded MAXBUF char_status_string _ st3 st4 b3 h4
            cases h5 : describe_players MAXBUF ch room.players true st4 with
            | error x => rw [h5] at hrun; cases hrun
            | ok st5 =>
              rw [h5] at hrun
              have b5 := describe_players_bounded MAXBUF ch _ _ st4 st5 b4 h5
              have ht : st5.buf = text := congrArg Prod.snd (Except.ok.inj hrun)
              rw [← ht]
              exact b5

/-- C14, at a room with all four exits, for every buffer that the text fits:
the text after "Exits: " is "north, east, southwest", without a separator
before the fourth name. With three exits the names are joined by ", ". -/
theorem room_description_four_exits (MAXBUF : Nat) (buf : c_string) (hbuf : 65 < MAXBUF) :
    room_description MAXBUF example_rarity id (fun _ => utf8 "standing") (some crossing)
        none buf =
      Except.ok (65,
        utf8 "\nA crossing\nFour roads meet here.\nExits: north, east, southwest\n\n") ∧
    room_description MAXBUF example_rarity id (fun _ => utf8 "standing") (some three_way)
        none buf =
      Except.ok (51, utf8 "\nA bend\nThe road turns.\nExits: north, east, south\n\n") := by
  have t1 : text_before_people example_rarity id (fun _ => utf8 "standing") crossing ++
      people_section none crossing.players =
      utf8 "\nA crossing\nFour roads meet here.\nExits: north, east, southwest\n\n" := by
    decide
  have t2 : text_before_people example_rarity id (fun _ => utf8 "standing") three_way ++
      people_section none three_way.players =
      utf8 "\nA bend\nThe road turns.\nExits: north, east, south\n\n" := by
    decide
  have l1 : (utf8
      "\nA crossing\nFour roads meet here.\nExits: north, east, southwest\n\n").length = 65 := by
    decide
  have l2 : (utf8 "\nA bend\nThe road turns.\nExits: north, east, south\n\n").length = 51 := by
    decide
  have h1 := room_description_fits MAXBUF example_rarity id (fun _ => utf8 "standing")
    crossing none buf rfl (by rw [t1, l1]; exact hbuf)
  have h2 := room_description_fits MAXBUF example_rarity id (fun _ => utf8 "standing")
    three_way none buf rfl (by rw [t2, l2]; omega)
  rw [t1, l1] at h1
  rw [t2, l2] at h2
  exact ⟨h1, h2⟩

/-- C14, at a buffer of 4096 bytes. -/
theorem room_description_four_exits_witness :
    65 < 4096 ∧
    room_description 4096 example_rarity id (fun _ => utf8 "standing") (some crossing)
        none [] =
      Except.ok (65,
        utf8 "\nA crossing\nFour roads meet here.\nExits: north, east, southwest\n\n") :=
  ⟨by decide, (room_description_four_exits 4096 [] (by decide)).1⟩

/-- C15, refuted at the tavern with ann, bob and cy, for the viewer bob, and a
buffer of 64 bytes: the people part would list ann and cy, the text is cut
after the line of ann and cy is not listed; the value returned, 67, is the
length the text would have. With a buffer of 40 bytes the header, which is
written by `sprintf`, does not end inside the buffer. -/
theorem long_description_is_cut :
    people_section (some 20) tavern.players = utf8 "\nPeople in this room:\n  ann\n  cy" ∧
    room_description 64 example_rarity id (fun _ => utf8 "standing") (some tavern)
        (some 20) [] =
      Except.ok (67,
        utf8 "\nA tavern\nIt is loud.\nExits: east\n\n\nPeople in this room:\n  ann\n") ∧
    room_description 40 example_rarity id (fun _ => utf8 "standing") (some tavern)
        (some 20) [] =
      Except.error (fault.out_of_bounds table.buf 40) :=
  ⟨by decide, rfl, rfl⟩

/-- C15, amended: when the whole text fits the buffer with its closing zero,
the text of `room_description` is the text for the room without players
followed by the people part: nothing when no player other than the viewer is
in the room, and otherwise the header "People in this room:" and then the user
name of every player other than the viewer, once each and in the order of the
chain. In every case the text that is left in the buffer has fewer than
`MAXBUF` bytes. -/
theorem room_description_lists_other_players (MAXBUF : Nat) (h : rarity_h)
    (colorize_string : c_string → c_string) (char_status_string : Int → c_string)
    (room : room_t) (ch : Option Nat) (buf : c_string)
    (hex : room.exits.length = MAX_ROOM_EXITS)
    (hfit : (text_before_people h colorize_string char_status_string room ++
      people_section ch room.players).length < MAXBUF) :
    (∃ (n0 n : Int) (t0 : c_string),
      room_description MAXBUF h colorize_string char_status_string
        (some { room with players := [] }) ch buf = Except.ok (n0, t0) ∧
      room_description MAXBUF h colorize_string char_status_string (some room) ch buf =
        Except.ok (n, t0 ++ people_section ch room.players) ∧
      n = ((t0 ++ people_section ch room.players).length : Nat)) ∧
    (∀ (M : Nat) (r : room_t) (n : Int) (text : c_string), 0 < M →
      room_description M h colorize_string char_status_string (some r) ch buf =
        Except.ok (n, text) → text.length < M) := by
  refine ⟨⟨(((text_before_people h colorize_string char_status_string room).length : Nat) :
      Int), (((text_before_people h colorize_string char_status_string room ++
      people_section ch room.players).length : Nat) : Int),
    text_before_people h colorize_string char_status_string room, ?_, ?_, rfl⟩, ?_⟩
  · have h0 := room_description_fits MAXBUF h colorize_string char_status_string
      { room with players := [] } ch buf hex (by
        have : people_section ch ([] : List player_t) = [] := rfl
        simp only [this, List.append_nil]
        rw [List.length_append] at hfit
        exact Nat.lt_of_le_of_lt (Nat.le_add_right _ _) hfit)
    have hp : people_section ch ([] : List player_t) = [] := rfl
    simp only [hp, List.append_nil] at h0
    exact h0
  · exact room_description_fits MAXBUF h colorize_string char_status_string room ch buf hex
      hfit
  · intro M r n text hM hrun
    exact room_description_bounded M h colorize_string char_status_string r ch buf n text
      hM hrun

/-- C15, amended, at the tavern with ann, bob and cy, for the viewer bob and a
buffer of 4096 bytes. -/
theorem room_description_lists_other_players_witness :
    tavern.exits.length = MAX_ROOM_EXITS ∧
    (text_before_people example_rarity id (fun _ => utf8 "standing") tavern ++
      people_section (some 20) tavern.players).length < 4096 ∧
    people_section (some 20) tavern.players = utf8 "\nPeople in this room:\n  ann\n  cy" ∧
    ∃ (n0 n : Int) (t0 : c_string),
      room_description 4096 example_rarity id (fun _ => utf8 "standing")
        (some { tavern with players := [] }) (some 20) [] = Except.ok (n0, t0) ∧
      room_description 4096 example_rarity id (fun _ => utf8 "standing") (some tavern)
        (some 20) [] = Except.ok (n, t0 ++ people_section (some 20) tavern.players) ∧
      n = ((t0 ++ people_section (some 20) tavern.players).length : Nat) :=
  ⟨rfl, by decide, by decide,
   (room_description_lists_other_players 4096 example_rarity id (fun _ => utf8 "standing")
     tavern (some 20) [] rfl (by decide)).1⟩

theorem write_eq_ok {α : Type} (t : table) (xs ys : List α) (i : Int) (a : α)
    (h : write t xs i a = Except.ok ys) : ys = xs.set i.toNat a := by
  unfold write at h
  split at h
  · cases h
  · split at h
    · exact (Except.ok.inj h).symm
    · cases h

/-- The cells of an exit array that `load_area_file` fills. -/
theorem load_exit_array_cell (arr : Option json_t) (j : Nat) (hj : j < MAX_ROOM_EXITS) :
    (load_exit_array arr)[j]? = some (to_int (json_integer_value (json_array_get arr j))) := by
  simp [load_exit_array, List.getElem?_map, List.getElem?_range hj]

/-- The loop over the objects of a room puts the parsed objects in front of the
chain one after the other: the chain ends up with them in reverse order. -/
theorem load_objects_reverse (c : game_object_h) (fresh : Nat → game_object_t)
    (obj : Option json_t) :
    ∀ (n j : Nat) (acc res : List game_object_t),
      load_objects c fresh obj n j acc = Except.ok res →
      ∃ objs : List game_object_t, objs.length = n ∧
        (∀ (k : Nat) (o : game_object_t), objs[k]? = some o →
          game_object_from_json c (fresh (j + k)) (json_array_get obj (j + k)) =
            Except.ok o) ∧
        res = objs.reverse ++ acc := by
  intro n
  induction n with
  | zero =>
    intro j acc res h
    refine ⟨[], rfl, ?_, ?_⟩
    · intro k o hk
      simp at hk
    · simp only [load_objects, pure, Except.pure] at h
      simpa using (Except.ok.inj h).symm
  | succ n ih =>
    intro j acc res h
    simp only [load_objects, bind, Except.bind] at h
    cases hg : game_object_from_json c (fresh j) (json_array_get obj j) with
    | error e =>
      rw [hg] at h
      cases h
    | ok g =>
      rw [hg] at h
      obtain ⟨objs, hlen, hparse, hres⟩ := ih (j + 1) (g :: acc) res h
      refine ⟨g :: objs, by simp [hlen], ?_, ?_⟩
      · intro k o hk
        cases k with
        | zero =>
          simp at hk
          subst hk
          simpa using hg
        | succ k =>
          have := hparse k o (by simpa using hk)
          have he : j + (k + 1) = j + 1 + k := by omega
          rw [he]
          exact this
      · rw [hres]
        simp

/-- What `load_room` stores in a room: the exits read cell by cell, and the
objects in the reverse of their order in the document. -/
theorem load_room_fields (c : game_object_h) (fresh_room : room_t)
    (fresh : Nat → game_object_t) (doc : Option json_t) (r : room_t)
    (h : load_room c fresh_room fresh doc = Except.ok r) :
    r.id = json_int_from_obj_key doc "id" ∧
    r.exits = load_exit_array (json_object_get doc "exits") ∧
    ∃ objs : List game_object_t,
      objs.length = json_array_size (json_object_get doc "objects") ∧
      (∀ (k : Nat) (o : game_object_t), objs[k]? = some o →
        game_object_from_json c (fresh k) (json_array_get (json_object_get doc "objects") k) =
          Except.ok o) ∧
      r.objects = objs.reverse := by
  simp only [load_room, bind, Except.bind] at h
  cases h1 : string_arg (json_str_from_obj_key doc "name") with
  | error e => rw [h1] at h; cases h
  | ok nm =>
    rw [h1] at h
    cases h2 : string_arg (json_str_from_obj_key doc "description") with
    | error e => rw [h2] at h; cases h
    | ok ds =>
      rw [h2] at h
      cases h3 : load_objects c fresh (json_object_get doc "objects")
          (json_array_size (json_object_get doc "objects")) 0 [] with
      | error e => rw [h3] at h; cases h
      | ok objects =>
        rw [h3] at h
        have hr := (Except.ok.inj h).symm
        subst hr
        obtain ⟨objs, hlen, hparse, hres⟩ := load_objects_reverse c fresh _ _ 0 [] objects h3
        refine ⟨rfl, rfl, objs, hlen, ?_, by simpa using hres⟩
        intro k o hk
        simpa using hparse k o hk

/-- Every room in the table that the loop over rooms leaves was there before or
was built by `load_room` from one of the documents the loop went through. -/
theorem load_rooms_cells (c : game_object_h) (fresh_room : Nat → room_t)
    (fresh : Nat → Nat → game_object_t) (rooms_obj : Option json_t) :
    ∀ (n i : Nat) (rooms res : List (Option room_t)),
      load_rooms c fresh_room fresh rooms_obj n i rooms = Except.ok res →
      ∀ r, some r ∈ res → some r ∈ rooms ∨
        ∃ k, i ≤ k ∧ k < i + n ∧
          load_room c (fresh_room k) (fresh k) (json_array_get rooms_obj k) = Except.ok r := by
  intro n
  induction n with
  | zero =>
    intro i rooms res h r hr
    simp only [load_rooms, pure, Except.pure] at h
    rw [← Except.ok.inj h] at hr
    exact Or.inl hr
  | succ n ih =>
    intro i rooms res h r hr
    simp only [load_rooms, bind, Except.bind] at h
    cases h1 : load_room c (fresh_room i) (fresh i) (json_array_get rooms_obj i) with
    | error e => rw [h1] at h; cases h
    | ok room =>
      rw [h1] at h
      dsimp only at h
      cases h2 : write table.rooms rooms room.id (some room) with
      | error e => rw [h2] at h; cases h
      | ok rooms1 =>
        rw [h2] at h
        rcases ih (i + 1) rooms1 res h r hr with h3 | ⟨k, hk1, hk2, hk3⟩
        · rw [write_eq_ok _ _ _ _ _ h2] at h3
          rcases List.mem_or_eq_of_mem_set h3 with h4 | h4
          · exact Or.inl h4
          · have : r = room := Option.some.inj h4
            subst this
            exact Or.inr ⟨i, le_refl i, by omega, h1⟩
        · exact Or.inr ⟨k, by omega, by omega, hk3⟩

/-- Every room of a loaded area was built by `load_room` from one of the room
documents. -/
theorem load_area_file_rooms (c : game_object_h) (fresh_room : Nat → room_t)
    (fresh : Nat → Nat → game_object_t) (area : area_t) (jsp : json_t) (rc : Int)
    (a : area_t)
    (h : load_area_file c fresh_room fresh area (some jsp) = Except.ok (rc, a))
    (r : room_t) (hr : some r ∈ a.rooms) :
    ∃ k, k < json_array_size (json_object_get (some jsp) "rooms") ∧
      load_room c (fresh_room k) (fresh k)
        (json_array_get (json_object_get (some jsp) "rooms") k) = Except.ok r := by
  simp only [load_area_file, bind, Except.bind, pure, Except.pure] at h
  cases h1 : string_arg (json_str_from_obj_key (some jsp) "name") with
  | error e => rw [h1] at h; cases h
  | ok nm =>
    rw [h1] at h
    cases h2 : load_rooms c fresh_room fresh (json_object_get (some jsp) "rooms")
        (json_array_size (json_object_get (some jsp) "rooms")) 0
        (List.replicate (json_array_size (json_object_get (some jsp) "rooms")) none) with
    | error e => rw [h2] at h; cases h
    | ok rooms =>
      rw [h2] at h
      have ha := (Except.ok.inj h)
      have hrooms : a.rooms = rooms := by
        have h5 := congrArg (fun p => p.2.rooms) ha
        exact h5.symm
      rw [hrooms] at hr
      rcases load_rooms_cells c fresh_room fresh _ _ 0 _ rooms h2 r hr with h3 | ⟨k, _, hk, h4⟩
      · have := List.eq_of_mem_replicate h3
        cases this
      · exact ⟨k, by omega, h4⟩

/-- The lookup skips the objects at the front of the list that do not match. -/
theorem lookup_skips_front (K : Nat) (key : c_string) (ys : List game_object_t) :
    ∀ xs : List game_object_t,
      (∀ o ∈ xs, object_matches_key K (some o) key = Except.ok false) →
      lookup_object_from_list K (xs ++ ys) key = lookup_object_from_list K ys key := by
  intro xs
  induction xs with
  | nil => intro _; rfl
  | cons x xs ih =>
    intro h
    have hx := h x (List.mem_cons_self x xs)
    simp only [List.cons_append, lookup_object_from_list, hx, bind, Except.bind]
    exact ih (fun o ho => h o (List.mem_cons_of_mem x ho))

/-- In a chain that holds the objects `objs` in reverse order, the lookup
returns the last of the objects of `objs` that match. -/
theorem lookup_reverse_last (K : Nat) (key : c_string) (objs : List game_object_t) (j : Nat)
    (o : game_object_t) (hj : objs[j]? = some o)
    (hm : object_matches_key K (some o) key = Except.ok true)
    (hlater : ∀ (j1 : Nat) (o1 : game_object_t), j < j1 → objs[j1]? = some o1 →
      object_matches_key K (some o1) key = Except.ok false) :
    lookup_object_from_list K objs.reverse key = Except.ok (some o) := by
  obtain ⟨hjl, hjo⟩ := List.getElem?_eq_some_iff.mp hj
  have hsplit : objs = objs.take j ++ o :: objs.drop (j + 1) := by
    rw [← hjo, ← List.drop_eq_getElem_cons hjl, List.take_append_drop]
  have hrev : objs.reverse = (objs.drop (j + 1)).reverse ++ o :: (objs.take j).reverse := by
    conv_lhs => rw [hsplit]
    simp
  rw [hrev, lookup_skips_front]
  · simp only [lookup_object_from_list, hm, bind, Except.bind, if_true, pure, Except.pure]
  · intro o1 ho1
    have ho2 : o1 ∈ objs.drop (j + 1) := List.mem_reverse.mp ho1
    obtain ⟨k, hk⟩ := List.mem_iff_getElem?.mp ho2
    rw [List.getElem?_drop] at hk
    exact hlater (j + 1 + k) o1 (by omega) hk

/-- C16, refuted at `short_exits_area_doc`: the two missing entries of room 0
and the `null` entry of room 1 are loaded as 0, not as -1, and room 1 has an
exit to room 0 in the loaded area. At `wide_exits_area_doc` the entries
2147483648 and -4294967295 are loaded as -2147483648 and 1, the values that the
store in an `int` leaves. -/
theorem missing_exit_loads_as_room_zero :
    (load_area_file example_h (fun _ => fresh_room) (fun _ _ => fresh_object) empty_area
        (some short_exits_area_doc)).map
        (fun r => (r.1, r.2.rooms.map (Option.map room_t.exits))) =
      Except.ok (0, [some [-1, 1, 0, 0], some [0, -1, -1, -1]]) ∧
    (∃ a, load_area_file example_h (fun _ => fresh_room) (fun _ _ => fresh_object) empty_area
        (some short_exits_area_doc) = Except.ok (0, a) ∧ has_exit a 1 0) ∧
    (load_area_file example_h (fun _ => fresh_room) (fun _ _ => fresh_object) empty_area
        (some wide_exits_area_doc)).map
        (fun r => (r.1, r.2.rooms.map (Option.map room_t.exits))) =
      Except.ok (0, [some [-2147483648, 1, 1, -1]]) :=
  ⟨rfl, ⟨_, rfl, _, rfl, by decide⟩, rfl⟩

/-- C16, amended: in every room of a loaded area, the exit in the direction
`j` is `json_integer_value` of the entry `j` of the exits of the document of
the room, stored in an `int`: the number of the entry itself when it is in the
range of `int`, and the number wrapped to 32 bits otherwise. An entry that is
missing or `null` is loaded as 0, the id of room 0, and there is no exit only
where the stored number is negative. -/
theorem load_area_file_missing_exit_is_zero (c : game_object_h) (fresh_room : Nat → room_t)
    (fresh : Nat → Nat → game_object_t) (area : area_t) (jsp : json_t) (rc : Int)
    (a : area_t)
    (hload : load_area_file c fresh_room fresh area (some jsp) = Except.ok (rc, a))
    (r : room_t) (hr : some r ∈ a.rooms) :
    ∃ k, k < json_array_size (json_object_get (some jsp) "rooms") ∧
      r.id = json_int_from_obj_key
        (json_array_get (json_object_get (some jsp) "rooms") k) "id" ∧
      ∀ j, j < MAX_ROOM_EXITS →
        r.exits[j]? = some (to_int (json_integer_value (json_array_get (json_object_get
          (json_array_get (json_object_get (some jsp) "rooms") k) "exits") j))) ∧
        (is_int (json_integer_value (json_array_get (json_object_get
            (json_array_get (json_object_get (some jsp) "rooms") k) "exits") j)) →
          r.exits[j]? = some (json_integer_value (json_array_get (json_object_get
            (json_array_get (json_object_get (some jsp) "rooms") k) "exits") j))) ∧
        ((json_array_get (json_object_get
            (json_array_get (json_object_get (some jsp) "rooms") k) "exits") j = none ∨
          json_array_get (json_object_get
            (json_array_get (json_object_get (some jsp) "rooms") k) "exits") j =
            some json_t.null) →
          r.exits[j]? = some 0) := by
  obtain ⟨k, hk, hroom⟩ := load_area_file_rooms c fresh_room fresh area jsp rc a hload r hr
  obtain ⟨hid, hexits, _⟩ := load_room_fields c _ _ _ r hroom
  refine ⟨k, hk, hid, ?_⟩
  intro j hj
  have hcell := load_exit_array_cell (json_object_get
    (json_array_get (json_object_get (some jsp) "rooms") k) "exits") j hj
  rw [hexits]
  refine ⟨hcell, ?_, ?_⟩
  · intro hint
    rw [hcell, to_int_of_is_int _ hint]
  · intro hmiss
    rw [hcell]
    rcases hmiss with h1 | h1 <;> rw [h1] <;> rfl

/-- C16, amended, at `short_exits_area_doc` and its room 1. -/
theorem load_area_file_missing_exit_is_zero_witness :
    ∃ (a : area_t) (r : room_t),
      load_area_file example_h (fun _ => fresh_room) (fun _ _ => fresh_object) empty_area
        (some short_exits_area_doc) = Except.ok (0, a) ∧
      some r ∈ a.rooms ∧ r.id = 1 ∧ r.exits[0]? = some 0 ∧
      ∃ k, k < json_array_size (json_object_get (some short_exits_area_doc) "rooms") ∧
        r.id = json_int_from_obj_key
          (json_array_get (json_object_get (some short_exits_area_doc) "rooms") k) "id" ∧
        ∀ j, j < MAX_ROOM_EXITS →
          r.exits[j]? = some (to_int (json_integer_value (json_array_get (json_object_get
            (json_array_get (json_object_get (some short_exits_area_doc) "rooms") k)
              "exits") j))) ∧
          (is_int (json_integer_value (json_array_get (json_object_get
              (json_array_get (json_object_get (some short_exits_area_doc) "rooms") k)
                "exits") j)) →
            r.exits[j]? = some (json_integer_value (json_array_get (json_object_get
              (json_array_get (json_object_get (some short_exits_area_doc) "rooms") k)
                "exits") j))) ∧
          ((json_array_get (json_object_get
              (json_array_get (json_object_get (some short_exits_area_doc) "rooms") k)
                "exits") j = none ∨
            json_array_get (json_object_get
              (json_array_get (json_object_get (some short_exits_area_doc) "rooms") k)
                "exits") j = some json_t.null) →
            r.exits[j]? = some 0) :=
  ⟨_, { fresh_room with
        id := 1, name := utf8 "hall", description := utf8 "bare walls",
        exits := [0, -1, -1, -1], exit_areas := [0, 0, 0, 0],
        locked_exits := [0, 0, 0, 0] },
   rfl, by decide, rfl, rfl,
   load_area_file_missing_exit_is_zero example_h (fun _ => fresh_room)
     (fun _ _ => fresh_object) empty_area short_exits_area_doc 0 _ rfl _ (by decide)⟩

/-- C19: in every room of a loaded area the chain of objects holds the objects
parsed from the document of the room in the reverse of their order in the
document, so `lookup_room_object` returns, of the objects that match a key,
the one that comes last in the document. -/
theorem load_area_file_reverses_objects (c : game_object_h) (fresh_room : Nat → room_t)
    (fresh : Nat → Nat → game_object_t) (area : area_t) (jsp : json_t) (rc : Int)
    (a : area_t)
    (hload : load_area_file c fresh_room fresh area (some jsp) = Except.ok (rc, a))
    (r : room_t) (hr : some r ∈ a.rooms) :
    ∃ (k : Nat) (objs : List game_object_t),
      k < json_array_size (json_object_get (some jsp) "rooms") ∧
      objs.length = json_array_size (json_object_get
        (json_array_get (json_object_get (some jsp) "rooms") k) "objects") ∧
      (∀ (j : Nat) (o : game_object_t), objs[j]? = some o →
        game_object_from_json c (fresh k j) (json_array_get (json_object_get
          (json_array_get (json_object_get (some jsp) "rooms") k) "objects") j) =
          Except.ok o) ∧
      r.objects = objs.reverse ∧
      ∀ (K : Nat) (key : c_string) (j : Nat) (o : game_object_t), objs[j]? = some o →
        object_matches_key K (some o) key = Except.ok true →
        (∀ (j1 : Nat) (o1 : game_object_t), j < j1 → objs[j1]? = some o1 →
          object_matches_key K (some o1) key = Except.ok false) →
        lookup_room_object K r key = Except.ok (some o) := by
  obtain ⟨k, hk, hroom⟩ := load_area_file_rooms c fresh_room fresh area jsp rc a hload r hr
  obtain ⟨_, _, objs, hlen, hparse, hobjs⟩ := load_room_fields c _ _ _ r hroom
  refine ⟨k, objs, hk, hlen, hparse, hobjs, ?_⟩
  intro K key j o hj hm hlater
  simp only [lookup_room_object, hobjs]
  exact lookup_reverse_last K key objs j o hj hm hlater

/-- C19, at `two_objects_area_doc`: the room holds the sabre before the sword,
and the key "s", which both match, finds the sabre. -/
theorem load_area_file_reverses_objects_witness :
    ∃ (a : area_t) (r : room_t),
      load_area_file example_h (fun _ => fresh_room) (fun _ _ => fresh_object) empty_area
        (some two_objects_area_doc) = Except.ok (0, a) ∧
      some r ∈ a.rooms ∧ r.objects = [loaded_sabre, loaded_sword] ∧
      object_matches_key example_h.MAX_KEYWORDS (some loaded_sword) (utf8 "s") =
        Except.ok true ∧
      object_matches_key example_h.MAX_KEYWORDS (some loaded_sabre) (utf8 "s") =
        Except.ok true ∧
      lookup_room_object example_h.MAX_KEYWORDS r (utf8 "s") =
        Except.ok (some loaded_sabre) ∧
      ∃ (k : Nat) (objs : List game_object_t),
        k < json_array_size (json_object_get (some two_objects_area_doc) "rooms") ∧
        objs.length = json_array_size (json_object_get
          (json_array_get (json_object_get (some two_objects_area_doc) "rooms") k)
            "objects") ∧
        (∀ (j : Nat) (o : game_object_t), objs[j]? = some o →
          game_object_from_json example_h fresh_object (json_array_get (json_object_get
            (json_array_get (json_object_get (some two_objects_area_doc) "rooms") k)
              "objects") j) = Except.ok o) ∧
        r.objects = objs.reverse ∧
        ∀ (K : Nat) (key : c_string) (j : Nat) (o : game_object_t), objs[j]? = some o →
          object_matches_key K (some o) key = Except.ok true →
          (∀ (j1 : Nat) (o1 : game_object_t), j < j1 → objs[j1]? = some o1 →
            object_matches_key K (some o1) key = Except.ok false) →
          lookup_room_object K r key = Except.ok (some o) :=
  ⟨_, { fresh_room with
        id := 0, name := utf8 "hall", description := utf8 "bare walls",
        exits := [-1, -1, -1, -1], exit_areas := [0, 0, 0, 0],
        locked_exits := [0, 0, 0, 0], objects := [loaded_sabre, loaded_sword] },
   rfl, by decide, rfl, rfl, rfl, rfl,
   load_area_file_reverses_objects example_h (fun _ => fresh_room)
     (fun _ _ => fresh_object) empty_area two_objects_area_doc 0 _ rfl _ (by decide)⟩

/-! ## The queue during the search -/

/-- A call of `enqueue` that ends without a fault, on a queue whose array has
`size` cells, writes at an index below `size` and moves the tail up by one,
without a wrap. -/
theorem enqueue_in_bounds (q q1 : room_queue_t) (v : Int)
    (hlen : q.room_ids.length = q.size) (h : enqueue q v = Except.ok q1) :
    q.tail < q.size ∧ q1.tail = q.tail + 1 ∧ q1.head = q.head ∧ q1.size = q.size ∧
      q1.room_ids = q.room_ids.set q.tail v ∧ q1.room_ids.length = q1.size := by
  by_cases ht : q.tail < q.room_ids.length
  · have hw := write_ok table.room_ids q.room_ids q.tail v ht
    have hne : q.tail ≠ q.size := by omega
    simp only [enqueue, hw, bind, Except.bind, hne, if_false, pure, Except.pure] at h
    have hq := (Except.ok.inj h).symm
    subst hq
    exact ⟨by omega, rfl, rfl, rfl, rfl, by simp [hlen]⟩
  · have hw := write_big table.room_ids q.room_ids (q.tail : Int) v (Or.inr (by omega))
    simp only [enqueue, hw, bind, Except.bind] at h
    cases h

/-- A call of `dequeue` that ends without a fault, on a queue whose array has
`size` cells, reads at an index below `size` and moves the head up by one,
without a wrap. -/
theorem dequeue_in_bounds (q q1 : room_queue_t) (v : Int)
    (hlen : q.room_ids.length = q.size) (h : dequeue q = Except.ok (v, q1)) :
    q.head < q.size ∧ q.room_ids[q.head]? = some v ∧ q1.head = q.head + 1 ∧
      q1.tail = q.tail ∧ q1.size = q.size ∧ q1.room_ids = q.room_ids := by
  by_cases hh : q.head < q.room_ids.length
  · have hr := read_ok table.room_ids q.room_ids q.head _ (List.getElem?_eq_getElem hh)
    have hne : q.head ≠ q.size := by omega
    simp only [dequeue, hr, bind, Except.bind, hne, if_false, pure, Except.pure] at h
    have hq := Except.ok.inj h
    have hv : q.room_ids[q.head] = v := congrArg Prod.fst hq
    have hq1 : { q with head := q.head + 1 } = q1 := congrArg Prod.snd hq
    subst hq1
    exact ⟨by omega, by rw [List.getElem?_eq_getElem hh, hv], rfl, rfl, rfl, rfl⟩
  · have hnone : q.room_ids[q.head]? = none := List.getElem?_eq_none (by omega)
    have h0 : ¬ ((q.head : Int) < 0) := by omega
    simp only [dequeue, read, h0, if_false, Int.toNat_ofNat, hnone, bind, Except.bind] at h
    cases h

/-- The call `enqueue_logged` is `enqueue` with one write added to the record. -/
theorem enqueue_logged_eq (q : room_queue_t) (v : Int) (log : queue_log) :
    enqueue_logged q v log =
      (enqueue q v).map
        (fun q1 => (q1, { log with writes := log.writes ++ [(q.tail, v)] })) := by
  cases h : enqueue q v <;> simp [enqueue_logged, h, bind, Except.bind, Except.map, pure,
    Except.pure]

/-- The call `dequeue_logged` is `dequeue` with one read added to the record. -/
theorem dequeue_logged_eq (q : room_queue_t) (log : queue_log) :
    dequeue_logged q log =
      (dequeue q).map
        (fun r => (r.1, r.2, { log with reads := log.reads ++ [(q.head, r.1)] })) := by
  cases h : dequeue q <;> simp [dequeue_logged, h, bind, Except.bind, Except.map, pure,
    Except.pure]

/-- Without the record, `visit_logged` is `visit`. -/
theorem visit_logged_fst (ui vi : Int) (st : bfs_state) (log : queue_log) :
    (visit_logged ui vi st log).map Prod.fst = visit ui vi st := by
  unfold visit_logged visit
  by_cases h0 : 0 ≤ vi
  · simp only [h0, if_true, bind, Except.bind]
    cases read table.colors st.d.colors vi with
    | error e => rfl
    | ok c =>
      by_cases hc : c = VERTEX_WHITE
      · simp only [hc, if_true]
        cases write table.colors st.d.colors vi VERTEX_GRAY with
        | error e => rfl
        | ok colors =>
          dsimp only
          cases read table.distances st.d.distances ui with
          | error e => rfl
          | ok du =>
            dsimp only
            cases write table.distances st.d.distances vi (du + 1) with
            | error e => rfl
            | ok distances =>
              dsimp only
              cases write table.predecessors st.d.predecessors vi ui with
              | error e => rfl
              | ok predecessors =>
                dsimp only
                rw [enqueue_logged_eq]
                cases enqueue st.q vi with
                | error e => rfl
                | ok q => rfl
      · simp only [hc, if_false]
        rfl
  · simp only [h0, if_false]
    rfl

/-- Without the record, `scan_exits_logged` is `scan_exits`. -/
theorem scan_exits_logged_fst (u : room_t) (ui : Int) (js : List Nat) :
    ∀ (st : bfs_state) (log : queue_log),
      (scan_exits_logged u ui js st log).map Prod.fst = scan_exits u ui js st := by
  induction js with
  | nil => intro st log; rfl
  | cons j js ih =>
    intro st log
    simp only [scan_exits_logged, scan_exits, bind, Except.bind]
    cases read table.exits u.exits (j : Int) with
    | error e => rfl
    | ok vi =>
      dsimp only
      rw [← visit_logged_fst ui vi st log]
      cases visit_logged ui vi st log with
      | error e => rfl
      | ok r => exact ih r.1 r.2

/-- Without the record, `bfs_step_logged` is `bfs_step`. -/
theorem bfs_step_logged_fst (area : area_t) (st : bfs_state) (log : queue_log) :
    (bfs_step_logged area st log).map Prod.fst = bfs_step area st := by
  simp only [bfs_step_logged, bfs_step, bind, Except.bind, dequeue_logged_eq]
  cases dequeue st.q with
  | error e => rfl
  | ok r =>
    simp only [Except.map]
    cases room_at area r.1 with
    | error e => rfl
    | ok u =>
      dsimp only
      rw [← scan_exits_logged_fst u r.1 (List.range MAX_ROOM_EXITS)
        { st with q := r.2, dequeued := st.dequeued ++ [r.1] }
        { log with reads := log.reads ++ [(st.q.head, r.1)] }]
      cases scan_exits_logged u r.1 (List.range MAX_ROOM_EXITS)
        { st with q := r.2, dequeued := st.dequeued ++ [r.1] }
        { log with reads := log.reads ++ [(st.q.head, r.1)] } with
      | error e => rfl
      | ok p =>
        simp only [Except.map]
        cases write table.colors p.1.d.colors r.1 VERTEX_BLACK with
        | error e => rfl
        | ok colors => rfl

/-- Without the record, `bfs_loop_logged` is `bfs_loop`. -/
theorem bfs_loop_logged_fst (area : area_t) (fuel : Nat) :
    ∀ (st : bfs_state) (log : queue_log),
      (bfs_loop_logged area fuel st log).map Prod.fst = bfs_loop area fuel st := by
  induction fuel with
  | zero =>
    intro st log
    simp only [bfs_loop_logged, bfs_loop]
    cases is_empty_queue st.q <;> rfl
  | succ fuel ih =>
    intro st log
    simp only [bfs_loop_logged, bfs_loop]
    cases is_empty_queue st.q with
    | true => rfl
    | false =>
      simp only [Bool.false_eq_true, if_false, bind, Except.bind]
      rw [← bfs_step_logged_fst area st log]
      cases bfs_step_logged area st log with
      | error e => rfl
      | ok p => exact ih p.1 p.2

/-- Without the record, `area_bfs_run_logged` is `area_bfs_run`. -/
theorem area_bfs_run_logged_fst (fuel : Nat) (area : area_t) (source : room_t) :
    (area_bfs_run_logged fuel area source).map Prod.fst = area_bfs_run fuel area source := by
  simp only [area_bfs_run_logged, area_bfs_run, bfs_init, bind, Except.bind, enqueue_logged_eq]
  cases write table.colors (List.replicate area.num_rooms VERTEX_WHITE) source.id
      VERTEX_GRAY with
  | error e => rfl
  | ok colors =>
    cases enqueue (create_queue area.num_rooms) source.id with
    | error e => rfl
    | ok q => exact bfs_loop_logged_fst area fuel _ _

/-- The first `k + 1` cells after a write at index `k`. -/
theorem take_set_succ (xs : List Int) (k : Nat) (v : Int) (hk : k < xs.length) :
    (xs.set k v).take (k + 1) = xs.take k ++ [v] := by
  apply List.ext_getElem?
  intro i
  by_cases hi : i < k
  · rw [List.getElem?_take_of_lt (by omega), List.getElem?_set_ne (by omega),
      List.getElem?_append_left (by simp; omega), List.getElem?_take_of_lt hi]
  · by_cases hik : i = k
    · subst hik
      rw [List.getElem?_take_of_lt (by omega), List.getElem?_set_self hk,
        List.getElem?_append_right (by simp)]
      simp [Nat.min_eq_left (Nat.le_of_lt hk)]
    · rw [List.getElem?_take_eq_none (by omega), List.getElem?_eq_none (by simp; omega)]

/-- A call of `enqueue_logged` that ends without a fault keeps the record
fitting the queue, and adds no read. -/
theorem enqueue_logged_fits (q q1 : room_queue_t) (v : Int) (log log1 : queue_log)
    (hf : log_fits q log) (h : enqueue_logged q v log = Except.ok (q1, log1)) :
    log_fits q1 log1 ∧ log1.reads = log.reads := by
  obtain ⟨hlen, htl, hhd, hwi, hwv, hri⟩ := hf
  rw [enqueue_logged_eq] at h
  cases he : enqueue q v with
  | error e =>
    rw [he] at h
    cases h
  | ok q2 =>
    rw [he] at h
    have hp := Except.ok.inj h
    have hq : q2 = q1 := congrArg Prod.fst hp
    have hl : { log with writes := log.writes ++ [(q.tail, v)] } = log1 := congrArg Prod.snd hp
    subst hq
    subst hl
    obtain ⟨ht, ht1, hh1, hs1, hids, hlen1⟩ := enqueue_in_bounds q q2 v hlen he
    refine ⟨⟨hlen1, by omega, by omega, ?_, ?_, ?_⟩, rfl⟩
    · rw [ht1, List.range_succ]
      simp [hwi]
    · rw [ht1, hids, take_set_succ q.room_ids q.tail v (by omega)]
      simp [hwv]
    · rw [hh1]
      exact hri

/-- A call of `dequeue_logged` that ends without a fault keeps the record
fitting the queue, and adds the one read of the id it returns. -/
theorem dequeue_logged_fits (q q1 : room_queue_t) (v : Int) (log log1 : queue_log)
    (hf : log_fits q log) (h : dequeue_logged q log = Except.ok (v, q1, log1)) :
    log_fits q1 log1 ∧ log1.reads = log.reads ++ [(q.head, v)] := by
  obtain ⟨hlen, htl, hhd, hwi, hwv, hri⟩ := hf
  rw [dequeue_logged_eq] at h
  cases he : dequeue q with
  | error e =>
    rw [he] at h
    cases h
  | ok r =>
    rw [he] at h
    have hp := Except.ok.inj h
    have hv : r.1 = v := congrArg Prod.fst hp
    have hq : r.2 = q1 := congrArg (fun p => p.2.1) hp
    have hl : { log with reads := log.reads ++ [(q.head, r.1)] } = log1 :=
      congrArg (fun p => p.2.2) hp
    subst hv
    subst hq
    subst hl
    obtain ⟨hh, _, hh1, ht1, hs1, hids⟩ := dequeue_in_bounds q r.2 r.1 hlen he
    refine ⟨⟨by rw [hids, hs1]; exact hlen, by omega, by omega, ?_, ?_, ?_⟩, rfl⟩
    · rw [ht1]
      exact hwi
    · rw [ht1, hids]
      exact hwv
    · rw [hh1, List.range_succ]
      simp [hri]

/-- A call of `visit_logged` that ends without a fault keeps the record fitting
the queue, and adds no read. -/
theorem visit_logged_fits (ui vi : Int) (st st1 : bfs_state) (log log1 : queue_log)
    (hf : log_fits st.q log) (h : visit_logged ui vi st log = Except.ok (st1, log1)) :
    log_fits st1.q log1 ∧ log1.reads = log.reads ∧ st1.dequeued = st.dequeued := by
  unfold visit_logged at h
  by_cases h0 : 0 ≤ vi
  · simp only [h0, if_true, bind, Except.bind] at h
    cases hc : read table.colors st.d.colors vi with
    | error e =>
      rw [hc] at h
      cases h
    | ok c =>
      rw [hc] at h
      dsimp only at h
      by_cases hw : c = VERTEX_WHITE
      · simp only [hw, if_true] at h
        cases h1 : write table.colors st.d.colors vi VERTEX_GRAY with
        | error e =>
          rw [h1] at h
          cases h
        | ok colors =>
          rw [h1] at h
          dsimp only at h
          cases h2 : read table.distances st.d.distances ui with
          | error e =>
            rw [h2] at h
            cases h
          | ok du =>
            rw [h2] at h
            dsimp only at h
            cases h3 : write table.distances st.d.distances vi (du + 1) with
            | error e =>
              rw [h3] at h
              cases h
            | ok distances =>
              rw [h3] at h
              dsimp only at h
              cases h4 : write table.predecessors st.d.predecessors vi ui with
              | error e =>
                rw [h4] at h
                cases h
              | ok predecessors =>
                rw [h4] at h
                dsimp only at h
                cases h5 : enqueue_logged st.q vi log with
                | error e =>
                  rw [h5] at h
                  cases h
                | ok r =>
                  rw [h5] at h
                  have hp := Except.ok.inj h
                  have hs : st1 = { st with
                      d := { predecessors := predecessors, colors := colors,
                             distances := distances },
                      q := r.1 } := (congrArg Prod.fst hp).symm
                  have hl : log1 = r.2 := (congrArg Prod.snd hp).symm
                  subst hs
                  subst hl
                  obtain ⟨hf1, hr1⟩ := enqueue_logged_fits st.q r.1 vi log r.2 hf h5
                  exact ⟨hf1, hr1, rfl⟩
      · simp only [hw, if_false] at h
        have hp := Except.ok.inj h
        have hs : st = st1 := congrArg Prod.fst hp
        have hl : log = log1 := congrArg Prod.snd hp
        subst hs
        subst hl
        exact ⟨hf, rfl, rfl⟩
  · simp only [h0, if_false] at h
    have hp := Except.ok.inj h
    have hs : st = st1 := congrArg Prod.fst hp
    have hl : log = log1 := congrArg Prod.snd hp
    subst hs
    subst hl
    exact ⟨hf, rfl, rfl⟩

/-- A run of `scan_exits_logged` that ends without a fault keeps the record
fitting the queue, and adds no read. -/
theorem scan_exits_logged_fits (u : room_t) (ui : Int) (js : List Nat) :
    ∀ (st st1 : bfs_state) (log log1 : queue_log), log_fits st.q log →
      scan_exits_logged u ui js st log = Except.ok (st1, log1) →
      log_fits st1.q log1 ∧ log1.reads = log.reads ∧ st1.dequeued = st.dequeued := by
  induction js with
  | nil =>
    intro st st1 log log1 hf h
    have hp := Except.ok.inj h
    have hs : st = st1 := congrArg Prod.fst hp
    have hl : log = log1 := congrArg Prod.snd hp
    subst hs
    subst hl
    exact ⟨hf, rfl, rfl⟩
  | cons j js ih =>
    intro st st1 log log1 hf h
    simp only [scan_exits_logged, bind, Except.bind] at h
    cases h1 : read table.exits u.exits (j : Int) with
    | error e =>
      rw [h1] at h
      cases h
    | ok vi =>
      rw [h1] at h
      dsimp only at h
      cases h2 : visit_logged ui vi st log with
      | error e =>
        rw [h2] at h
        cases h
      | ok r =>
        rw [h2] at h
        dsimp only at h
        obtain ⟨hf1, hr1, hd1⟩ := visit_logged_fits ui vi st r.1 log r.2 hf h2
        obtain ⟨hf2, hr2, hd2⟩ := ih r.1 st1 r.2 log1 hf1 h
        exact ⟨hf2, hr2.trans hr1, hd2.trans hd1⟩

/-- A turn `bfs_step_logged` that ends without a fault keeps the record fitting
the queue, and the ids read are the ids dequeued so far. -/
theorem bfs_step_logged_fits (area : area_t) (st st1 : bfs_state) (log log1 : queue_log)
    (hf : log_fits st.q log) (hd : log.reads.map Prod.snd = st.dequeued)
    (h : bfs_step_logged area st log = Except.ok (st1, log1)) :
    log_fits st1.q log1 ∧ log1.reads.map Prod.snd = st1.dequeued := by
  simp only [bfs_step_logged, bind, Except.bind] at h
  cases h1 : dequeue_logged st.q log with
  | error e =>
    rw [h1] at h
    cases h
  | ok r =>
    rw [h1] at h
    dsimp only at h
    obtain ⟨hf1, hr1⟩ := dequeue_logged_fits st.q r.2.1 r.1 log r.2.2 hf h1
    cases h2 : room_at area r.1 with
    | error e =>
      rw [h2] at h
      cases h
    | ok u =>
      rw [h2] at h
      dsimp only at h
      cases h3 : scan_exits_logged u r.1 (List.range MAX_ROOM_EXITS)
          { st with q := r.2.1, dequeued := st.dequeued ++ [r.1] } r.2.2 with
      | error e =>
        rw [h3] at h
        cases h
      | ok p =>
        rw [h3] at h
        dsimp only at h
        obtain ⟨hf2, hr2, hd2⟩ := scan_exits_logged_fits u r.1 (List.range MAX_ROOM_EXITS)
          { st with q := r.2.1, dequeued := st.dequeued ++ [r.1] } p.1 r.2.2 p.2 hf1 h3
        cases h4 : write table.colors p.1.d.colors r.1 VERTEX_BLACK with
        | error e =>
          rw [h4] at h
          cases h
        | ok colors =>
          rw [h4] at h
          have hp := Except.ok.inj h
          have hs : st1 = { p.1 with d := { p.1.d with colors := colors } } :=
            (congrArg Prod.fst hp).symm
          have hl : log1 = p.2 := (congrArg Prod.snd hp).symm
          subst hs
          subst hl
          refine ⟨hf2, ?_⟩
          show p.2.reads.map Prod.snd = p.1.dequeued
          rw [hr2, hr1, hd2]
          simp [hd]

/-- A run of `bfs_loop_logged` that ends without a fault keeps the record
fitting the queue, and the ids read are the ids dequeued. -/
theorem bfs_loop_logged_fits (area : area_t) (fuel : Nat) :
    ∀ (st st1 : bfs_state) (log log1 : queue_log), log_fits st.q log →
      log.reads.map Prod.snd = st.dequeued →
      bfs_loop_logged area fuel st log = Except.ok (st1, log1) →
      log_fits st1.q log1 ∧ log1.reads.map Prod.snd = st1.dequeued := by
  induction fuel with
  | zero =>
    intro st st1 log log1 hf hd h
    simp only [bfs_loop_logged] at h
    cases he : is_empty_queue st.q with
    | false =>
      rw [he] at h
      cases h
    | true =>
      rw [he] at h
      have hp := Except.ok.inj h
      have hs : st = st1 := congrArg Prod.fst hp
      have hl : log = log1 := congrArg Prod.snd hp
      subst hs
      subst hl
      exact ⟨hf, hd⟩
  | succ fuel ih =>
    intro st st1 log log1 hf hd h
    simp only [bfs_loop_logged] at h
    cases he : is_empty_queue st.q with
    | true =>
      rw [he] at h
      have hp := Except.ok.inj h
      have hs : st = st1 := congrArg Prod.fst hp
      have hl : log = log1 := congrArg Prod.snd hp
      subst hs
      subst hl
      exact ⟨hf, hd⟩
    | false =>
      rw [he] at h
      simp only [Bool.false_eq_true, if_false, bind, Except.bind] at h
      cases h1 : bfs_step_logged area st log with
      | error e =>
        rw [h1] at h
        cases h
      | ok p =>
        rw [h1] at h
        dsimp only at h
        obtain ⟨hf1, hd1⟩ := bfs_step_logged_fits area st p.1 log p.2 hf hd h1
        exact ih p.1 st1 p.2 log1 hf1 hd1 h

/-- A run of `area_bfs_run_logged` that ends without a fault, on any area and
from any source: the record fits the final queue, which has `num_rooms` cells,
and the ids read are the ids dequeued. -/
theorem area_bfs_run_logged_fits (fuel : Nat) (area : area_t) (source : room_t)
    (st : bfs_state) (log : queue_log)
    (h : area_bfs_run_logged fuel area source = Except.ok (st, log)) :
    log_fits st.q log ∧ log.reads.map Prod.snd = st.dequeued := by
  simp only [area_bfs_run_logged, bind, Except.bind] at h
  cases h1 : write table.colors (List.replicate area.num_rooms VERTEX_WHITE) source.id
      VERTEX_GRAY with
  | error e =>
    rw [h1] at h
    cases h
  | ok colors =>
    rw [h1] at h
    dsimp only at h
    cases h2 : enqueue_logged (create_queue area.num_rooms) source.id
        { writes := [], reads := [] } with
    | error e =>
      rw [h2] at h
      cases h
    | ok r =>
      rw [h2] at h
      dsimp only at h
      have hf0 : log_fits (create_queue area.num_rooms) { writes := [], reads := [] } := by
        simp [log_fits, create_queue]
      obtain ⟨hf1, hr1⟩ := enqueue_logged_fits _ r.1 source.id _ r.2 hf0 h2
      exact bfs_loop_logged_fits area fuel _ st r.2 log hf1 (by rw [hr1]; rfl) h

/-- C18: on a well-formed area with `n` rooms and from an in-range source, the
run of `area_bfs` with `n` turns of the `while` loop, one dequeue each, ends
without a fault, and in the record of its accesses to the queue array: the
room ids written by `enqueue` are different from one another and at most `n`;
the writes are at the indexes 0, 1, 2, ... in order and the reads by `dequeue`
are at the indexes 0, 1, 2, ... in order, so without a wrap, and each of these
indexes is below `n`; the reads are at most `n` and return the ids written, in
the same order; at the end head and tail are the number of reads and of
writes, and the array has `n` cells. -/
theorem area_bfs_queue_bounds (area : area_t) (source : room_t)
    (hwf : well_formed area) (hs : in_range area source) :
    ∃ st log, area_bfs_run_logged area.num_rooms area source = Except.ok (st, log) ∧
      area_bfs_run area.num_rooms area source = Except.ok st ∧
      (log.writes.map Prod.snd).Nodup ∧ log.writes.length ≤ area.num_rooms ∧
      log.writes.map Prod.fst = List.range log.writes.length ∧
      log.reads.map Prod.fst = List.range log.reads.length ∧
      (∀ a ∈ log.writes, a.1 < area.num_rooms) ∧
      (∀ a ∈ log.reads, a.1 < area.num_rooms) ∧
      log.reads.length ≤ area.num_rooms ∧
      log.reads.map Prod.snd = log.writes.map Prod.snd ∧
      log.reads.map Prod.snd = st.dequeued ∧
      st.q.tail = log.writes.length ∧ st.q.head = log.reads.length ∧
      st.q.size = area.num_rooms ∧ st.q.room_ids.length = area.num_rooms := by
  obtain ⟨d, q, ord, hrun, inv, hhead⟩ :=
    area_bfs_run_inv hwf source hs area.num_rooms (le_refl _)
  have hln : ord.length ≤ area.num_rooms :=
    nodup_bounded_length ord area.num_rooms inv.nodup inv.range
  have hfst := area_bfs_run_logged_fst area.num_rooms area source
  rw [hrun] at hfst
  cases hlog : area_bfs_run_logged area.num_rooms area source with
  | error e =>
    rw [hlog] at hfst
    cases hfst
  | ok r =>
    rw [hlog] at hfst
    have hst : r.1 = { d := d, q := q, dequeued := ord.map Int.ofNat } := Except.ok.inj hfst
    obtain ⟨⟨hlen, htl, hhd, hwi, hwv, hri⟩, hrv⟩ :=
      area_bfs_run_logged_fits area.num_rooms area source r.1 r.2 hlog
    rw [hst] at hlen htl hhd hwi hwv hri hrv
    dsimp only at hlen htl hhd hwi hwv hri hrv
    have htake : q.room_ids.take q.tail = ord.map Int.ofNat := by
      apply List.ext_getElem?
      intro i
      rw [inv.tail]
      by_cases hi : i < ord.length
      · rw [List.getElem?_take_of_lt hi, List.getElem?_map, List.getElem?_eq_getElem hi]
        exact inv.ids i ord[i] (List.getElem?_eq_getElem hi)
      · rw [List.getElem?_take_eq_none (by omega), List.getElem?_eq_none (by simp; omega)]
    have hwl : r.2.writes.length = q.tail := by
      have := congrArg List.length hwi
      simpa using this
    have hrl : r.2.reads.length = q.head := by
      have := congrArg List.length hri
      simpa using this
    have htn : q.tail = ord.length := inv.tail
    refine ⟨r.1, r.2, rfl, ?_, ?_, ?_, ?_, ?_, ?_, ?_, ?_, ?_, ?_, ?_, ?_, ?_, ?_⟩
    · rw [hrun, hst]
    · rw [hwv, htake]
      exact List.Nodup.map (fun a b hab => Int.ofNat_inj.mp hab) inv.nodup
    · omega
    · rw [hwl]
      exact hwi
    · rw [hrl]
      exact hri
    · intro a ha
      have hm : a.1 ∈ r.2.writes.map Prod.fst := List.mem_map_of_mem Prod.fst ha
      rw [hwi, List.mem_range] at hm
      omega
    · intro a ha
      have hm : a.1 ∈ r.2.reads.map Prod.fst := List.mem_map_of_mem Prod.fst ha
      rw [hri, List.mem_range] at hm
      omega
    · omega
    · rw [hrv, hwv, htake]
    · rw [hrv, hst]
    · rw [hst]
      exact hwl.symm
    · rw [hst]
      exact hrl.symm
    · rw [hst]
      exact inv.size
    · rw [hst]
      exact inv.len_q

/-- C18, at the example area: the hypotheses hold there; the five ids are
written at the indexes 0 to 4 in the order 0, 1, 3, 4, 2 and read back at the
same indexes in the same order. -/
theorem area_bfs_queue_bounds_witness :
    well_formed example_area ∧ in_range example_area example_source ∧
    (area_bfs_run_logged 5 example_area example_source).map Prod.snd =
      Except.ok { writes := [(0, 0), (1, 1), (2, 3), (3, 4), (4, 2)],
                  reads := [(0, 0), (1, 1), (2, 3), (3, 4), (4, 2)] } ∧
    ∃ st log, area_bfs_run_logged example_area.num_rooms example_area example_source =
        Except.ok (st, log) ∧
      area_bfs_run example_area.num_rooms example_area example_source = Except.ok st ∧
      (log.writes.map Prod.snd).Nodup ∧ log.writes.length ≤ example_area.num_rooms ∧
      log.writes.map Prod.fst = List.range log.writes.length ∧
      log.reads.map Prod.fst = List.range log.reads.length ∧
      (∀ a ∈ log.writes, a.1 < example_area.num_rooms) ∧
      (∀ a ∈ log.reads, a.1 < example_area.num_rooms) ∧
      log.reads.length ≤ example_area.num_rooms ∧
      log.reads.map Prod.snd = log.writes.map Prod.snd ∧
      log.reads.map Prod.snd = st.dequeued ∧
      st.q.tail = log.writes.length ∧ st.q.head = log.reads.length ∧
      st.q.size = example_area.num_rooms ∧
      st.q.room_ids.length = example_area.num_rooms :=
  ⟨by decide, by decide, rfl,
   area_bfs_queue_bounds example_area example_source (by decide) (by decide)⟩

end Tartarus
